import Mathlib

/-!
# Range proofs over an RSA quadratic-residue group (package rangeproof)

A shallow embedding of `rangeproof/proof.go` and `rangeproof/splitutils.go`.

Conventions of the embedding.

* `*big.Int` values are `Int`; a pointer that the code tests against `nil`
  (the fields of a received `Proof`) is an `Option Int`.
* Go `int` / `int64` values are `Int`, Go `uint` values are `Nat`; the
  arithmetic the code performs on caller-supplied machine integers is followed
  by the explicit reduction of a 64-bit machine (`wrapInt`, `wrapUint`). A sum
  of several `uint` terms is reduced once, which gives the same value as
  reducing after every addition.
* Go strings are lists of characters (`name[0]`, `name[1:]` become the head
  and the tail of the list).
* A call either returns a value, returns an `error` (`Fault.err`), or stops
  with a run-time panic (`Fault.crash`).
* The random source `common.RandomBigInt` is an explicit argument: a function
  from the number of earlier draws and the requested bit count to the draw.
-/

namespace Rangeproof

/-! ## Machine integers and big integers -/

/-- The constant `strconv.IntSize` of a 64-bit platform. -/
def IntSize : Nat := 64

/-- Arithmetic on Go `uint` values: reduction modulo `2 ^ 64`. -/
def wrapUint (n : Nat) : Nat := n % 2 ^ 64

/-- Arithmetic on Go `int` / `int64` values: two's complement reduction into
`[-2 ^ 63, 2 ^ 63)`; also the conversion `int(u)` of a `uint`. -/
def wrapInt (x : Int) : Int := (x + 2 ^ 63) % 2 ^ 64 - 2 ^ 63

/-- The values a Go `int` / `int64` can hold (`big.Int.IsInt64`). -/
def IsInt64 (x : Int) : Prop := -(2 ^ 63) ≤ x ∧ x < 2 ^ 63

instance (x : Int) : Decidable (IsInt64 x) := by unfold IsInt64; infer_instance

/-- The values a Go `uint` can hold. -/
def IsUint (n : Nat) : Prop := n < 2 ^ 64

instance (n : Nat) : Decidable (IsUint n) := by unfold IsUint; infer_instance

/-- Number of binary digits of a natural number; the first argument bounds the
number of halvings and is never exhausted when it is at least the number. -/
def bitLenAux : Nat → Nat → Nat
  | 0, _ => 0
  | fuel + 1, n => if n = 0 then 0 else bitLenAux fuel (n / 2) + 1

/-- The method `big.Int.BitLen`: length of the absolute value in bits, `0` for `0`. -/
def BitLen (x : Int) : Nat := bitLenAux x.natAbs x.natAbs

/-- Outcome of a call that does not return normally. -/
inductive Fault where
  /-- the call returned a non-nil `error` with this message -/
  | err (msg : String)
  /-- the call stopped with a run-time panic -/
  | crash (msg : String)
  deriving DecidableEq, Repr

deriving instance DecidableEq for Except

/-! ## Square splitters (`splitutils.go`) -/

/-- The interface `SquareSplitter`. -/
structure SquareSplitter where
  /-- Number of bits per square -/
  Ld : Nat
  /-- Number of squares in result -/
  SquareCount : Int
  /-- Actual splitting function -/
  Split : Int → Except Fault (List Int)

/-- The type `SquaresTable`, `[][]int64`; an entry that was never assigned is
the nil slice `[]`. -/
abbrev SquaresTable := List (List Int)

/-- Innermost loop of `GenerateSquaresTable`,
`for k := 0; i*i+j*j+k*k <= 4*limit; k++`. The first argument bounds the
number of iterations; `none` is returned only when it is exhausted. -/
def tableLoopK (limit i j : Nat) : Nat → Nat → SquaresTable → Option SquaresTable
  | 0, _, _ => none
  | fuel + 1, k, result =>
    if i * i + j * j + k * k ≤ 4 * limit then
      let v := i * i + j * j + k * k
      if v % 4 ≠ 2 then tableLoopK limit i j fuel (k + 1) result
      else tableLoopK limit i j fuel (k + 1) (result.set ((v - 2) / 4) [(i : Int), (j : Int), (k : Int)])
    else some result

/-- Middle loop of `GenerateSquaresTable`, `for j := 0; i*i+j*j <= 4*limit; j++`. -/
def tableLoopJ (limit i : Nat) : Nat → Nat → SquaresTable → Option SquaresTable
  | 0, _, _ => none
  | fuel + 1, j, result =>
    if i * i + j * j ≤ 4 * limit then
      match tableLoopK limit i j (4 * limit + 2) 0 result with
      | none => none
      | some result1 => tableLoopJ limit i fuel (j + 1) result1
    else some result

/-- Outer loop of `GenerateSquaresTable`, `for i := 0; i*i <= 4*limit; i++`. -/
def tableLoopI (limit : Nat) : Nat → Nat → SquaresTable → Option SquaresTable
  | 0, _, _ => none
  | fuel + 1, i, result =>
    if i * i ≤ 4 * limit then
      match tableLoopJ limit i (4 * limit + 2) 0 result with
      | none => none
      | some result1 => tableLoopI limit fuel (i + 1) result1
    else some result

/-- The function `GenerateSquaresTable`, for a limit `limit ≥ 0`: a table of
`limit + 1` entries filled by the triple enumeration. The int64 products and
sums of the loops are written without reduction: they are bounded by
`4 * limit`, and the table of `limit + 1` slices has to be allocated first.
`none` stands for a loop that did not finish within its iteration bound
(`GenerateSquaresTable_total` shows that this never happens). -/
def GenerateSquaresTable (limit : Nat) : Option SquaresTable :=
  tableLoopI limit (4 * limit + 2) 0 (List.replicate (limit + 1) [])

/-- Invariant of the enumeration: an entry at index `idx` is either unassigned
or a triple of non-negative integers whose squares sum to `4 * idx + 2`. -/
def SquaresTable.Sound (t : SquaresTable) : Prop :=
  ∀ (idx : Nat) (entry : List Int), t[idx]? = some entry →
    entry = [] ∨ ∃ x y z : Nat, entry = [(x : Int), (y : Int), (z : Int)] ∧
      x * x + y * y + z * z = 4 * idx + 2

/-- The method `SquaresTable.Split`. -/
def SquaresTable.Split (t : SquaresTable) (delta : Int) : Except Fault (List Int) :=
  let v := delta
  if ¬ IsInt64 delta ∨ v < 0 ∨ v ≥ (t.length : Int) ∨ v.tmod 4 ≠ 2 then
    .error (.err "Value outside of table range")
  else
    let v := (v - 2).tdiv 4
    match t[v.toNat]? with
    | none => .error (.crash "index out of range")
    | some entry =>
      match entry[0]?, entry[1]?, entry[2]? with
      | some x, some y, some z => .ok [x, y, z]
      | _, _, _ => .error (.crash "index out of range")

/-- The method `SquaresTable.SquareCount`. -/
def SquaresTable.SquareCount (_t : SquaresTable) : Int := 3

/-- The loop of `SquaresTable.Ld`, `for l > 0 { l /= 4; ld++ }`; the first
argument bounds the number of iterations and is never exhausted when it is at
least `l`. -/
def ldLoop : Nat → Nat → Nat → Nat
  | 0, _, ld => ld
  | fuel + 1, l, ld => if l > 0 then ldLoop fuel (l / 4) (ld + 1) else ld

/-- The method `SquaresTable.Ld`. The counter is incremented once for every
base-4 digit of the length, so the uint additions never reach `2 ^ 64` and
are written without reduction. -/
def SquaresTable.Ld (t : SquaresTable) : Nat :=
  ldLoop t.length t.length 0 + 1

/-- A `SquaresTable` seen through the interface `SquareSplitter`. -/
def SquaresTable.toSplitter (t : SquaresTable) : SquareSplitter :=
  { Ld := t.Ld, SquareCount := t.SquareCount, Split := t.Split }

/-- The type `FourSquaresSplitter` seen through the interface
`SquareSplitter`. The function `common.SumFourSquares` it delegates to is not
among the sources and is taken as an argument. -/
def FourSquaresSplitter (SumFourSquares : Int → Int × Int × Int × Int) : SquareSplitter :=
  { Ld := 128
    SquareCount := 4
    Split := fun delta =>
      match SumFourSquares delta with
      | (a, b, c, d) => .ok [a, b, c, d] }

/-! ## Names, groups and lookups -/

/-- A Go string, as the list of its characters. -/
abbrev Name := List Char

/-- The calls `fmt.Sprintf("C%d", i)`, `fmt.Sprintf("d%d", i)` and
`fmt.Sprintf("v%d", i)` for a loop index `i ≥ 0`: the letter followed by the
decimal digits of `i`. -/
def sprintfD (letter : Char) (i : Nat) : Name := letter :: Nat.toDigits 10 i

/-- Value of a decimal digit, `none` for any other character. -/
def digitVal (ch : Char) : Option Nat :=
  if 48 ≤ ch.toNat ∧ ch.toNat ≤ 57 then some (ch.toNat - 48) else none

/-- Value of a string of decimal digits, `none` when a character is no digit. -/
def parseDigits : List Char → Nat → Option Nat
  | [], acc => some acc
  | ch :: rest, acc =>
    match digitVal ch with
    | none => none
    | some d => parseDigits rest (acc * 10 + d)

/-- The library function `strconv.Atoi` on a 64-bit platform: an optional sign
followed by at least one decimal digit, denoting a value of type int; `none`
stands for a returned error (syntax or range). -/
def Atoi (s : Name) : Option Int :=
  match s with
  | [] => none
  | ch :: rest =>
    if ch = '-' then
      if rest = [] then none
      else match parseDigits rest 0 with
        | none => none
        | some n => if n ≤ 2 ^ 63 then some (-(n : Int)) else none
    else if ch = '+' then
      if rest = [] then none
      else match parseDigits rest 0 with
        | none => none
        | some n => if n < 2 ^ 63 then some (n : Int) else none
    else match parseDigits (ch :: rest) 0 with
      | none => none
      | some n => if n < 2 ^ 63 then some (n : Int) else none

/-- The common tail of the name resolvers of a commit: parse the suffix with
`strconv.Atoi`, answer nil on an error or an index outside the array. -/
def indexInt (xs : List Int) (suffix : Name) : Option Int :=
  match Atoi suffix with
  | none => none
  | some i => if i < 0 ∨ i ≥ (xs.length : Int) then none else xs[i.toNat]?

/-- The common tail of the name resolvers of a proof, whose array entries can
be nil themselves. -/
def indexPtr (xs : List (Option Int)) (suffix : Name) : Option Int :=
  match Atoi suffix with
  | none => none
  | some i => if i < 0 ∨ i ≥ (xs.length : Int) then none else (xs[i.toNat]?).join

/-- Modelled from the spec: part of the modular exponentiation of the BigInt
facade (see `bigExp`): square-and-multiply modulo `n`; the first argument
bounds the number of halvings of the exponent. -/
def powModAux (n : Nat) : Nat → Nat → Nat → Nat
  | 0, _, _ => 1 % n
  | fuel + 1, b, e =>
    if e = 0 then 1 % n
    else if e % 2 = 1 then b * powModAux n fuel (b * b % n) (e / 2) % n
    else powModAux n fuel (b * b % n) (e / 2)

/-- Modelled from the spec: part of the modular exponentiation of the BigInt
facade (see `bigExp`): the power `b ^ e` modulo `n`. -/
def powMod (b e n : Nat) : Nat := powModAux n (bitLenAux e e) b e

/-- Modelled from the spec: part of the modular exponentiation of the BigInt
facade (see `bigExp`): the inverse of `x` modulo `n` in `[0, n)`, when there
is one. -/
def invMod (x n : Nat) : Option Nat := (List.range n).find? (fun y => x * y % n = 1 % n)

/-- Modelled from the spec: the modular exponentiation of the BigInt facade
(package `big`, a wrapper of the Go library, not among the sources), the
method `Exp`: `x ^ y` modulo `|m|` in `[0, |m|)`; for `y < 0` the power of the
inverse of `x`, and `none` (the library returns nil and leaves the destination
unchanged) when `x` has no inverse; for `m = 0` the plain power, `1` when
`y ≤ 0`. -/
def bigExp (x y m : Int) : Option Int :=
  let n := m.natAbs
  if n = 0 then (if y ≤ 0 then some 1 else some (x ^ y.toNat))
  else if 0 ≤ y then some ((powMod (x % (n : Int)).toNat y.toNat n : Nat) : Int)
  else match invMod (x % (n : Int)).toNat n with
    | none => none
    | some xi => some ((powMod xi (-y).toNat n : Nat) : Int)

/-- The struct `QrGroup` (declared in `group.go`, not among the sources), with
the fields `N`, `R`, `S` that `proof.go` reads. -/
structure QrGroup where
  N : Int
  R : Int
  S : Int
  deriving DecidableEq, Repr

/-- Modelled from the spec: the base lookup of the QR group (file `group.go`,
not among the sources): "R" and "S" name the two bases, unknown names yield
absent. -/
def QrGroup.Base (g : QrGroup) (name : Name) : Option Int :=
  if name = ['R'] then some g.R else if name = ['S'] then some g.S else none

/-- Modelled from the spec: the method `Exp(dst, name, exponent, modulus)` of
the QR group (file `group.go`, not among the sources); the result is the new
value of the destination and the returned boolean. -/
def QrGroup.Exp (g : QrGroup) (ret : Int) (name : Name) (exp n : Int) : Int × Bool :=
  match g.Base name with
  | none => (ret, false)
  | some base => ((bigExp base exp n).getD ret, true)

/-- The interface `keyproof.BaseLookup`, as far as the relations use it. -/
structure BaseLookup where
  Exp : Int → Name → Int → Int → Except Fault (Int × Bool)

/-- The interface `keyproof.SecretLookup`. -/
structure SecretLookup where
  Secret : Name → Except Fault (Option Int)
  Randomizer : Name → Except Fault (Option Int)

/-- The interface `keyproof.ProofLookup`. -/
structure ProofLookup where
  ProofResult : Name → Except Fault (Option Int)

/-- Modelled from the spec: the function `keyproof.NewBaseMerge` (package
`keyproof`, not among the sources) for a group and one more lookup: a name is
resolved by the first part that knows it. -/
def NewBaseMerge (g : QrGroup) (part : BaseLookup) : BaseLookup :=
  { Exp := fun ret name exp n =>
      match g.Exp ret name exp n with
      | (z, true) => .ok (z, true)
      | (_, false) => part.Exp ret name exp n }

/-! ## Representation relations -/

/-- The struct `keyproof.LhsContribution` (package `keyproof`, not among the
sources), with the fields that `newWithParams` fills. -/
structure LhsContribution where
  Base : Name
  Power : Int
  deriving DecidableEq, Repr

/-- The struct `keyproof.RhsContribution` (package `keyproof`, not among the
sources), with the fields that `newWithParams` fills; `Power` is an int64. -/
structure RhsContribution where
  Base : Name
  Secret : Name
  Power : Int
  deriving DecidableEq, Repr

/-- The struct `qrRepresentationProofStructure` (not among the sources), with
the fields `Lhs` and `Rhs` that `newWithParams` fills. -/
structure qrRepresentationProofStructure where
  Lhs : List LhsContribution
  Rhs : List RhsContribution
  deriving DecidableEq, Repr

/-- Modelled from the spec: the loop of the method `commitmentsFromSecrets` of
a representation relation (not among the sources): every right-hand term
contributes `base ^ (randomizer * power)` modulo `N`. A name that does not
resolve stops the computation. -/
def secretsProduct (g : QrGroup) (bases : BaseLookup) (secretdata : SecretLookup) :
    List RhsContribution → Int → Except Fault Int
  | [], commitment => .ok commitment
  | curRhs :: rest, commitment =>
    match secretdata.Randomizer curRhs.Secret with
    | .error e => .error e
    | .ok none => .error (.crash "nil randomizer")
    | .ok (some r) =>
      match bases.Exp 0 curRhs.Base (curRhs.Power * r) g.N with
      | .error e => .error e
      | .ok (_, false) => .error (.crash "unknown base")
      | .ok (contribution, true) =>
        secretsProduct g bases secretdata rest (commitment * contribution % g.N)

/-- Modelled from the spec: the method `commitmentsFromSecrets` of a
representation relation (not among the sources): it appends to the list the
product over the right-hand terms of `base ^ (randomizer * power)` modulo `N`. -/
def qrRepresentationProofStructure.commitmentsFromSecrets (s : qrRepresentationProofStructure)
    (g : QrGroup) (list : List Int) (bases : BaseLookup) (secretdata : SecretLookup) :
    Except Fault (List Int) :=
  match secretsProduct g bases secretdata s.Rhs 1 with
  | .error e => .error e
  | .ok commitment => .ok (list ++ [commitment])

/-- Modelled from the spec: the first loop of the method `commitmentsFromProof`
of a representation relation (not among the sources): the left-hand side, the
product of `base ^ power` modulo `N`. -/
def lhsProduct (g : QrGroup) (bases : BaseLookup) :
    List LhsContribution → Int → Except Fault Int
  | [], lhs => .ok lhs
  | curLhs :: rest, lhs =>
    match bases.Exp 0 curLhs.Base curLhs.Power g.N with
    | .error e => .error e
    | .ok (_, false) => .error (.crash "unknown base")
    | .ok (tmp, true) => lhsProduct g bases rest (lhs * tmp % g.N)

/-- Modelled from the spec: the second loop of the method
`commitmentsFromProof` of a representation relation (not among the sources):
every right-hand term contributes `base ^ (response * power)` modulo `N`. -/
def proofProduct (g : QrGroup) (bases : BaseLookup) (proofdata : ProofLookup) :
    List RhsContribution → Int → Except Fault Int
  | [], commitment => .ok commitment
  | curRhs :: rest, commitment =>
    match proofdata.ProofResult curRhs.Secret with
    | .error e => .error e
    | .ok none => .error (.crash "nil response")
    | .ok (some r) =>
      match bases.Exp 0 curRhs.Base (curRhs.Power * r) g.N with
      | .error e => .error e
      | .ok (_, false) => .error (.crash "unknown base")
      | .ok (contribution, true) =>
        proofProduct g bases proofdata rest (commitment * contribution % g.N)

/-- Modelled from the spec: the method `commitmentsFromProof` of a
representation relation (not among the sources): it appends to the list
`LHS ^ (-challenge)` times the product over the right-hand terms of
`base ^ (response * power)`, modulo `N`. -/
def qrRepresentationProofStructure.commitmentsFromProof (s : qrRepresentationProofStructure)
    (g : QrGroup) (list : List Int) (challenge : Int) (bases : BaseLookup)
    (proofdata : ProofLookup) : Except Fault (List Int) :=
  match lhsProduct g bases s.Lhs 1 with
  | .error e => .error e
  | .ok lhs =>
    match bigExp lhs (-challenge) g.N with
    | none => .error (.crash "no inverse")
    | some start =>
      match proofProduct g bases proofdata s.Rhs start with
      | .error e => .error e
      | .ok commitment => .ok (list ++ [commitment])

/-! ## The proof structure, the commit and the proof (`proof.go`) -/

/-- The struct `ProofStructure`. -/
structure ProofStructure where
  cRep : List qrRepresentationProofStructure
  mCorrect : qrRepresentationProofStructure
  a : Int
  k : Int
  splitter : Option SquareSplitter
  ld : Nat
  lm : Nat
  lh : Nat
  lstatzk : Nat

/-- The struct `Proof`; a nil pointer is `none`. -/
structure Proof where
  Cs : List (Option Int)
  DResponses : List (Option Int)
  VResponses : List (Option Int)
  V5Response : Option Int
  MResponse : Option Int
  Ld : Nat
  A : Int
  K : Option Int
  deriving DecidableEq, Repr

/-- The struct `ProofCommit`. -/
structure ProofCommit where
  c : List Int
  d : List Int
  dRandomizers : List Int
  v : List Int
  vRandomizers : List Int
  v5 : Int
  v5Randomizer : Int
  m : Int
  mRandomizer : Int
  deriving DecidableEq, Repr

/-- The random source `common.RandomBigInt` (not among the sources): the
draw made after `count` earlier draws when `bits` bits are requested. -/
abbrev RandomSource := Nat → Nat → Except Fault Int

/-- The relation `C_i = R^(d_i) * S^(v_i)` appended by the loop of `newWithParams`. -/
def cRepEntry (i : Nat) : qrRepresentationProofStructure :=
  { Lhs := [{ Base := sprintfD 'C' i, Power := 1 }]
    Rhs := [{ Base := ['R'], Secret := sprintfD 'd' i, Power := 1 },
            { Base := ['S'], Secret := sprintfD 'v' i, Power := 1 }] }

/-- The right-hand term appended to `mCorrect` by the loop of `newWithParams`. -/
def mCorrectEntry (i : Nat) : RhsContribution :=
  { Base := sprintfD 'C' i, Secret := sprintfD 'd' i, Power := 1 }

/-- The function `newWithParams`. -/
def newWithParams (a : Int) (k : Int) (split : Option SquareSplitter) (nSplit : Int)
    (ld lh lstatzk lm : Nat) : Except Fault ProofStructure :=
  if nSplit > 4 then
    .error (.crash "No support for range proofs with delta split in more than 4 squares")
  else
    .ok
      { mCorrect :=
          { Lhs := [{ Base := ['R'], Power := -k }]
            Rhs := [{ Base := ['S'], Secret := ['v', '5'], Power := -1 },
                    { Base := ['R'], Secret := ['m'], Power := wrapInt (-a) }]
                   ++ (List.range nSplit.toNat).map mCorrectEntry }
        a := a
        k := k
        splitter := split
        ld := ld
        lm := lm
        lh := lh
        lstatzk := lstatzk
        cRep := (List.range nSplit.toNat).map cRepEntry }

/-- The function `New`. -/
def New (a : Int) (k : Int) (split : SquareSplitter) (lh lstatzk lm : Nat) :
    Except Fault ProofStructure :=
  if split.SquareCount = 3 then
    newWithParams (wrapInt (a * 4)) (k * 4 - 2) (some split) split.SquareCount split.Ld
      lh lstatzk lm
  else
    newWithParams a k (some split) split.SquareCount split.Ld lh lstatzk lm

/-- The method `proofCommit.Secret`. -/
def ProofCommit.Secret (c : ProofCommit) (name : Name) : Except Fault (Option Int) :=
  if name = ['m'] then .ok (some c.m)
  else if name = ['v', '5'] then .ok (some c.v5)
  else match name with
    | [] => .error (.crash "index out of range")
    | first :: rest =>
      if first = 'v' then .ok (indexInt c.v rest)
      else if first = 'd' then .ok (indexInt c.d rest)
      else .ok none

/-- The method `proofCommit.Randomizer`. -/
def ProofCommit.Randomizer (c : ProofCommit) (name : Name) : Except Fault (Option Int) :=
  if name = ['m'] then .ok (some c.mRandomizer)
  else if name = ['v', '5'] then .ok (some c.v5Randomizer)
  else match name with
    | [] => .error (.crash "index out of range")
    | first :: rest =>
      if first = 'v' then .ok (indexInt c.vRandomizers rest)
      else if first = 'd' then .ok (indexInt c.dRandomizers rest)
      else .ok none

/-- The method `proofCommit.Base`. -/
def ProofCommit.Base (c : ProofCommit) (name : Name) : Except Fault (Option Int) :=
  match name with
  | [] => .error (.crash "index out of range")
  | first :: rest => if first = 'C' then .ok (indexInt c.c rest) else .ok none

/-- The method `proofCommit.Exp`: the new value of `ret` and the returned boolean. -/
def ProofCommit.Exp (c : ProofCommit) (ret : Int) (name : Name) (exp n : Int) :
    Except Fault (Int × Bool) :=
  match c.Base name with
  | .error e => .error e
  | .ok none => .ok (ret, false)
  | .ok (some base) => .ok ((bigExp base exp n).getD ret, true)

/-- The method `proofCommit.Names`. -/
def ProofCommit.Names (c : ProofCommit) : List Name :=
  (List.range c.c.length).map (sprintfD 'C')

/-- The method `proof.ProofResult`. -/
def Proof.ProofResult (p : Proof) (name : Name) : Except Fault (Option Int) :=
  if name = ['m'] then .ok p.MResponse
  else if name = ['v', '5'] then .ok p.V5Response
  else match name with
    | [] => .error (.crash "index out of range")
    | first :: rest =>
      if first = 'v' then .ok (indexPtr p.VResponses rest)
      else if first = 'd' then .ok (indexPtr p.DResponses rest)
      else .ok none

/-- The method `proof.Base`. -/
def Proof.Base (p : Proof) (name : Name) : Except Fault (Option Int) :=
  match name with
  | [] => .error (.crash "index out of range")
  | first :: rest => if first = 'C' then .ok (indexPtr p.Cs rest) else .ok none

/-- The method `proof.Exp`: the new value of `ret` and the returned boolean. -/
def Proof.Exp (p : Proof) (ret : Int) (name : Name) (exp n : Int) :
    Except Fault (Int × Bool) :=
  match p.Base name with
  | .error e => .error e
  | .ok none => .ok (ret, false)
  | .ok (some base) => .ok ((bigExp base exp n).getD ret, true)

/-- The method `proof.Names`. -/
def Proof.Names (p : Proof) : List Name :=
  (List.range p.Cs.length).map (sprintfD 'C')

/-- First loop of `CommitmentsFromSecrets`: check every `d` value and draw its
randomizer; `count` is the number of draws made so far. -/
def drawDRandomizers (s : ProofStructure) (rnd : RandomSource) :
    List Int → Nat → Except Fault (List Int)
  | [], _ => .ok []
  | v :: rest, count =>
    if (BitLen v : Int) > wrapInt (s.ld : Int) then
      .error (.err "Split function returned oversized d")
    else
      match rnd count (wrapUint (s.ld + s.lh + s.lstatzk)) with
      | .error e => .error e
      | .ok r =>
        match drawDRandomizers s rnd rest (count + 1) with
        | .error e => .error e
        | .ok rs => .ok (r :: rs)

/-- Second loop of `CommitmentsFromSecrets`: draw `v[i]` and `vRandomizers[i]`
for every `d` value; the result is the pair of the two arrays. -/
def drawV (s : ProofStructure) (rnd : RandomSource) :
    List Int → Nat → Except Fault (List Int × List Int)
  | [], _ => .ok ([], [])
  | _ :: rest, count =>
    match rnd count s.lm with
    | .error e => .error e
    | .ok v =>
      match rnd (count + 1) (wrapUint (s.lm + s.lh + s.lstatzk)) with
      | .error e => .error e
      | .ok r =>
        match drawV s rnd rest (count + 2) with
        | .error e => .error e
        | .ok (vs, rs) => .ok (v :: vs, r :: rs)

/-- Third loop of `CommitmentsFromSecrets`: `v5` is the sum of `d[i] * v[i]`. -/
def sumProducts : List Int → List Int → Int → Int
  | di :: ds, vi :: vs, v5 => sumProducts ds vs (v5 + di * vi)
  | _, _, v5 => v5

/-- Fourth loop of `CommitmentsFromSecrets`: the bases
`c[i] = R^(d[i]) * S^(v[i]) mod N`. -/
def computeBases (g : QrGroup) : List Int → List Int → Except Fault (List Int)
  | di :: ds, vi :: vs =>
    match bigExp g.R di g.N, bigExp g.S vi g.N with
    | some x, some y =>
      if g.N = 0 then .error (.crash "division by zero")
      else
        match computeBases g ds vs with
        | .error e => .error e
        | .ok cs => .ok (x * y % g.N :: cs)
    | _, _ => .error (.crash "nil pointer dereference")
  | _, _ => .ok []

/-- The commit seen through the interface `keyproof.BaseLookup`. -/
def ProofCommit.toBaseLookup (c : ProofCommit) : BaseLookup := { Exp := c.Exp }

/-- The commit seen through the interface `keyproof.SecretLookup`. -/
def ProofCommit.toSecretLookup (c : ProofCommit) : SecretLookup :=
  { Secret := c.Secret, Randomizer := c.Randomizer }

/-- The proof seen through the interface `keyproof.BaseLookup`. -/
def Proof.toBaseLookup (p : Proof) : BaseLookup := { Exp := p.Exp }

/-- The proof seen through the interface `keyproof.ProofLookup`. -/
def Proof.toProofLookup (p : Proof) : ProofLookup := { ProofResult := p.ProofResult }

/-- Last loop of `CommitmentsFromSecrets`: the contributions of the relations
`cRep[i]`, one for every `d` value. -/
def cRepFromSecrets (g : QrGroup) (bases : BaseLookup) (commit : ProofCommit) :
    List qrRepresentationProofStructure → Nat → List Int → Except Fault (List Int)
  | _, 0, contributions => .ok contributions
  | [], _ + 1, _ => .error (.crash "index out of range")
  | rep :: reps, n + 1, contributions =>
    match rep.commitmentsFromSecrets g contributions bases commit.toSecretLookup with
    | .error e => .error e
    | .ok contributions1 => cRepFromSecrets g bases commit reps n contributions1

/-- The method `ProofStructure.CommitmentsFromSecrets`; the random source is
the additional argument `rnd`. -/
def ProofStructure.CommitmentsFromSecrets (s : ProofStructure) (rnd : RandomSource)
    (g : QrGroup) (m mRandomizer : Int) : Except Fault (List Int × ProofCommit) :=
  let d := m * s.a - s.k
  if d < 0 then .error (.err "Requested inequality does not hold")
  else
    match s.splitter with
    | none => .error (.crash "nil pointer dereference")
    | some splitter =>
      match splitter.Split d with
      | .error e => .error e
      | .ok ds =>
        if ds.length ≠ s.cRep.length then
          .error (.err "Split function returned wrong number of results")
        else
          match drawDRandomizers s rnd ds 0 with
          | .error e => .error e
          | .ok dRandomizers =>
            match drawV s rnd ds ds.length with
            | .error e => .error e
            | .ok (v, vRandomizers) =>
              let v5 := sumProducts ds v 0
              match rnd (3 * ds.length) (wrapUint (s.lm + s.ld + 2 + s.lh + s.lstatzk)) with
              | .error e => .error e
              | .ok v5Randomizer =>
                match computeBases g ds v with
                | .error e => .error e
                | .ok c =>
                  let commit : ProofCommit :=
                    { c := c, d := ds, dRandomizers := dRandomizers, v := v,
                      vRandomizers := vRandomizers, v5 := v5, v5Randomizer := v5Randomizer,
                      m := m, mRandomizer := mRandomizer }
                  let bases := NewBaseMerge g commit.toBaseLookup
                  match s.mCorrect.commitmentsFromSecrets g [] bases commit.toSecretLookup with
                  | .error e => .error e
                  | .ok contributions =>
                    match cRepFromSecrets g bases commit s.cRep ds.length contributions with
                    | .error e => .error e
                    | .ok contributions1 => .ok (contributions1, commit)

/-- The loops of `BuildProof` that fill `DResponses` and `VResponses`:
`challenge * secret[i] + randomizer[i]` for every secret. -/
def responses (challenge : Int) : List Int → List Int → Except Fault (List (Option Int))
  | [], _ => .ok []
  | _ :: _, [] => .error (.crash "index out of range")
  | x :: xs, r :: rs =>
    match responses challenge xs rs with
    | .error e => .error e
    | .ok out => .ok (some (challenge * x + r) :: out)

/-- The method `ProofStructure.BuildProof`. -/
def ProofStructure.BuildProof (s : ProofStructure) (commit : ProofCommit) (challenge : Int) :
    Except Fault Proof :=
  match responses challenge commit.d commit.dRandomizers,
        responses challenge commit.v commit.vRandomizers with
  | .ok dResponses, .ok vResponses =>
    .ok
      { Cs := commit.c.map some
        DResponses := dResponses
        VResponses := vResponses
        V5Response := some (challenge * commit.v5 + commit.v5Randomizer)
        MResponse := some (challenge * commit.m + commit.mRandomizer)
        Ld := s.ld
        A := s.a
        K := some s.k }
  | .error e, _ => .error e
  | _, .error e => .error e

/-- Body of the loop of `VerifyProofStructure` for the index `i`: `true` when
the loop goes on, `false` when it returns false. -/
def verifyEntry (s : ProofStructure) (g : QrGroup) (p : Proof) (i : Nat) : Bool :=
  match p.Cs[i]?, p.DResponses[i]?, p.VResponses[i]? with
  | some (some c), some (some d), some (some v) =>
    if BitLen c > BitLen g.N ∨
        BitLen d > wrapUint (s.ld + s.lh + s.lstatzk + 1) ∨
        BitLen v > wrapUint (s.lm + s.lh + s.lstatzk + 1) then false
    else true
  | _, _, _ => false

/-- The method `ProofStructure.VerifyProofStructure`. -/
def ProofStructure.VerifyProofStructure (s : ProofStructure) (g : QrGroup) (p : Proof) : Bool :=
  if s.cRep.length ≠ p.Cs.length ∨ s.cRep.length ≠ p.DResponses.length ∨
      s.cRep.length ≠ p.VResponses.length then false
  else
    match p.V5Response, p.MResponse with
    | some v5, some m =>
      if BitLen v5 > wrapUint (s.lm + s.ld + 2 + s.lh + s.lstatzk + 1) ∨
          BitLen m > wrapUint (s.lm + s.lh + s.lstatzk + 1) then false
      else (List.range s.cRep.length).all (verifyEntry s g p)
    | _, _ => false

/-- The loop of `CommitmentsFromProof` over the relations `cRep[i]`. -/
def cRepFromProof (g : QrGroup) (challenge : Int) (bases : BaseLookup) (p : Proof) :
    List qrRepresentationProofStructure → List Int → Except Fault (List Int)
  | [], contributions => .ok contributions
  | rep :: reps, contributions =>
    match rep.commitmentsFromProof g contributions challenge bases p.toProofLookup with
    | .error e => .error e
    | .ok contributions1 => cRepFromProof g challenge bases p reps contributions1

/-- The method `ProofStructure.CommitmentsFromProof`. -/
def ProofStructure.CommitmentsFromProof (s : ProofStructure) (g : QrGroup) (p : Proof)
    (challenge : Int) : Except Fault (List Int) :=
  let bases := NewBaseMerge g p.toBaseLookup
  match s.mCorrect.commitmentsFromProof g [] challenge bases p.toProofLookup with
  | .error e => .error e
  | .ok contributions => cRepFromProof g challenge bases p s.cRep contributions

/-- The method `Proof.ProvesStatement`. -/
def Proof.ProvesStatement (p : Proof) (a : Int) (k : Int) : Except Fault Bool :=
  let a1 := if p.Cs.length = 3 then wrapInt (a * 4) else a
  let k1 := if p.Cs.length = 3 then k * 4 - 2 else k
  if a1 = p.A then
    match p.K with
    | none => .error (.crash "nil pointer dereference")
    | some pK => .ok (decide (k1 = pK))
  else .ok false

/-- The method `Proof.ExtractStructure`. -/
def Proof.ExtractStructure (p : Proof) (lh lstatzk lm : Nat) : Except Fault ProofStructure :=
  match p.K with
  | none => .error (.err "Invalid proof")
  | some pK =>
    if p.Ld > lm ∨ p.Cs.length < 3 ∨ p.Cs.length > 4 ∨
        (BitLen pK : Int) > wrapInt ((wrapUint (lm + IntSize) : Nat) : Int) then
      .error (.err "Invalid proof")
    else newWithParams p.A pK none (p.Cs.length : Int) p.Ld lh lstatzk lm

/-! ## Semantics of a base lookup -/

/-- The lookup `bases` resolves `name` to the unit `u` of the integers modulo
`|N|`: for every exponent `e` the method `Exp` reports success and yields the
representative in `[0, |N|)` of `u ^ e`. -/
def Resolves (g : QrGroup) (bases : BaseLookup) (name : Name) (u : (ZMod g.N.natAbs)ˣ) : Prop :=
  ∀ e : Int, ∃ r, bases.Exp 0 name e g.N = .ok (r, true) ∧ 0 ≤ r ∧ r < (g.N.natAbs : Int) ∧
    (r : ZMod g.N.natAbs) = ((u ^ e : (ZMod g.N.natAbs)ˣ) : ZMod g.N.natAbs)

/-! ## Inputs of the examples -/

/-- A splitter of three squares used in the examples: it answers `[1, 1, 0]`
for every input and declares 8 bits per square. -/
def constSplitter3 : SquareSplitter :=
  { Ld := 8, SquareCount := 3, Split := fun _ => .ok [1, 1, 0] }


/-- A proof with three bases and `K = 0`, used in the examples. -/
def proofZeroK : Proof :=
  { Cs := [some 1, some 1, some 1], DResponses := [some 0, some 0, some 0],
    VResponses := [some 0, some 0, some 0], V5Response := some 0, MResponse := some 0,
    Ld := 0, A := 4, K := some 0 }


/-- The table `GenerateSquaresTable(3)`. -/
def exTable : SquaresTable := [[1, 1, 0], [2, 1, 1], [3, 1, 0], []]

/-- A random source for the examples: the draw number `count` is `count + 5`,
reduced into the requested range `[0, 2 ^ bits)`. -/
def exRandom : RandomSource := fun count bits => .ok (((count : Int) + 5) % 2 ^ bits)

/-- A random source for the examples that, like `common.RandomBigInt`, gives
no value for a draw too large to allocate: a draw of `2 ^ 51` bits or more
panics (a value of that size takes more than the `2 ^ 48` bytes that a slice
may have on a 64-bit platform); a smaller draw number `count` is `count + 5`,
reduced into the requested range `[0, 2 ^ bits)`. -/
def boundedRandom : RandomSource := fun count bits =>
  if bits < 2 ^ 51 then .ok (((count : Int) + 5) % 2 ^ bits)
  else .error (.crash "makeslice: len out of range")

/-- The group of the test `TestGroup`: `N = 35`, `R = 3`, `S = 4`. -/
def exGroup : QrGroup := { N := 35, R := 3, S := 4 }

/-- The structure `New(1, 45, table, 256, 128, 256)` for the table `exTable`. -/
def exStructure : ProofStructure :=
  { cRep := [cRepEntry 0, cRepEntry 1, cRepEntry 2]
    mCorrect :=
      { Lhs := [{ Base := ['R'], Power := -178 }]
        Rhs := [{ Base := ['S'], Secret := ['v', '5'], Power := -1 },
                { Base := ['R'], Secret := ['m'], Power := -4 },
                mCorrectEntry 0, mCorrectEntry 1, mCorrectEntry 2] }
    a := 4, k := 178, splitter := some exTable.toSplitter, ld := 3, lm := 256, lh := 256,
    lstatzk := 128 }

/-- The commit of `exStructure` for `m = 45`, `mRandomizer = 7`. -/
def exCommit : ProofCommit :=
  { c := [13, 33, 1], d := [1, 1, 0], dRandomizers := [5, 6, 7], v := [8, 10, 12],
    vRandomizers := [9, 11, 13], v5 := 18, v5Randomizer := 14, m := 45, mRandomizer := 7 }

/-- The proof built from `exCommit` for the challenge `1234567`. -/
def exProof : Proof :=
  { Cs := [some 13, some 33, some 1], DResponses := [some 1234572, some 1234573, some 7],
    VResponses := [some 9876545, some 12345681, some 14814817], V5Response := some 22222220,
    MResponse := some 55555522, Ld := 3, A := 4, K := some 178 }

/-- A splitter of three squares that declares 0 bits per square. -/
def zeroLdSplitter : SquareSplitter :=
  { Ld := 0, SquareCount := 3, Split := fun _ => .ok [0, 0, 0] }

/-- The structure `New(1, 45, zeroLdSplitter, 0, 0, 2^64 - 1)`: its parameter
`lm` is the largest uint. -/
def wideStructure : ProofStructure :=
  { exStructure with splitter := some zeroLdSplitter, ld := 0, lm := 2 ^ 64 - 1, lh := 0,
                     lstatzk := 0 }

/-- A proof with three bases all of whose values are 0, except the response
for `m`, which is 1. -/
def smallProof : Proof :=
  { Cs := [some 0, some 0, some 0], DResponses := [some 0, some 0, some 0],
    VResponses := [some 0, some 0, some 0], V5Response := some 0, MResponse := some 1,
    Ld := 0, A := 4, K := some 178 }

/-- The structure `New(1, 45, table, 2^64 - 3, 0, 8)` for the table `exTable`:
with `lh = 2^64 - 3` the uint sums `ld + lh + lstatzk`, `lm + lh + lstatzk` and
`lm + ld + 2 + lh + lstatzk` wrap to 0, 5 and 10. -/
def wrapLhStructure : ProofStructure :=
  { exStructure with lm := 8, lh := 2 ^ 64 - 3, lstatzk := 0 }

/-- The commit of `wrapLhStructure` for `m = 45`, `mRandomizer = 7`: the
randomizers of the `d` values are drawn with 0 bits. -/
def wrapLhCommit : ProofCommit := { exCommit with dRandomizers := [0, 0, 0] }

/-- The proof built from `wrapLhCommit` for the challenge `4`. -/
def wrapLhProof : Proof :=
  { Cs := [some 13, some 33, some 1], DResponses := [some 4, some 4, some 0],
    VResponses := [some 41, some 51, some 61], V5Response := some 86,
    MResponse := some 187, Ld := 3, A := 4, K := some 178 }

/-- The structure `New(2^61, 2^61, table, 256, 128, 256)` for the table
`exTable`: the multiplication `a *= 4` wraps to `-2^63`, whose negation wraps
again, so the relation for `m` carries the power `-2^63` instead of `2^63`. -/
def overflowStructure : ProofStructure :=
  { exStructure with
    a := -9223372036854775808
    k := 9223372036854775806
    mCorrect :=
      { Lhs := [{ Base := ['R'], Power := -9223372036854775806 }]
        Rhs := [{ Base := ['S'], Secret := ['v', '5'], Power := -1 },
                { Base := ['R'], Secret := ['m'], Power := -9223372036854775808 },
                mCorrectEntry 0, mCorrectEntry 1, mCorrectEntry 2] } }

/-- The commit of `overflowStructure` for `m = -1`, `mRandomizer = 7`. -/
def overflowCommit : ProofCommit := { exCommit with m := -1 }

/-- The proof built from `overflowCommit` for the challenge `1`. -/
def overflowProof : Proof :=
  { Cs := [some 13, some 33, some 1], DResponses := [some 6, some 7, some 7],
    VResponses := [some 17, some 21, some 25], V5Response := some 32, MResponse := some 6,
    Ld := 3, A := -9223372036854775808, K := some 9223372036854775806 }

/-- The type `testSplit` of `rangeproof_test.go`: a splitter that returns the
stored result whatever its input; `n` is its number of squares and `ld` its
number of bits per square. -/
def testSplit (val : Except Fault (List Int)) (n : Int) (ld : Nat) : SquareSplitter :=
  { Ld := ld, SquareCount := n, Split := fun _ => val }

/-- The structure `New(1, 45, testSplit{val: [512, 512, 512], n: 3, ld: 8},
256, 128, 256)` of `TestRangeProofMisbehavingSplit`. -/
def oversizedStructure : ProofStructure :=
  { exStructure with splitter := some (testSplit (.ok [512, 512, 512]) 3 8), ld := 8 }

/-- The structure `New(1, 45, testSplit{val: [-1, 1, 0], n: 3, ld: 3}, 256, 128,
256)`: the squares of the values returned by its splitter sum to
`4 * 45 - 178 = 2`, and the first value is negative. -/
def negStructure : ProofStructure :=
  { exStructure with splitter := some (testSplit (.ok [-1, 1, 0]) 3 3) }

/-- The commit of `negStructure` for `m = 45`, `mRandomizer = 7`. -/
def negCommit : ProofCommit :=
  { c := [17, 33, 1], d := [-1, 1, 0], dRandomizers := [5, 6, 7], v := [8, 10, 12],
    vRandomizers := [9, 11, 13], v5 := 2, v5Randomizer := 14, m := 45, mRandomizer := 7 }

/-- A decomposition function for the four-square splitter: it returns
`(2 ^ 128, 2 ^ 128, 2 ^ 128, 2 ^ 128)`, whose squares sum to `2 ^ 258`. -/
def wideFourSquares : Int → Int × Int × Int × Int :=
  fun _ => (2 ^ 128, 2 ^ 128, 2 ^ 128, 2 ^ 128)

/-- The structure `New(1, 45, testSplit{val: [0, 512, 512], n: 3, ld: 8},
2^63, 128, 256)`: the second value returned by its splitter has more than 8
bits, and the randomizer of the first is drawn with `2^63 + 136` bits. -/
def lateOversizedStructure : ProofStructure :=
  { exStructure with splitter := some (testSplit (.ok [0, 512, 512]) 3 8), ld := 8,
                     lh := 2 ^ 63 }

/-- The structure `New(1, 45, testSplit{val: [1, 1, 1], n: 3, ld: 8}, 256, 128,
256)` of `TestRangeProofMisbehavingSplit`: the squares of the values returned
by its splitter sum to 3, whatever the input. -/
def misbehavingStructure : ProofStructure :=
  { exStructure with splitter := some (testSplit (.ok [1, 1, 1]) 3 8), ld := 8 }

/-- The structure `New(2^61, 2, testSplit{val: [1, 1, 0], n: 3, ld: 3}, 256,
128, 256)`: the multiplication `a *= 4` wraps to `-2^63`, and the squares of
the values returned by its splitter sum to 2. -/
def overflowSplitStructure : ProofStructure :=
  { exStructure with
    a := -9223372036854775808
    k := 6
    splitter := some (testSplit (.ok [1, 1, 0]) 3 3)
    mCorrect :=
      { Lhs := [{ Base := ['R'], Power := -6 }]
        Rhs := [{ Base := ['S'], Secret := ['v', '5'], Power := -1 },
                { Base := ['R'], Secret := ['m'], Power := -9223372036854775808 },
                mCorrectEntry 0, mCorrectEntry 1, mCorrectEntry 2] } }

/-- The commit of `misbehavingStructure` for `m = 112`, `mRandomizer = 7`. -/
def misbehavingCommit : ProofCommit :=
  { c := [13, 33, 3], d := [1, 1, 1], dRandomizers := [5, 6, 7], v := [8, 10, 12],
    vRandomizers := [9, 11, 13], v5 := 30, v5Randomizer := 14, m := 112, mRandomizer := 7 }

/-- The proof built by `overflowSplitStructure` from `overflowCommit` for the
challenge `1`. -/
def overflowSplitProof : Proof := { overflowProof with K := some 6 }

/-- The structure `New(2^62, 0, table, 256, 128, 256)` for the table `exTable`:
the multiplication `a *= 4` wraps to 0, so the structure stores `a = 0` and
`k = 4 * 0 - 2 = -2`. -/
def wrapStructure : ProofStructure :=
  { exStructure with
    a := 0
    k := -2
    mCorrect :=
      { Lhs := [{ Base := ['R'], Power := 2 }]
        Rhs := [{ Base := ['S'], Secret := ['v', '5'], Power := -1 },
                { Base := ['R'], Secret := ['m'], Power := 0 },
                mCorrectEntry 0, mCorrectEntry 1, mCorrectEntry 2] } }

/-- The proof built by `wrapStructure` from its commit for `m = 45`,
`mRandomizer = 7` and the challenge `1234567`. -/
def wrapProof : Proof := { exProof with A := 0, K := some (-2) }

/-- Modelled from the spec: the right-hand side of a representation relation,
"a relation `LHS = prod_j base_j ^ (secret_j * power_j)`" (the helper of the
relations is not among the sources): the product over the right-hand terms of
`base ^ (power * secret)` modulo `N`, with the secrets of the prover. A name
that does not resolve stops the computation. -/
def secretPowerProduct (g : QrGroup) (bases : BaseLookup) (secretdata : SecretLookup) :
    List RhsContribution → Int → Except Fault Int
  | [], rhs => .ok rhs
  | curRhs :: rest, rhs =>
    match secretdata.Secret curRhs.Secret with
    | .error e => .error e
    | .ok none => .error (.crash "nil secret")
    | .ok (some x) =>
      match bases.Exp 0 curRhs.Base (curRhs.Power * x) g.N with
      | .error e => .error e
      | .ok (_, false) => .error (.crash "unknown base")
      | .ok (contribution, true) =>
        secretPowerProduct g bases secretdata rest (rhs * contribution % g.N)

/-- Modelled from the spec: the statement of a representation relation (the
helper of the relations is not among the sources): the product of
`base ^ power` over the left-hand terms equals, modulo `N`, the product of
`base ^ (power * secret)` over the right-hand terms. -/
def qrRepresentationProofStructure.isTrue (s : qrRepresentationProofStructure) (g : QrGroup)
    (bases : BaseLookup) (secretdata : SecretLookup) : Except Fault Bool :=
  match lhsProduct g bases s.Lhs 1 with
  | .error e => .error e
  | .ok lhs =>
    match secretPowerProduct g bases secretdata s.Rhs 1 with
    | .error e => .error e
    | .ok rhs => .ok (decide (lhs = rhs))

/-- Modelled from the spec: a product of powers as the spec writes its
congruences, `prod_j base_j ^ exp_j` modulo `N`, every power taken by the
modular exponentiation; `none` when a power has no value. -/
def powerProduct (N : Int) : List (Int × Int) → Option Int
  | [] => some (1 % N)
  | (base, exp) :: rest =>
    match bigExp base exp N, powerProduct N rest with
    | some x, some y => some (x * y % N)
    | _, _ => none

/-- Modelled from the spec: the relation for `m` in the form
"`R^{-k} * prod_i C_i^{d_i} = R^{-a*m} * S^{-v5}`", read modulo `N`. -/
def mCorrectSpecForm (g : QrGroup) (a k m v5 : Int) (c d : List Int) : Option Bool :=
  match powerProduct g.N ((g.R, -k) :: List.zip c d),
        powerProduct g.N [(g.R, -(a * m)), (g.S, -v5)] with
  | some lhs, some rhs => some (decide (lhs = rhs))
  | _, _ => none

/-- Modelled from the spec: the relation for `m` in the form
"`R^k * prod_i C_i^{d_i} = R^{a*m} * S^{v5}`", read modulo `N`. -/
def mCorrectPlainForm (g : QrGroup) (a k m v5 : Int) (c d : List Int) : Option Bool :=
  match powerProduct g.N ((g.R, k) :: List.zip c d),
        powerProduct g.N [(g.R, a * m), (g.S, v5)] with
  | some lhs, some rhs => some (decide (lhs = rhs))
  | _, _ => none
/-! ## Machine arithmetic lemmas -/

theorem wrapInt_of_isInt64 {x : Int} (h : IsInt64 x) : wrapInt x = x := by
  unfold IsInt64 at h
  unfold wrapInt
  norm_num at h ⊢
  omega

theorem wrapInt_mul_four_emod (a : Int) : wrapInt (a * 4) % 4 = 0 := by
  unfold wrapInt
  norm_num
  omega

theorem wrapUint_of_isUint {n : Nat} (h : IsUint n) : wrapUint n = n := by
  unfold IsUint at h
  unfold wrapUint
  exact Nat.mod_eq_of_lt h

/-! ## The structure built by `New` -/

theorem New_three (a k : Int) (split : SquareSplitter) (lh lstatzk lm : Nat)
    (h3 : split.SquareCount = 3) :
    New a k split lh lstatzk lm =
      newWithParams (wrapInt (a * 4)) (k * 4 - 2) (some split) 3 split.Ld lh lstatzk lm := by
  simp [New, h3]

theorem New_four (a k : Int) (split : SquareSplitter) (lh lstatzk lm : Nat)
    (h4 : split.SquareCount = 4) :
    New a k split lh lstatzk lm = newWithParams a k (some split) 4 split.Ld lh lstatzk lm := by
  simp [New, h4]

theorem newWithParams_ok (a k : Int) (split : Option SquareSplitter) (nSplit : Int)
    (ld lh lstatzk lm : Nat) (h : nSplit ≤ 4) :
    ∃ s, newWithParams a k split nSplit ld lh lstatzk lm = .ok s ∧
      s.a = a ∧ s.k = k ∧ s.splitter = split ∧ s.ld = ld ∧ s.lh = lh ∧
      s.lstatzk = lstatzk ∧ s.lm = lm ∧
      s.cRep = (List.range nSplit.toNat).map cRepEntry ∧
      s.mCorrect =
        { Lhs := [{ Base := ['R'], Power := -k }]
          Rhs := [{ Base := ['S'], Secret := ['v', '5'], Power := -1 },
                  { Base := ['R'], Secret := ['m'], Power := wrapInt (-a) }]
                 ++ (List.range nSplit.toNat).map mCorrectEntry } := by
  have h1 : ¬ nSplit > 4 := by omega
  simp [newWithParams, h1]

/-- C7: when `4 * a` fits a machine int, `New` with a splitter of three
squares stores `(4 * a, 4 * k - 2)`, with a splitter of four squares it stores
`(a, k)` unchanged; in both cases `ld` is the splitter's `Ld()`, the number of
relations `cRep` (the split arity) is the splitter's `SquareCount()`, and
`lh`, `lstatzk`, `lm` are stored as given. -/
theorem New_stores_statement (a k : Int) (split : SquareSplitter) (lh lstatzk lm : Nat)
    (ha : IsInt64 (4 * a)) :
    (split.SquareCount = 3 →
      ∃ s, New a k split lh lstatzk lm = .ok s ∧ s.a = 4 * a ∧ s.k = 4 * k - 2 ∧
        s.ld = split.Ld ∧ (s.cRep.length : Int) = split.SquareCount ∧
        s.lh = lh ∧ s.lstatzk = lstatzk ∧ s.lm = lm) ∧
    (split.SquareCount = 4 →
      ∃ s, New a k split lh lstatzk lm = .ok s ∧ s.a = a ∧ s.k = k ∧
        s.ld = split.Ld ∧ (s.cRep.length : Int) = split.SquareCount ∧
        s.lh = lh ∧ s.lstatzk = lstatzk ∧ s.lm = lm) := by
  constructor
  · intro h3
    obtain ⟨s, hs, h_a, h_k, -, h_ld, h_lh, h_ls, h_lm, h_c, -⟩ :=
      newWithParams_ok (wrapInt (a * 4)) (k * 4 - 2) (some split) 3 split.Ld lh lstatzk lm
        (by decide)
    refine ⟨s, by rw [New_three a k split lh lstatzk lm h3]; exact hs, ?_, ?_, h_ld, ?_,
      h_lh, h_ls, h_lm⟩
    · rw [h_a, wrapInt_of_isInt64 (by rwa [mul_comm] at ha)]; ring
    · rw [h_k]; ring
    · rw [h_c, h3]; simp
  · intro h4
    obtain ⟨s, hs, h_a, h_k, -, h_ld, h_lh, h_ls, h_lm, h_c, -⟩ :=
      newWithParams_ok a k (some split) 4 split.Ld lh lstatzk lm (by decide)
    refine ⟨s, by rw [New_four a k split lh lstatzk lm h4]; exact hs, h_a, h_k, h_ld, ?_,
      h_lh, h_ls, h_lm⟩
    rw [h_c, h4]; simp

/-- C7 at `a = 1`, `k = 45` with a splitter of three squares. -/
theorem New_stores_statement_witness :
    IsInt64 (4 * 1) ∧
    ∃ s, New 1 45 constSplitter3 256 128 256 = .ok s ∧ s.a = 4 * 1 ∧ s.k = 4 * 45 - 2 ∧
      s.ld = constSplitter3.Ld ∧ (s.cRep.length : Int) = constSplitter3.SquareCount ∧
      s.lh = 256 ∧ s.lstatzk = 128 ∧ s.lm = 256 :=
  ⟨by decide, (New_stores_statement 1 45 constSplitter3 256 128 256 (by decide)).1 rfl⟩

/-- C8: for all integers `a`, `k`, `m`, with `a' = 4 * a` and `k' = 4 * k - 2`:
`a' * m - k' = 4 * (a * m - k) + 2`, hence `a' * m - k' ≥ 0` iff
`a * m - k ≥ 0`, and a non-negative `a' * m - k'` leaves the remainder 2 modulo
4. For a structure `s` built by `New` with a splitter of three squares: it
stores `(a', k')` when `4 * a` fits a machine int, and in every case (also when
the multiplication `a *= 4` wraps) the value `m * s.a - s.k` that
`CommitmentsFromSecrets` hands to `Split` once it is non-negative satisfies the
guard `v % 4 == 2` of the table splitter. -/
theorem three_square_adjustment (a k m : Int) (split : SquareSplitter) (lh lstatzk lm : Nat)
    (s : ProofStructure) (h3 : split.SquareCount = 3)
    (hs : New a k split lh lstatzk lm = .ok s) :
    (4 * a) * m - (4 * k - 2) = 4 * (a * m - k) + 2 ∧
    (0 ≤ (4 * a) * m - (4 * k - 2) ↔ 0 ≤ a * m - k) ∧
    (0 ≤ (4 * a) * m - (4 * k - 2) → ((4 * a) * m - (4 * k - 2)) % 4 = 2) ∧
    (IsInt64 (4 * a) → s.a = 4 * a ∧ s.k = 4 * k - 2) ∧
    (0 ≤ m * s.a - s.k → (m * s.a - s.k).tmod 4 = 2) := by
  obtain ⟨s1, hs1, h_a, h_k, -⟩ :=
    newWithParams_ok (wrapInt (a * 4)) (k * 4 - 2) (some split) 3 split.Ld lh lstatzk lm
      (by decide)
  rw [New_three a k split lh lstatzk lm h3, hs1] at hs
  cases hs
  have e0 : (4 * a) * m - (4 * k - 2) = 4 * (a * m - k) + 2 := by ring
  refine ⟨e0, by rw [e0]; constructor <;> intro h <;> omega, by rw [e0]; intro h; omega,
    ?_, ?_⟩
  · intro ha
    rw [h_a, h_k, wrapInt_of_isInt64 (by rwa [mul_comm] at ha)]
    constructor <;> ring
  · intro h0
    have hw := wrapInt_mul_four_emod a
    rw [h_a, h_k] at h0 ⊢
    obtain ⟨q, hq⟩ : ∃ q, wrapInt (a * 4) = 4 * q := ⟨wrapInt (a * 4) / 4, by omega⟩
    rw [hq] at h0 ⊢
    have e : m * (4 * q) - (k * 4 - 2) = 4 * (m * q - k) + 2 := by ring
    rw [e] at h0 ⊢
    rw [Int.tmod_eq_emod (by omega) (by decide)]
    omega

/-- C8 at `a = 1`, `k = 45`, `m = 112` with a splitter of three squares: the
value handed to `Split` is `270`. -/
theorem three_square_adjustment_witness :
    ∃ s, New 1 45 constSplitter3 256 128 256 = .ok s ∧ 112 * s.a - s.k = 270 ∧
      ((112 : Int) * s.a - s.k).tmod 4 = 2 := by
  obtain ⟨s, hs, h_a, h_k, -⟩ :=
    newWithParams_ok (wrapInt (1 * 4)) (45 * 4 - 2) (some constSplitter3) 3 constSplitter3.Ld
      256 128 256 (by decide)
  have hnew : New 1 45 constSplitter3 256 128 256 = .ok s := by
    rw [New_three 1 45 constSplitter3 256 128 256 rfl]; exact hs
  have h := three_square_adjustment 1 45 112 constSplitter3 256 128 256 s rfl hnew
  have hv : (112 : Int) * s.a - s.k = 270 := by
    rw [(h.2.2.2.1 (by decide)).1, (h.2.2.2.1 (by decide)).2]; decide
  exact ⟨s, hnew, hv, h.2.2.2.2 (by rw [hv]; decide)⟩

/-- C10, counterexample: with `lm = 2 ^ 63` the sum `lm + strconv.IntSize`
converted to int is negative, so `ExtractStructure` rejects a proof whose `K`
is present with bit length 0, whose `Ld` is 0 and which has three bases. -/
theorem ExtractStructure_rejects_at_large_lm :
    proofZeroK.ExtractStructure 0 0 (2 ^ 63) = .error (.err "Invalid proof") ∧
    proofZeroK.K = some 0 ∧ ¬ proofZeroK.Ld > 2 ^ 63 ∧ proofZeroK.Cs.length = 3 ∧
    ¬ BitLen 0 > 2 ^ 63 + IntSize := by
  refine ⟨?_, by decide, by decide, by decide, by decide⟩
  have h : (BitLen 0 : Int) > wrapInt ((wrapUint (2 ^ 63 + IntSize) : Nat) : Int) := by decide
  simp only [Proof.ExtractStructure, proofZeroK]
  rw [if_pos (Or.inr (Or.inr (Or.inr h)))]

/-- C10, amended: when `lm + strconv.IntSize` fits a machine int,
`ExtractStructure` returns the error "Invalid proof" if `K` is absent, or
`Ld > lm`, or the number of bases is not 3 or 4, or the bit length of `K`
exceeds `lm` plus the word size; otherwise it returns a structure with
`a = p.A`, `k = p.K`, `ld = p.Ld`, as many relations `cRep` as there are
bases, the given `lh`, `lstatzk`, `lm`, and no splitter. -/
theorem ExtractStructure_spec (p : Proof) (lh lstatzk lm : Nat)
    (hlm : lm + IntSize < 2 ^ 63) :
    ((p.K = none ∨ p.Ld > lm ∨ ¬ (p.Cs.length = 3 ∨ p.Cs.length = 4) ∨
        ∃ pK, p.K = some pK ∧ BitLen pK > lm + IntSize) →
      p.ExtractStructure lh lstatzk lm = .error (.err "Invalid proof")) ∧
    (¬ (p.K = none ∨ p.Ld > lm ∨ ¬ (p.Cs.length = 3 ∨ p.Cs.length = 4) ∨
        ∃ pK, p.K = some pK ∧ BitLen pK > lm + IntSize) →
      ∃ s, p.ExtractStructure lh lstatzk lm = .ok s ∧ s.a = p.A ∧ some s.k = p.K ∧
        s.ld = p.Ld ∧ s.cRep.length = p.Cs.length ∧ s.lh = lh ∧ s.lstatzk = lstatzk ∧
        s.lm = lm ∧ s.splitter = none) := by
  have hbound : wrapInt ((wrapUint (lm + IntSize) : Nat) : Int) = ((lm + IntSize : Nat) : Int) := by
    have h1 : wrapUint (lm + IntSize) = lm + IntSize :=
      wrapUint_of_isUint (by unfold IsUint; omega)
    rw [h1]
    apply wrapInt_of_isInt64
    unfold IsInt64
    constructor <;> omega
  constructor
  · intro h
    unfold Proof.ExtractStructure
    rcases hK : p.K with _ | pK
    · rfl
    · simp only [hbound]
      rw [if_pos]
      rcases h with h | h | h | ⟨pK1, h, hb⟩
      · rw [hK] at h; cases h
      · exact Or.inl h
      · right
        omega
      · rw [hK] at h
        cases h
        right; right; right
        exact_mod_cast hb
  · intro h
    push_neg at h
    obtain ⟨hK, hLd, hlen, hb⟩ := h
    obtain ⟨pK, hpK⟩ := Option.ne_none_iff_exists'.mp hK
    have hb1 := hb pK hpK
    have hle : ((p.Cs.length : Nat) : Int) ≤ 4 := by omega
    obtain ⟨s, hs, h_a, h_k, h_sp, h_ld, h_lh, h_ls, h_lm, h_c, -⟩ :=
      newWithParams_ok p.A pK none (p.Cs.length : Int) p.Ld lh lstatzk lm hle
    refine ⟨s, ?_, h_a, by rw [h_k, hpK], h_ld, by rw [h_c]; simp, h_lh, h_ls, h_lm, h_sp⟩
    unfold Proof.ExtractStructure
    rw [hpK]
    simp only [hbound]
    rw [if_neg]
    · exact hs
    · have hb2 : ¬ ((BitLen pK : Nat) : Int) > ((lm + IntSize : Nat) : Int) := by
        exact_mod_cast (by omega : ¬ BitLen pK > lm + IntSize)
      omega

/-- C10, amended, at `lm = 256` for a proof with three bases and `K = 0`. -/
theorem ExtractStructure_spec_witness :
    256 + IntSize < 2 ^ 63 ∧
    ∃ s, proofZeroK.ExtractStructure 256 128 256 = .ok s ∧ s.a = proofZeroK.A ∧
      some s.k = proofZeroK.K ∧ s.ld = proofZeroK.Ld ∧
      s.cRep.length = proofZeroK.Cs.length ∧ s.lh = 256 ∧ s.lstatzk = 128 ∧ s.lm = 256 ∧
      s.splitter = none :=
  ⟨by decide, (ExtractStructure_spec proofZeroK 256 128 256 (by decide)).2 (by decide)⟩

/-! ## The table of three squares -/

theorem tableLoopK_total (limit i j : Nat) :
    ∀ (fuel k : Nat) (t : SquaresTable), 4 * limit + 2 ≤ k + fuel → k ≤ 4 * limit + 1 →
      ∃ t1, tableLoopK limit i j fuel k t = some t1 := by
  intro fuel
  induction fuel with
  | zero => intro k t h1 h2; omega
  | succ fuel ih =>
    intro k t h1 h2
    unfold tableLoopK
    by_cases hc : i * i + j * j + k * k ≤ 4 * limit
    · have hk : k ≤ 4 * limit := by nlinarith [Nat.le_mul_self k]
      simp only [hc, if_true]
      split
      · exact ih (k + 1) _ (by omega) (by omega)
      · exact ih (k + 1) _ (by omega) (by omega)
    · simp only [hc, if_false]
      exact ⟨t, rfl⟩

theorem tableLoopJ_total (limit i : Nat) :
    ∀ (fuel j : Nat) (t : SquaresTable), 4 * limit + 2 ≤ j + fuel → j ≤ 4 * limit + 1 →
      ∃ t1, tableLoopJ limit i fuel j t = some t1 := by
  intro fuel
  induction fuel with
  | zero => intro j t h1 h2; omega
  | succ fuel ih =>
    intro j t h1 h2
    unfold tableLoopJ
    by_cases hc : i * i + j * j ≤ 4 * limit
    · have hj : j ≤ 4 * limit := by nlinarith [Nat.le_mul_self j]
      obtain ⟨t1, ht1⟩ := tableLoopK_total limit i j (4 * limit + 2) 0 t (by omega) (by omega)
      simp only [hc, if_true, ht1]
      exact ih (j + 1) _ (by omega) (by omega)
    · simp only [hc, if_false]
      exact ⟨t, rfl⟩

theorem tableLoopI_total (limit : Nat) :
    ∀ (fuel i : Nat) (t : SquaresTable), 4 * limit + 2 ≤ i + fuel → i ≤ 4 * limit + 1 →
      ∃ t1, tableLoopI limit fuel i t = some t1 := by
  intro fuel
  induction fuel with
  | zero => intro i t h1 h2; omega
  | succ fuel ih =>
    intro i t h1 h2
    unfold tableLoopI
    by_cases hc : i * i ≤ 4 * limit
    · have hi : i ≤ 4 * limit := by nlinarith [Nat.le_mul_self i]
      obtain ⟨t1, ht1⟩ := tableLoopJ_total limit i (4 * limit + 2) 0 t (by omega) (by omega)
      simp only [hc, if_true, ht1]
      exact ih (i + 1) _ (by omega) (by omega)
    · simp only [hc, if_false]
      exact ⟨t, rfl⟩

/-- The enumeration of `GenerateSquaresTable` always finishes within its
iteration bounds. -/
theorem GenerateSquaresTable_total (limit : Nat) :
    ∃ t, GenerateSquaresTable limit = some t :=
  tableLoopI_total limit (4 * limit + 2) 0 _ (by omega) (by omega)

theorem Sound_set (t : SquaresTable) (h : t.Sound) (i j k v : Nat)
    (hv : v = i * i + j * j + k * k) (hmod : v % 4 = 2) :
    SquaresTable.Sound (t.set ((v - 2) / 4) [(i : Int), (j : Int), (k : Int)]) := by
  intro idx entry he
  rw [List.getElem?_set] at he
  split at he
  · split at he
    · cases he
      right
      refine ⟨i, j, k, rfl, ?_⟩
      omega
    · cases he
  · exact h idx entry he

theorem tableLoopK_inv (limit i j : Nat) :
    ∀ (fuel k : Nat) (t t1 : SquaresTable), tableLoopK limit i j fuel k t = some t1 →
      t.Sound → t1.Sound ∧ t1.length = t.length := by
  intro fuel
  induction fuel with
  | zero => intro k t t1 h; simp [tableLoopK] at h
  | succ fuel ih =>
    intro k t t1 h hs
    unfold tableLoopK at h
    split at h
    · simp only at h
      split at h
      · exact ih _ _ _ h hs
      · rename_i hmod
        have hm : (i * i + j * j + k * k) % 4 = 2 := by simpa using hmod
        obtain ⟨h1, h2⟩ := ih _ _ _ h (Sound_set t hs i j k _ rfl hm)
        exact ⟨h1, by rw [h2, List.length_set]⟩
    · cases h
      exact ⟨hs, rfl⟩

theorem tableLoopJ_inv (limit i : Nat) :
    ∀ (fuel j : Nat) (t t1 : SquaresTable), tableLoopJ limit i fuel j t = some t1 →
      t.Sound → t1.Sound ∧ t1.length = t.length := by
  intro fuel
  induction fuel with
  | zero => intro j t t1 h; simp [tableLoopJ] at h
  | succ fuel ih =>
    intro j t t1 h hs
    unfold tableLoopJ at h
    split at h
    · split at h
      · cases h
      · rename_i t2 ht2
        obtain ⟨h1, h2⟩ := tableLoopK_inv limit i j _ _ _ _ ht2 hs
        obtain ⟨h3, h4⟩ := ih _ _ _ h h1
        exact ⟨h3, by rw [h4, h2]⟩
    · cases h
      exact ⟨hs, rfl⟩

theorem tableLoopI_inv (limit : Nat) :
    ∀ (fuel i : Nat) (t t1 : SquaresTable), tableLoopI limit fuel i t = some t1 →
      t.Sound → t1.Sound ∧ t1.length = t.length := by
  intro fuel
  induction fuel with
  | zero => intro i t t1 h; simp [tableLoopI] at h
  | succ fuel ih =>
    intro i t t1 h hs
    unfold tableLoopI at h
    split at h
    · split at h
      · cases h
      · rename_i t2 ht2
        obtain ⟨h1, h2⟩ := tableLoopJ_inv limit i _ _ _ _ ht2 hs
        obtain ⟨h3, h4⟩ := ih _ _ _ h h1
        exact ⟨h3, by rw [h4, h2]⟩
    · cases h
      exact ⟨hs, rfl⟩

theorem GenerateSquaresTable_sound (limit : Nat) (t : SquaresTable)
    (h : GenerateSquaresTable limit = some t) : t.Sound ∧ t.length = limit + 1 := by
  have h0 : SquaresTable.Sound (List.replicate (limit + 1) []) := by
    intro idx entry he
    left
    rw [List.getElem?_replicate] at he
    split at he
    · cases he; rfl
    · cases he
  obtain ⟨h1, h2⟩ := tableLoopI_inv limit _ _ _ _ h h0
  exact ⟨h1, by rw [h2, List.length_replicate]⟩

/-- C5: for every limit `L ≥ 0` the table is generated, and whenever
`GenerateSquaresTable(L).Split(delta)` returns a result without error, the
result has exactly `SquareCount() = 3` elements, each a non-negative integer,
and the sum of their squares equals `delta`. -/
theorem Split_table_sound (L : Nat) (t : SquaresTable) (delta : Int) (ds : List Int)
    (ht : GenerateSquaresTable L = some t) (hsplit : t.Split delta = .ok ds) :
    (ds.length : Int) = t.SquareCount ∧ ds.length = 3 ∧ (∀ x ∈ ds, 0 ≤ x) ∧
      (ds.map (fun x => x * x)).sum = delta := by
  obtain ⟨hsound, -⟩ := GenerateSquaresTable_sound L t ht
  unfold SquaresTable.Split at hsplit
  simp only at hsplit
  split at hsplit
  · cases hsplit
  · rename_i hguard
    push_neg at hguard
    obtain ⟨-, h0, -, hmod⟩ := hguard
    rw [Int.tmod_eq_emod h0 (by decide)] at hmod
    split at hsplit
    · cases hsplit
    · rename_i entry hentry
      split at hsplit
      · rename_i x y z hx hy hz
        cases hsplit
        rcases hsound _ entry hentry with hnil | ⟨a, b, c, habc, hsum⟩
        · rw [hnil] at hx; cases hx
        · rw [habc] at hx hy hz
          simp only [List.getElem?_cons_zero, List.getElem?_cons_succ, Option.some.injEq]
            at hx hy hz
          subst hx hy hz
          have hidx : (((delta - 2).tdiv 4).toNat : Int) = (delta - 2) / 4 := by
            rw [Int.tdiv_eq_ediv (by omega) (by decide)]
            exact Int.toNat_of_nonneg (by omega)
          have hsumZ : ((a * a + b * b + c * c : Nat) : Int) = 4 * (delta - 2) / 4 + 2 := by
            rw [hsum]; push_cast; rw [hidx]; omega
          refine ⟨rfl, rfl, ?_, ?_⟩
          · intro w hw
            simp only [List.mem_cons, List.mem_singleton, List.not_mem_nil, or_false] at hw
            rcases hw with rfl | rfl | rfl <;> exact Int.natCast_nonneg _
          · simp only [List.map_cons, List.map_nil, List.sum_cons, List.sum_nil, add_zero]
            push_cast at hsumZ
            omega
      · cases hsplit

/-- C5 at `L = 3`, `delta = 2`: the table has four entries and the lookup
answers `[1, 1, 0]`. -/
theorem Split_table_sound_witness :
    GenerateSquaresTable 3 = some [[1, 1, 0], [2, 1, 1], [3, 1, 0], []] ∧
    SquaresTable.Split [[1, 1, 0], [2, 1, 1], [3, 1, 0], []] 2 = .ok [1, 1, 0] ∧
    ([1, 1, 0].map (fun x : Int => x * x)).sum = 2 :=
  ⟨by decide, by decide,
    (Split_table_sound 3 [[1, 1, 0], [2, 1, 1], [3, 1, 0], []] 2 [1, 1, 0]
      (by decide) (by decide)).2.2.2⟩

/-- C6, the code at the failing input `L = 1`, `delta = 2`: the table has the
two entries `[1, 1, 0]` and nil, the guard of `Split` compares `delta = 2` with
the table length 2, and the lookup is refused although `2 ≤ 4 * L`. -/
theorem Split_table_rejects_two :
    GenerateSquaresTable 1 = some [[1, 1, 0], []] ∧
    SquaresTable.Split [[1, 1, 0], []] 2 = .error (.err "Value outside of table range") := by
  constructor <;> decide

/-- The guard of `Split` refuses every `delta` above the limit `L` itself, in
particular every `delta` with `L < delta ≤ 4 * L`. -/
theorem Split_table_rejects_above_limit (L : Nat) (t : SquaresTable) (delta : Int)
    (ht : GenerateSquaresTable L = some t) (hd : (L : Int) < delta) :
    t.Split delta = .error (.err "Value outside of table range") := by
  obtain ⟨-, hlen⟩ := GenerateSquaresTable_sound L t ht
  unfold SquaresTable.Split
  simp only
  rw [if_pos]
  right; right; left
  rw [hlen]
  push_cast
  omega

/-! ## The prover -/

/-- What a successful run of `CommitmentsFromSecrets` went through. -/
theorem CommitmentsFromSecrets_ok (s : ProofStructure) (rnd : RandomSource) (g : QrGroup)
    (m mRandomizer : Int) (contribs : List Int) (commit : ProofCommit)
    (h : s.CommitmentsFromSecrets rnd g m mRandomizer = .ok (contribs, commit)) :
    0 ≤ m * s.a - s.k ∧ ∃ splitter, s.splitter = some splitter ∧
      splitter.Split (m * s.a - s.k) = .ok commit.d ∧
      commit.d.length = s.cRep.length ∧
      drawDRandomizers s rnd commit.d 0 = .ok commit.dRandomizers ∧
      drawV s rnd commit.d commit.d.length = .ok (commit.v, commit.vRandomizers) ∧
      commit.v5 = sumProducts commit.d commit.v 0 ∧
      rnd (3 * commit.d.length) (wrapUint (s.lm + s.ld + 2 + s.lh + s.lstatzk))
        = .ok commit.v5Randomizer ∧
      computeBases g commit.d commit.v = .ok commit.c ∧
      commit.m = m ∧ commit.mRandomizer = mRandomizer ∧
      ∃ c0, s.mCorrect.commitmentsFromSecrets g [] (NewBaseMerge g commit.toBaseLookup)
          commit.toSecretLookup = .ok c0 ∧
        cRepFromSecrets g (NewBaseMerge g commit.toBaseLookup) commit s.cRep commit.d.length c0
          = .ok contribs := by
  unfold ProofStructure.CommitmentsFromSecrets at h
  simp only at h
  split at h
  · cases h
  · rename_i hneg
    split at h
    · cases h
    · rename_i splitter hsp
      split at h
      · cases h
      · rename_i ds hds
        split at h
        · cases h
        · rename_i hlen
          split at h
          · cases h
          · rename_i dR hdR
            split at h
            · cases h
            · rename_i v vR hv
              split at h
              · cases h
              · rename_i r5 hr5
                split at h
                · cases h
                · rename_i c hc
                  split at h
                  · cases h
                  · rename_i c0 hc0
                    split at h
                    · cases h
                    · rename_i c1 hc1
                      cases h
                      exact ⟨by omega, splitter, hsp, hds, by simpa using hlen, hdR, hv, rfl,
                        hr5, hc, rfl, rfl, c0, hc0, hc1⟩

theorem drawDRandomizers_length (s : ProofStructure) (rnd : RandomSource) :
    ∀ (ds : List Int) (count : Nat) (rs : List Int),
      drawDRandomizers s rnd ds count = .ok rs → rs.length = ds.length := by
  intro ds
  induction ds with
  | nil => intro count rs h; simp [drawDRandomizers] at h; subst h; rfl
  | cons v rest ih =>
    intro count rs h
    rw [drawDRandomizers] at h
    split at h
    · cases h
    · split at h
      · cases h
      · split at h
        · cases h
        · rename_i rs1 hrs1
          cases h
          simp [ih _ _ hrs1]

theorem drawV_length (s : ProofStructure) (rnd : RandomSource) :
    ∀ (ds : List Int) (count : Nat) (vs rs : List Int),
      drawV s rnd ds count = .ok (vs, rs) → vs.length = ds.length ∧ rs.length = ds.length := by
  intro ds
  induction ds with
  | nil => intro count vs rs h; simp [drawV] at h; obtain ⟨h1, h2⟩ := h; subst h1 h2; simp
  | cons v rest ih =>
    intro count vs rs h
    unfold drawV at h
    split at h
    · cases h
    · split at h
      · cases h
      · split at h
        · cases h
        · rename_i vs1 rs1 hrec
          cases h
          obtain ⟨h1, h2⟩ := ih _ _ _ hrec
          simp [h1, h2]

theorem computeBases_length (g : QrGroup) :
    ∀ (ds vs cs : List Int), ds.length = vs.length →
      computeBases g ds vs = .ok cs → cs.length = ds.length := by
  intro ds
  induction ds with
  | nil => intro vs cs _ h; simp [computeBases] at h; subst h; rfl
  | cons d rest ih =>
    intro vs cs hlen h
    cases vs with
    | nil => simp at hlen
    | cons v vrest =>
      unfold computeBases at h
      split at h
      · split at h
        · cases h
        · split at h
          · cases h
          · rename_i cs1 hcs1
            cases h
            simp [ih _ _ (by simpa using hlen) hcs1]
      · cases h

theorem responses_ok (challenge : Int) :
    ∀ (xs rs : List Int), xs.length = rs.length →
      responses challenge xs rs
        = .ok (List.zipWith (fun x r => some (challenge * x + r)) xs rs) := by
  intro xs
  induction xs with
  | nil => intro rs _; cases rs <;> rfl
  | cons x rest ih =>
    intro rs hlen
    cases rs with
    | nil => simp at hlen
    | cons r rrest =>
      unfold responses
      rw [ih rrest (by simpa using hlen)]
      rfl

/-- The lengths of the arrays of a commit returned by `CommitmentsFromSecrets`. -/
theorem CommitmentsFromSecrets_lengths (s : ProofStructure) (rnd : RandomSource) (g : QrGroup)
    (m mRandomizer : Int) (contribs : List Int) (commit : ProofCommit)
    (h : s.CommitmentsFromSecrets rnd g m mRandomizer = .ok (contribs, commit)) :
    commit.d.length = s.cRep.length ∧ commit.dRandomizers.length = s.cRep.length ∧
      commit.v.length = s.cRep.length ∧ commit.vRandomizers.length = s.cRep.length ∧
      commit.c.length = s.cRep.length := by
  obtain ⟨-, splitter, -, -, hlen, hdR, hv, -, -, hc, -⟩ :=
    CommitmentsFromSecrets_ok s rnd g m mRandomizer contribs commit h
  have h1 := drawDRandomizers_length s rnd _ _ _ hdR
  obtain ⟨h2, h3⟩ := drawV_length s rnd _ _ _ _ hv
  have h4 := computeBases_length g _ _ _ (by rw [h2]) hc
  exact ⟨hlen, by rw [h1, hlen], by rw [h2, hlen], by rw [h3, hlen], by rw [h4, hlen]⟩

/-- The proof built from a commit returned by `CommitmentsFromSecrets`. -/
theorem BuildProof_ok (s : ProofStructure) (rnd : RandomSource) (g : QrGroup)
    (m mRandomizer : Int) (contribs : List Int) (commit : ProofCommit) (challenge : Int)
    (h : s.CommitmentsFromSecrets rnd g m mRandomizer = .ok (contribs, commit)) :
    s.BuildProof commit challenge = .ok
      { Cs := commit.c.map some
        DResponses := List.zipWith (fun x r => some (challenge * x + r)) commit.d
          commit.dRandomizers
        VResponses := List.zipWith (fun x r => some (challenge * x + r)) commit.v
          commit.vRandomizers
        V5Response := some (challenge * commit.v5 + commit.v5Randomizer)
        MResponse := some (challenge * commit.m + commit.mRandomizer)
        Ld := s.ld
        A := s.a
        K := some s.k } := by
  obtain ⟨h1, h2, h3, h4, -⟩ :=
    CommitmentsFromSecrets_lengths s rnd g m mRandomizer contribs commit h
  unfold ProofStructure.BuildProof
  rw [responses_ok challenge _ _ (by rw [h1, h2]), responses_ok challenge _ _ (by rw [h3, h4])]

/-- C9: for every `a`, `k` and every splitter with `SquareCount()` 3 or 4, the
proof built by `BuildProof` from the commit of a successful
`CommitmentsFromSecrets` of the structure `New(a, k, splitter, ...)` satisfies
`ProvesStatement(a, k)` for the original `(a, k)` of the caller. (The
multiplication `a *= 4` is the same machine operation in `New` and in
`ProvesStatement`, so this holds whether or not `4 * a` overflows.) -/
theorem ProvesStatement_honest (a k : Int) (split : SquareSplitter) (lh lstatzk lm : Nat)
    (s : ProofStructure) (rnd : RandomSource) (g : QrGroup) (m mRandomizer : Int)
    (contribs : List Int) (commit : ProofCommit) (challenge : Int)
    (hn : split.SquareCount = 3 ∨ split.SquareCount = 4)
    (hs : New a k split lh lstatzk lm = .ok s)
    (hc : s.CommitmentsFromSecrets rnd g m mRandomizer = .ok (contribs, commit)) :
    ∃ p, s.BuildProof commit challenge = .ok p ∧ p.ProvesStatement a k = .ok true := by
  obtain ⟨-, -, -, -, hlen⟩ :=
    CommitmentsFromSecrets_lengths s rnd g m mRandomizer contribs commit hc
  refine ⟨_, BuildProof_ok s rnd g m mRandomizer contribs commit challenge hc, ?_⟩
  rcases hn with h3 | h4
  · obtain ⟨s1, hs1, h_a, h_k, -, -, -, -, -, h_c, -⟩ :=
      newWithParams_ok (wrapInt (a * 4)) (k * 4 - 2) (some split) 3 split.Ld lh lstatzk lm
        (by decide)
    rw [New_three a k split lh lstatzk lm h3, hs1] at hs
    cases hs
    have hl : commit.c.length = 3 := by rw [hlen, h_c]; simp
    simp [Proof.ProvesStatement, hl, h_a, h_k]
  · obtain ⟨s1, hs1, h_a, h_k, -, -, -, -, -, h_c, -⟩ :=
      newWithParams_ok a k (some split) 4 split.Ld lh lstatzk lm (by decide)
    rw [New_four a k split lh lstatzk lm h4, hs1] at hs
    cases hs
    have hl : commit.c.length = 4 := by rw [hlen, h_c]; simp
    simp [Proof.ProvesStatement, hl, h_a, h_k]

/-! ## The running example: `a = 1`, `k = 45`, `m = 45`, the table of limit 3 -/

theorem exTable_eq : GenerateSquaresTable 3 = some exTable := by decide

theorem exStructure_eq : New 1 45 exTable.toSplitter 256 128 256 = .ok exStructure := by
  rfl

set_option maxRecDepth 100000 in
theorem exCommit_eq :
    exStructure.CommitmentsFromSecrets exRandom exGroup 45 7
      = .ok ([27, 12, 16, 33], exCommit) := by
  decide

theorem exProof_eq : exStructure.BuildProof exCommit 1234567 = .ok exProof := by decide

/-- C9 at `a = 1`, `k = 45`, `m = 45` with the table splitter of limit 3. -/
theorem ProvesStatement_honest_witness :
    exTable.toSplitter.SquareCount = 3 ∧
    New 1 45 exTable.toSplitter 256 128 256 = .ok exStructure ∧
    exStructure.CommitmentsFromSecrets exRandom exGroup 45 7
      = .ok ([27, 12, 16, 33], exCommit) ∧
    ∃ p, exStructure.BuildProof exCommit 1234567 = .ok p ∧ p.ProvesStatement 1 45 = .ok true :=
  ⟨rfl, exStructure_eq, exCommit_eq,
    ProvesStatement_honest 1 45 exTable.toSplitter 256 128 256 exStructure exRandom exGroup 45 7
      [27, 12, 16, 33] exCommit 1234567 (Or.inl rfl) exStructure_eq exCommit_eq⟩

/-! ## Where the errors of the prover come from -/

theorem ProofCommit_Randomizer_error (c : ProofCommit) (name : Name) (e : Fault)
    (h : c.Randomizer name = .error e) : ∃ msg, e = .crash msg := by
  unfold ProofCommit.Randomizer at h
  split at h
  · cases h
  · split at h
    · cases h
    · split at h
      · cases h; exact ⟨_, rfl⟩
      · split at h
        · cases h
        · split at h <;> cases h

theorem ProofCommit_Base_error (c : ProofCommit) (name : Name) (e : Fault)
    (h : c.Base name = .error e) : ∃ msg, e = .crash msg := by
  unfold ProofCommit.Base at h
  split at h
  · cases h; exact ⟨_, rfl⟩
  · split at h <;> cases h

theorem NewBaseMerge_commit_error (g : QrGroup) (c : ProofCommit) (ret : Int) (name : Name)
    (exp n : Int) (e : Fault)
    (h : (NewBaseMerge g c.toBaseLookup).Exp ret name exp n = .error e) :
    ∃ msg, e = .crash msg := by
  simp only [NewBaseMerge, ProofCommit.toBaseLookup] at h
  split at h
  · cases h
  · unfold ProofCommit.Exp at h
    split at h
    · rename_i e1 he1
      cases h
      exact ProofCommit_Base_error c name _ he1
    · cases h
    · cases h

theorem secretsProduct_error (g : QrGroup) (c : ProofCommit) :
    ∀ (rhs : List RhsContribution) (acc : Int) (e : Fault),
      secretsProduct g (NewBaseMerge g c.toBaseLookup) c.toSecretLookup rhs acc = .error e →
      ∃ msg, e = .crash msg := by
  intro rhs
  induction rhs with
  | nil => intro acc e h; simp [secretsProduct] at h
  | cons cur rest ih =>
    intro acc e h
    rw [secretsProduct] at h
    split at h
    · rename_i e1 he1
      cases h
      exact ProofCommit_Randomizer_error c _ _ he1
    · cases h; exact ⟨_, rfl⟩
    · split at h
      · rename_i e1 he1
        cases h
        exact NewBaseMerge_commit_error g c _ _ _ _ _ he1
      · cases h; exact ⟨_, rfl⟩
      · exact ih _ _ h

theorem commitmentsFromSecrets_error (g : QrGroup) (c : ProofCommit)
    (rep : qrRepresentationProofStructure) (list : List Int) (e : Fault)
    (h : rep.commitmentsFromSecrets g list (NewBaseMerge g c.toBaseLookup) c.toSecretLookup
      = .error e) : ∃ msg, e = .crash msg := by
  unfold qrRepresentationProofStructure.commitmentsFromSecrets at h
  split at h
  · rename_i e1 he1
    cases h
    exact secretsProduct_error g c _ _ _ he1
  · cases h

theorem cRepFromSecrets_error (g : QrGroup) (c : ProofCommit) :
    ∀ (reps : List qrRepresentationProofStructure) (n : Nat) (list : List Int) (e : Fault),
      cRepFromSecrets g (NewBaseMerge g c.toBaseLookup) c reps n list = .error e →
      ∃ msg, e = .crash msg := by
  intro reps
  induction reps with
  | nil =>
    intro n list e h
    cases n with
    | zero => simp [cRepFromSecrets] at h
    | succ n => simp [cRepFromSecrets] at h; exact ⟨_, h.symm⟩
  | cons rep reps ih =>
    intro n list e h
    cases n with
    | zero => simp [cRepFromSecrets] at h
    | succ n =>
      rw [cRepFromSecrets] at h
      split at h
      · rename_i e1 he1
        cases h
        exact commitmentsFromSecrets_error g c rep _ _ he1
      · exact ih _ _ _ h

theorem drawDRandomizers_error (s : ProofStructure) (rnd : RandomSource) :
    ∀ (ds : List Int) (count : Nat) (e : Fault),
      drawDRandomizers s rnd ds count = .error e →
      e = .err "Split function returned oversized d" ∨ ∃ i b, rnd i b = .error e := by
  intro ds
  induction ds with
  | nil => intro count e h; simp [drawDRandomizers] at h
  | cons v rest ih =>
    intro count e h
    rw [drawDRandomizers] at h
    split at h
    · cases h; exact Or.inl rfl
    · split at h
      · rename_i e1 he1
        cases h
        exact Or.inr ⟨_, _, he1⟩
      · split at h
        · rename_i e1 he1
          cases h
          exact ih _ _ he1
        · cases h

theorem drawV_error (s : ProofStructure) (rnd : RandomSource) :
    ∀ (ds : List Int) (count : Nat) (e : Fault),
      drawV s rnd ds count = .error e → ∃ i b, rnd i b = .error e := by
  intro ds
  induction ds with
  | nil => intro count e h; simp [drawV] at h
  | cons v rest ih =>
    intro count e h
    rw [drawV] at h
    split at h
    · rename_i e1 he1
      cases h
      exact ⟨_, _, he1⟩
    · split at h
      · rename_i e1 he1
        cases h
        exact ⟨_, _, he1⟩
      · split at h
        · rename_i e1 he1
          cases h
          exact ih _ _ he1
        · cases h

theorem computeBases_error (g : QrGroup) :
    ∀ (ds vs : List Int) (e : Fault), computeBases g ds vs = .error e →
      ∃ msg, e = .crash msg := by
  intro ds
  induction ds with
  | nil => intro vs e h; simp [computeBases] at h
  | cons d rest ih =>
    intro vs e h
    cases vs with
    | nil => simp [computeBases] at h
    | cons v vrest =>
      rw [computeBases] at h
      split at h
      · split at h
        · cases h; exact ⟨_, rfl⟩
        · split at h
          · rename_i e1 he1
            cases h
            exact ih _ _ he1
          · cases h
      · cases h; exact ⟨_, rfl⟩

/-- The first check of `CommitmentsFromSecrets`: a negative `m * a - k` is
answered with the error "Requested inequality does not hold". -/
theorem CommitmentsFromSecrets_negative (s : ProofStructure) (rnd : RandomSource)
    (g : QrGroup) (m mRandomizer : Int) (h : m * s.a - s.k < 0) :
    s.CommitmentsFromSecrets rnd g m mRandomizer
      = .error (.err "Requested inequality does not hold") := by
  unfold ProofStructure.CommitmentsFromSecrets
  simp only
  rw [if_pos h]

/-- Past its first check, `CommitmentsFromSecrets` returns the error
"Requested inequality does not hold" only if the splitter or the random
source returned an error with this very message. -/
theorem CommitmentsFromSecrets_nonnegative (s : ProofStructure) (rnd : RandomSource)
    (g : QrGroup) (m mRandomizer : Int) (h : 0 ≤ m * s.a - s.k)
    (hsplit : ∀ split d, s.splitter = some split →
      split.Split d ≠ .error (.err "Requested inequality does not hold"))
    (hrnd : ∀ i b, rnd i b ≠ .error (.err "Requested inequality does not hold")) :
    s.CommitmentsFromSecrets rnd g m mRandomizer
      ≠ .error (.err "Requested inequality does not hold") := by
  intro hres
  unfold ProofStructure.CommitmentsFromSecrets at hres
  simp only at hres
  rw [if_neg (by omega)] at hres
  split at hres
  · cases hres
  · rename_i splitter hsp
    split at hres
    · rename_i e he
      cases hres
      exact hsplit splitter _ hsp he
    · split at hres
      · exact absurd hres (by decide)
      · split at hres
        · rename_i e he
          cases hres
          rcases drawDRandomizers_error s rnd _ _ _ he with h1 | ⟨i, b, h1⟩
          · exact absurd h1 (by decide)
          · exact hrnd i b h1
        · split at hres
          · rename_i e he
            cases hres
            obtain ⟨i, b, h1⟩ := drawV_error s rnd _ _ _ he
            exact hrnd i b h1
          · split at hres
            · rename_i e he
              cases hres
              exact hrnd _ _ he
            · split at hres
              · rename_i e he
                cases hres
                obtain ⟨msg, h1⟩ := computeBases_error g _ _ _ he
                cases h1
              · split at hres
                · rename_i e he
                  cases hres
                  obtain ⟨msg, h1⟩ := commitmentsFromSecrets_error g _ _ _ _ he
                  cases h1
                · split at hres
                  · rename_i e he
                    cases hres
                    obtain ⟨msg, h1⟩ := cRepFromSecrets_error g _ _ _ _ _ he
                    cases h1
                  · cases hres

theorem Split_table_error (t : SquaresTable) (delta : Int) (e : Fault)
    (h : t.Split delta = .error e) :
    e = .err "Value outside of table range" ∨ e = .crash "index out of range" := by
  unfold SquaresTable.Split at h
  simp only at h
  split at h
  · cases h; exact Or.inl rfl
  · split at h
    · cases h; exact Or.inr rfl
    · split at h
      · cases h
      · cases h; exact Or.inr rfl

/-- C3, counterexample: `a = 2 ^ 62 ≥ 1`, `k = 1`, `m = 1` with a splitter of
three squares. Here `a * m - k = 2 ^ 62 - 1` is not negative, but `a *= 4`
wraps to 0 in `New`, the structure stores `(0, 2)`, and
`CommitmentsFromSecrets` returns the error "Requested inequality does not
hold". -/
theorem CommitmentsFromSecrets_error_at_overflow :
    (1 : Int) ≤ 2 ^ 62 ∧ IsInt64 (2 ^ 62) ∧ exTable.toSplitter.SquareCount = 3 ∧
    ¬ ((2 ^ 62 : Int) * 1 - 1 < 0) ∧
    ∃ s, New (2 ^ 62) 1 exTable.toSplitter 256 128 256 = .ok s ∧
      s.CommitmentsFromSecrets exRandom exGroup 1 7
        = .error (.err "Requested inequality does not hold") := by
  refine ⟨by decide, by decide, rfl, by decide, ?_⟩
  obtain ⟨s, hs, h_a, h_k, -⟩ :=
    newWithParams_ok (wrapInt (2 ^ 62 * 4)) (1 * 4 - 2) (some exTable.toSplitter) 3
      exTable.toSplitter.Ld 256 128 256 (by decide)
  refine ⟨s, by rw [New_three _ _ _ _ _ _ rfl]; exact hs, ?_⟩
  apply CommitmentsFromSecrets_negative
  rw [h_a, h_k]
  decide

/-- C3, amended: for every `a` (in particular every `a ≥ 1`) such that `4 * a`
fits a machine int when the splitter has three squares, every `k`, `m` and
every splitter with `SquareCount()` 3 or 4,
`New(a, k, splitter, ...).CommitmentsFromSecrets(g, m, mRandomizer)` returns the
error "Requested inequality does not hold" (and with it neither a contribution
vector nor a commit) if and only if `a * m - k < 0` for the original `(a, k)`
of the caller, whatever the splitter would return (a splitter or a random
source that itself returns an error with this very message aside); in
particular for `a = 1` it fails for every `m < k`. -/
theorem CommitmentsFromSecrets_inequality (a k m : Int) (split : SquareSplitter)
    (lh lstatzk lm : Nat) (rnd : RandomSource) (g : QrGroup) (mRandomizer : Int)
    (hn : split.SquareCount = 3 ∨ split.SquareCount = 4)
    (ha : split.SquareCount = 3 → IsInt64 (4 * a))
    (hsplit : ∀ d, split.Split d ≠ .error (.err "Requested inequality does not hold"))
    (hrnd : ∀ i b, rnd i b ≠ .error (.err "Requested inequality does not hold")) :
    ∃ s, New a k split lh lstatzk lm = .ok s ∧
      (s.CommitmentsFromSecrets rnd g m mRandomizer
          = .error (.err "Requested inequality does not hold") ↔ a * m - k < 0) ∧
      (a = 1 → m < k →
        s.CommitmentsFromSecrets rnd g m mRandomizer
          = .error (.err "Requested inequality does not hold")) := by
  have key : ∀ s : ProofStructure, s.splitter = some split →
      (m * s.a - s.k < 0 ↔ a * m - k < 0) →
      (s.CommitmentsFromSecrets rnd g m mRandomizer
          = .error (.err "Requested inequality does not hold") ↔ a * m - k < 0) ∧
      (a = 1 → m < k →
        s.CommitmentsFromSecrets rnd g m mRandomizer
          = .error (.err "Requested inequality does not hold")) := by
    intro s hsp hiff
    have h1 : s.CommitmentsFromSecrets rnd g m mRandomizer
          = .error (.err "Requested inequality does not hold") ↔ a * m - k < 0 := by
      constructor
      · intro hres
        by_contra hge
        have h0 : 0 ≤ m * s.a - s.k := by
          by_contra hlt
          exact hge (hiff.mp (by omega))
        refine CommitmentsFromSecrets_nonnegative s rnd g m mRandomizer h0 ?_ hrnd hres
        intro split1 d hsp1
        rw [hsp] at hsp1
        cases hsp1
        exact hsplit d
      · intro hlt
        exact CommitmentsFromSecrets_negative s rnd g m mRandomizer (hiff.mpr hlt)
    refine ⟨h1, ?_⟩
    intro ha1 hmk
    apply h1.mpr
    rw [ha1]
    omega
  rcases hn with h3 | h4
  · obtain ⟨s, hs, h_a, h_k, h_sp, -⟩ :=
      newWithParams_ok (wrapInt (a * 4)) (k * 4 - 2) (some split) 3 split.Ld lh lstatzk lm
        (by decide)
    refine ⟨s, by rw [New_three a k split lh lstatzk lm h3]; exact hs, key s h_sp ?_⟩
    have hw : wrapInt (a * 4) = a * 4 := wrapInt_of_isInt64 (by rw [mul_comm]; exact ha h3)
    rw [h_a, h_k, hw]
    have e : m * (a * 4) - (k * 4 - 2) = 4 * (a * m - k) + 2 := by ring
    rw [e]
    omega
  · obtain ⟨s, hs, h_a, h_k, h_sp, -⟩ :=
      newWithParams_ok a k (some split) 4 split.Ld lh lstatzk lm (by decide)
    refine ⟨s, by rw [New_four a k split lh lstatzk lm h4]; exact hs, key s h_sp ?_⟩
    rw [h_a, h_k, mul_comm]

/-- C3, amended, at `a = 1`, `k = 45`, `m = 44` with the table splitter of
limit 3. -/
theorem CommitmentsFromSecrets_inequality_witness :
    IsInt64 (4 * 1) ∧ (44 : Int) < 45 ∧
    ∃ s, New 1 45 exTable.toSplitter 256 128 256 = .ok s ∧
      s.CommitmentsFromSecrets exRandom exGroup 44 7
        = .error (.err "Requested inequality does not hold") := by
  obtain ⟨s, hs, -, h⟩ :=
    CommitmentsFromSecrets_inequality 1 45 44 exTable.toSplitter 256 128 256 exRandom exGroup 7
      (Or.inl rfl) (fun _ => by decide)
      (fun d h => by
        rcases Split_table_error exTable d _ h with h1 | h1 <;> exact absurd h1 (by decide))
      (fun i b h => by cases h)
  exact ⟨by decide, by decide, s, hs, h rfl (by decide)⟩

/-! ## The shape and bound check of the verifier -/

theorem verifyEntry_iff (s : ProofStructure) (g : QrGroup) (p : Proof) (i : Nat) :
    verifyEntry s g p i = true ↔
      (∃ c, p.Cs[i]? = some (some c) ∧ BitLen c ≤ BitLen g.N) ∧
      (∃ d, p.DResponses[i]? = some (some d) ∧
        BitLen d ≤ wrapUint (s.ld + s.lh + s.lstatzk + 1)) ∧
      (∃ v, p.VResponses[i]? = some (some v) ∧
        BitLen v ≤ wrapUint (s.lm + s.lh + s.lstatzk + 1)) := by
  unfold verifyEntry
  rcases p.Cs[i]? with _ | _ | c <;> rcases p.DResponses[i]? with _ | _ | d <;>
    rcases p.VResponses[i]? with _ | _ | v <;> simp

/-- The checks of `VerifyProofStructure`, one by one. -/
theorem VerifyProofStructure_eq_true_iff (s : ProofStructure) (g : QrGroup) (p : Proof) :
    s.VerifyProofStructure g p = true ↔
      p.Cs.length = s.cRep.length ∧ p.DResponses.length = s.cRep.length ∧
      p.VResponses.length = s.cRep.length ∧
      (∃ v5, p.V5Response = some v5 ∧
        BitLen v5 ≤ wrapUint (s.lm + s.ld + 2 + s.lh + s.lstatzk + 1)) ∧
      (∃ m, p.MResponse = some m ∧ BitLen m ≤ wrapUint (s.lm + s.lh + s.lstatzk + 1)) ∧
      ∀ i, i < s.cRep.length →
        (∃ c, p.Cs[i]? = some (some c) ∧ BitLen c ≤ BitLen g.N) ∧
        (∃ d, p.DResponses[i]? = some (some d) ∧
          BitLen d ≤ wrapUint (s.ld + s.lh + s.lstatzk + 1)) ∧
        (∃ v, p.VResponses[i]? = some (some v) ∧
          BitLen v ≤ wrapUint (s.lm + s.lh + s.lstatzk + 1)) := by
  unfold ProofStructure.VerifyProofStructure
  split
  · rename_i hlen
    constructor
    · intro h; cases h
    · rintro ⟨h1, h2, h3, -⟩
      omega
  · rename_i hlen
    have hl : p.Cs.length = s.cRep.length ∧ p.DResponses.length = s.cRep.length ∧
        p.VResponses.length = s.cRep.length := by omega
    split
    · rename_i v5 m h5 hm
      split
      · rename_i hb
        constructor
        · intro h; cases h
        · rintro ⟨-, -, -, ⟨v5a, h5a, hb5⟩, ⟨ma, hma, hbm⟩, -⟩
          rw [h5] at h5a; rw [hm] at hma
          cases h5a; cases hma
          omega
      · rename_i hb
        rw [List.all_eq_true]
        constructor
        · intro h
          refine ⟨hl.1, hl.2.1, hl.2.2, ⟨v5, h5, by omega⟩, ⟨m, hm, by omega⟩, ?_⟩
          intro i hi
          exact (verifyEntry_iff s g p i).mp (h i (List.mem_range.mpr hi))
        · rintro ⟨-, -, -, -, -, h⟩ i hi
          exact (verifyEntry_iff s g p i).mpr (h i (List.mem_range.mp hi))
    · rename_i hnil
      constructor
      · intro h; cases h
      · rintro ⟨-, -, -, ⟨v5a, h5a, -⟩, ⟨ma, hma, -⟩, -⟩
        exact (hnil v5a ma h5a hma).elim

/-- C4, counterexample: the structure `New(1, 45, splitter, 0, 0, 2^64 - 1)`
and a proof with three bases whose values are all present, with bit length 0
except the response for `m`, of bit length 1. Every bound of the claim holds
(`1 ≤ lm + lh + lstatzk + 1 = 2 ^ 64`), but the uint sum `lm+lh+lstatzk+1`
wraps to 0 and `VerifyProofStructure` returns false. -/
theorem VerifyProofStructure_rejects_at_wrapped_bound :
    New 1 45 zeroLdSplitter 0 0 (2 ^ 64 - 1) = .ok wideStructure ∧
    wideStructure.VerifyProofStructure exGroup smallProof = false ∧
    wideStructure.cRep.length = 3 ∧
    smallProof.Cs = [some 0, some 0, some 0] ∧
    smallProof.DResponses = [some 0, some 0, some 0] ∧
    smallProof.VResponses = [some 0, some 0, some 0] ∧
    smallProof.V5Response = some 0 ∧ smallProof.MResponse = some 1 ∧
    BitLen 0 ≤ wideStructure.lm + wideStructure.ld + 2 + wideStructure.lh
      + wideStructure.lstatzk + 1 ∧
    BitLen 1 ≤ wideStructure.lm + wideStructure.lh + wideStructure.lstatzk + 1 ∧
    BitLen 0 ≤ BitLen exGroup.N ∧
    BitLen 0 ≤ wideStructure.ld + wideStructure.lh + wideStructure.lstatzk + 1 ∧
    BitLen 0 ≤ wideStructure.lm + wideStructure.lh + wideStructure.lstatzk + 1 := by
  refine ⟨rfl, ?_, ?_, ?_, ?_, ?_, ?_, ?_, ?_, ?_, ?_, ?_, ?_⟩ <;> decide

/-- C4, amended: `VerifyProofStructure` is exactly a shape and bounds check.
It returns true if and only if the three arrays have the length `n` of
`cRep`, `V5Response` and `MResponse` are present, every `Cs[i]`,
`DResponses[i]`, `VResponses[i]` is present, and the bit lengths are within
the bounds `lm+ld+2+lh+lstatzk+1` (for `V5Response`), `lm+lh+lstatzk+1` (for
`MResponse` and `VResponses[i]`), `ld+lh+lstatzk+1` (for `DResponses[i]`),
each computed in uint arithmetic, that is reduced modulo `2 ^ 64`, and the bit
length of `N` (for `Cs[i]`). The result depends on the structure only through
`n`, `ld`, `lm`, `lh` and `lstatzk`: not on `a`, `k` or the relations. -/
theorem VerifyProofStructure_shape_and_bounds (s : ProofStructure) (g : QrGroup) (p : Proof) :
    (s.VerifyProofStructure g p = true ↔
      p.Cs.length = s.cRep.length ∧ p.DResponses.length = s.cRep.length ∧
      p.VResponses.length = s.cRep.length ∧
      (∃ v5, p.V5Response = some v5 ∧
        BitLen v5 ≤ wrapUint (s.lm + s.ld + 2 + s.lh + s.lstatzk + 1)) ∧
      (∃ m, p.MResponse = some m ∧ BitLen m ≤ wrapUint (s.lm + s.lh + s.lstatzk + 1)) ∧
      ∀ i, i < s.cRep.length →
        (∃ c, p.Cs[i]? = some (some c) ∧ BitLen c ≤ BitLen g.N) ∧
        (∃ d, p.DResponses[i]? = some (some d) ∧
          BitLen d ≤ wrapUint (s.ld + s.lh + s.lstatzk + 1)) ∧
        (∃ v, p.VResponses[i]? = some (some v) ∧
          BitLen v ≤ wrapUint (s.lm + s.lh + s.lstatzk + 1))) ∧
    (∀ s1 : ProofStructure, s1.cRep.length = s.cRep.length → s1.ld = s.ld → s1.lm = s.lm →
      s1.lh = s.lh → s1.lstatzk = s.lstatzk →
      s1.VerifyProofStructure g p = s.VerifyProofStructure g p) := by
  refine ⟨VerifyProofStructure_eq_true_iff s g p, ?_⟩
  intro s1 h1 h2 h3 h4 h5
  rw [Bool.eq_iff_iff, VerifyProofStructure_eq_true_iff, VerifyProofStructure_eq_true_iff,
    h1, h2, h3, h4, h5]

/-! ## Bit lengths of honest responses -/

theorem bitLenAux_le_iff : ∀ (fuel n k : Nat), n ≤ fuel → (bitLenAux fuel n ≤ k ↔ n < 2 ^ k) := by
  intro fuel
  induction fuel with
  | zero =>
    intro n k h
    have h0 : n = 0 := by omega
    subst h0
    simp [bitLenAux]
  | succ fuel ih =>
    intro n k h
    rw [bitLenAux]
    by_cases hn : n = 0
    · subst hn
      simp
    · rw [if_neg hn]
      cases k with
      | zero => simp; omega
      | succ k =>
        rw [Nat.add_le_add_iff_right, ih (n / 2) k (by omega), pow_succ]
        omega

theorem BitLen_le_iff (x : Int) (k : Nat) : BitLen x ≤ k ↔ x.natAbs < 2 ^ k :=
  bitLenAux_le_iff x.natAbs x.natAbs k (le_refl _)

theorem BitLen_le_of_lt (x : Int) (k : Nat) (h0 : 0 ≤ x) (h : x < 2 ^ k) : BitLen x ≤ k := by
  rw [BitLen_le_iff]
  zify
  rw [abs_of_nonneg h0]
  exact h

theorem BitLen_le_of_natAbs_lt (x y : Int) (h : x.natAbs < y.natAbs) : BitLen x ≤ BitLen y := by
  rw [BitLen_le_iff]
  exact lt_trans h ((BitLen_le_iff y (BitLen y)).mp (le_refl _))

theorem response_bound (c x r : Int) (a b e : Nat) (hc : 0 ≤ c ∧ c < 2 ^ a)
    (hx : 0 ≤ x ∧ x < 2 ^ b) (hr : 0 ≤ r ∧ r < 2 ^ e) (h : a + b ≤ e) :
    0 ≤ c * x + r ∧ c * x + r < 2 ^ (e + 1) := by
  have h1 : c * x < 2 ^ a * 2 ^ b := by
    have ha : (0 : Int) < 2 ^ a := by positivity
    calc c * x ≤ c * 2 ^ b := mul_le_mul_of_nonneg_left (le_of_lt hx.2) hc.1
      _ < 2 ^ a * 2 ^ b := mul_lt_mul_of_pos_right hc.2 (by positivity)
  have h2 : (2 : Int) ^ a * 2 ^ b ≤ 2 ^ e := by
    rw [← pow_add]
    exact pow_le_pow_right₀ (by norm_num) h
  have h3 : (0 : Int) ≤ c * x := mul_nonneg hc.1 hx.1
  constructor
  · omega
  · rw [pow_succ]
    omega

theorem sumProducts_bound (D V : Int) (hD : 0 < D) (hV : 0 < V) :
    ∀ (ds vs : List Int) (acc : Int), (∀ d ∈ ds, 0 ≤ d ∧ d < D) → (∀ v ∈ vs, 0 ≤ v ∧ v < V) →
      acc ≤ sumProducts ds vs acc ∧
      sumProducts ds vs acc + ds.length ≤ acc + ds.length * (D * V) := by
  intro ds
  induction ds with
  | nil => intro vs acc _ _; simp [sumProducts]
  | cons d rest ih =>
    intro vs acc hd hv
    cases vs with
    | nil =>
      simp only [sumProducts, le_refl, true_and, List.length_cons]
      have : (1 : Int) ≤ D * V := by nlinarith
      have h2 : (0 : Int) ≤ (rest.length : Int) := Int.natCast_nonneg _
      push_cast
      nlinarith
    | cons v vrest =>
      rw [sumProducts]
      have hd0 := hd d (List.mem_cons_self _ _)
      have hv0 := hv v (List.mem_cons_self _ _)
      obtain ⟨h1, h2⟩ := ih vrest (acc + d * v)
        (fun x hx => hd x (List.mem_cons_of_mem _ hx))
        (fun x hx => hv x (List.mem_cons_of_mem _ hx))
      have h3 : 0 ≤ d * v := mul_nonneg hd0.1 hv0.1
      have h4 : d * v + 1 ≤ D * V := by nlinarith
      constructor
      · omega
      · simp only [List.length_cons]
        push_cast
        nlinarith

theorem drawDRandomizers_mem (s : ProofStructure) (rnd : RandomSource) :
    ∀ (ds : List Int) (count : Nat) (rs : List Int),
      drawDRandomizers s rnd ds count = .ok rs →
      ∀ r ∈ rs, ∃ i, rnd i (wrapUint (s.ld + s.lh + s.lstatzk)) = .ok r := by
  intro ds
  induction ds with
  | nil => intro count rs h; simp [drawDRandomizers] at h; subst h; simp
  | cons v rest ih =>
    intro count rs h
    rw [drawDRandomizers] at h
    split at h
    · cases h
    · split at h
      · cases h
      · rename_i r0 hr0
        split at h
        · cases h
        · rename_i rs1 hrs1
          cases h
          intro r hr
          rcases List.mem_cons.mp hr with h1 | h1
          · subst h1; exact ⟨_, hr0⟩
          · exact ih _ _ hrs1 r h1

theorem drawV_mem (s : ProofStructure) (rnd : RandomSource) :
    ∀ (ds : List Int) (count : Nat) (vs rs : List Int),
      drawV s rnd ds count = .ok (vs, rs) →
      (∀ v ∈ vs, ∃ i, rnd i s.lm = .ok v) ∧
      (∀ r ∈ rs, ∃ i, rnd i (wrapUint (s.lm + s.lh + s.lstatzk)) = .ok r) := by
  intro ds
  induction ds with
  | nil => intro count vs rs h; simp [drawV] at h; obtain ⟨h1, h2⟩ := h; subst h1 h2; simp
  | cons d rest ih =>
    intro count vs rs h
    rw [drawV] at h
    split at h
    · cases h
    · rename_i v0 hv0
      split at h
      · cases h
      · rename_i r0 hr0
        split at h
        · cases h
        · rename_i vs1 rs1 hrec
          cases h
          obtain ⟨h1, h2⟩ := ih _ _ _ hrec
          constructor
          · intro v hv
            rcases List.mem_cons.mp hv with h3 | h3
            · subst h3; exact ⟨_, hv0⟩
            · exact h1 v h3
          · intro r hr
            rcases List.mem_cons.mp hr with h3 | h3
            · subst h3; exact ⟨_, hr0⟩
            · exact h2 r h3

theorem computeBases_range (g : QrGroup) :
    ∀ (ds vs cs : List Int), computeBases g ds vs = .ok cs →
      ∀ c ∈ cs, 0 ≤ c ∧ c < |g.N| := by
  intro ds
  induction ds with
  | nil => intro vs cs h; simp [computeBases] at h; subst h; simp
  | cons d rest ih =>
    intro vs cs h
    cases vs with
    | nil => simp [computeBases] at h; subst h; simp
    | cons v vrest =>
      rw [computeBases] at h
      split at h
      · split at h
        · cases h
        · rename_i hN
          split at h
          · cases h
          · rename_i cs1 hcs1
            cases h
            intro c hc
            rcases List.mem_cons.mp hc with h1 | h1
            · subst h1
              exact ⟨Int.emod_nonneg _ hN, Int.emod_lt _ hN⟩
            · exact ih _ _ hcs1 c h1
      · cases h

/-- C2, amended: for every structure `s` with at most four relations `cRep`
whose uint sum `lm+ld+2+lh+lstatzk+1` does not wrap (it is below `2 ^ 64`):
if `0 ≤ m < 2^lm`, `0 ≤ mRandomizer < 2^(lm+lh+lstatzk)`,
`0 ≤ challenge < 2^lh`, every split value satisfies `0 ≤ d_i < 2^ld` and every
sampled value lies in the range it is drawn from, then for the commit of a
successful `CommitmentsFromSecrets` the proof `BuildProof(commit, challenge)`
passes `VerifyProofStructure`; that is, the bit lengths of the responses for
`m` and `v_i` are at most `lm+lh+lstatzk+1`, of the responses for `d_i` at most
`ld+lh+lstatzk+1`, of the response for `v5` at most `lm+ld+2+lh+lstatzk+1`, and
of every `C_i` at most the bit length of `N`. -/
theorem VerifyProofStructure_honest (s : ProofStructure) (rnd : RandomSource) (g : QrGroup)
    (m mRandomizer challenge : Int) (contribs : List Int) (commit : ProofCommit)
    (hn : s.cRep.length ≤ 4)
    (hw : s.lm + s.ld + 2 + s.lh + s.lstatzk + 1 < 2 ^ 64)
    (hm : 0 ≤ m ∧ m < 2 ^ s.lm)
    (hmr : 0 ≤ mRandomizer ∧ mRandomizer < 2 ^ (s.lm + s.lh + s.lstatzk))
    (hch : 0 ≤ challenge ∧ challenge < 2 ^ s.lh)
    (hrnd : ∀ count bits x, rnd count bits = .ok x → 0 ≤ x ∧ x < 2 ^ bits)
    (hcfs : s.CommitmentsFromSecrets rnd g m mRandomizer = .ok (contribs, commit))
    (hd : ∀ d ∈ commit.d, 0 ≤ d ∧ d < 2 ^ s.ld) :
    ∃ p, s.BuildProof commit challenge = .ok p ∧ s.VerifyProofStructure g p = true ∧
      (∃ r, p.MResponse = some r ∧ BitLen r ≤ s.lm + s.lh + s.lstatzk + 1) ∧
      (∃ r, p.V5Response = some r ∧ BitLen r ≤ s.lm + s.ld + 2 + s.lh + s.lstatzk + 1) ∧
      ∀ i, i < s.cRep.length →
        (∃ c, p.Cs[i]? = some (some c) ∧ BitLen c ≤ BitLen g.N) ∧
        (∃ r, p.DResponses[i]? = some (some r) ∧ BitLen r ≤ s.ld + s.lh + s.lstatzk + 1) ∧
        (∃ r, p.VResponses[i]? = some (some r) ∧ BitLen r ≤ s.lm + s.lh + s.lstatzk + 1) := by
  have w1 : wrapUint (s.lm + s.ld + 2 + s.lh + s.lstatzk + 1)
      = s.lm + s.ld + 2 + s.lh + s.lstatzk + 1 := wrapUint_of_isUint hw
  have w2 : wrapUint (s.lm + s.lh + s.lstatzk + 1) = s.lm + s.lh + s.lstatzk + 1 :=
    wrapUint_of_isUint (by unfold IsUint; omega)
  have w3 : wrapUint (s.ld + s.lh + s.lstatzk + 1) = s.ld + s.lh + s.lstatzk + 1 :=
    wrapUint_of_isUint (by unfold IsUint; omega)
  have w4 : wrapUint (s.ld + s.lh + s.lstatzk) = s.ld + s.lh + s.lstatzk :=
    wrapUint_of_isUint (by unfold IsUint; omega)
  have w5 : wrapUint (s.lm + s.lh + s.lstatzk) = s.lm + s.lh + s.lstatzk :=
    wrapUint_of_isUint (by unfold IsUint; omega)
  have w6 : wrapUint (s.lm + s.ld + 2 + s.lh + s.lstatzk)
      = s.lm + s.ld + 2 + s.lh + s.lstatzk := wrapUint_of_isUint (by unfold IsUint; omega)
  obtain ⟨-, splitter, -, -, -, hdR, hv, hv5, hr5, hc, hcm, hcmr, -⟩ :=
    CommitmentsFromSecrets_ok s rnd g m mRandomizer contribs commit hcfs
  obtain ⟨l1, l2, l3, l4, l5⟩ :=
    CommitmentsFromSecrets_lengths s rnd g m mRandomizer contribs commit hcfs
  have hdRr : ∀ r ∈ commit.dRandomizers, 0 ≤ r ∧ r < 2 ^ (s.ld + s.lh + s.lstatzk) := by
    intro r hr
    obtain ⟨i, hi⟩ := drawDRandomizers_mem s rnd _ _ _ hdR r hr
    rw [w4] at hi
    exact hrnd _ _ _ hi
  have hvr : ∀ v ∈ commit.v, 0 ≤ v ∧ v < 2 ^ s.lm := by
    intro v hv1
    obtain ⟨i, hi⟩ := (drawV_mem s rnd _ _ _ _ hv).1 v hv1
    exact hrnd _ _ _ hi
  have hvRr : ∀ r ∈ commit.vRandomizers, 0 ≤ r ∧ r < 2 ^ (s.lm + s.lh + s.lstatzk) := by
    intro r hr
    obtain ⟨i, hi⟩ := (drawV_mem s rnd _ _ _ _ hv).2 r hr
    rw [w5] at hi
    exact hrnd _ _ _ hi
  have hr5r : 0 ≤ commit.v5Randomizer ∧
      commit.v5Randomizer < 2 ^ (s.lm + s.ld + 2 + s.lh + s.lstatzk) := by
    rw [w6] at hr5
    exact hrnd _ _ _ hr5
  have hv5r : 0 ≤ commit.v5 ∧ commit.v5 < 2 ^ (s.ld + s.lm + 2) := by
    obtain ⟨b1, b2⟩ := sumProducts_bound (2 ^ s.ld) (2 ^ s.lm) (by positivity) (by positivity)
      commit.d commit.v 0 hd hvr
    rw [← hv5] at b1 b2
    refine ⟨b1, ?_⟩
    have hlen : (commit.d.length : Int) ≤ 4 := by
      have : commit.d.length ≤ 4 := by omega
      exact_mod_cast this
    have hpos : (0 : Int) < 2 ^ s.ld * 2 ^ s.lm := by positivity
    have hl0 : (0 : Int) ≤ (commit.d.length : Int) := Int.natCast_nonneg _
    have e : (2 : Int) ^ (s.ld + s.lm + 2) = 4 * (2 ^ s.ld * 2 ^ s.lm) := by
      rw [pow_add, pow_add]; ring
    rw [e]
    have h2 : (commit.d.length : Int) * (2 ^ s.ld * 2 ^ s.lm) ≤ 4 * (2 ^ s.ld * 2 ^ s.lm) :=
      mul_le_mul_of_nonneg_right hlen (le_of_lt hpos)
    rcases Nat.eq_zero_or_pos commit.d.length with h0 | h0
    · rw [h0] at b2
      simp only [Nat.cast_zero, add_zero, zero_mul, zero_add] at b2
      linarith
    · have h1 : (1 : Int) ≤ (commit.d.length : Int) := by exact_mod_cast h0
      linarith
  have hmresp := response_bound challenge commit.m commit.mRandomizer s.lh s.lm
    (s.lm + s.lh + s.lstatzk) hch (by rw [hcm]; exact hm) (by rw [hcmr]; exact hmr) (by omega)
  have hv5resp := response_bound challenge commit.v5 commit.v5Randomizer s.lh (s.ld + s.lm + 2)
    (s.lm + s.ld + 2 + s.lh + s.lstatzk) hch hv5r hr5r (by omega)
  have hbp := BuildProof_ok s rnd g m mRandomizer contribs commit challenge hcfs
  have hentries : ∀ i, i < s.cRep.length →
      (∃ c, (commit.c.map some)[i]? = some (some c) ∧ BitLen c ≤ BitLen g.N) ∧
      (∃ r, (List.zipWith (fun x r => some (challenge * x + r)) commit.d
          commit.dRandomizers)[i]? = some (some r) ∧
        BitLen r ≤ s.ld + s.lh + s.lstatzk + 1) ∧
      (∃ r, (List.zipWith (fun x r => some (challenge * x + r)) commit.v
          commit.vRandomizers)[i]? = some (some r) ∧
        BitLen r ≤ s.lm + s.lh + s.lstatzk + 1) := by
    intro i hi
    have hci : i < commit.c.length := by omega
    have hdi : i < commit.d.length := by omega
    have hdRi : i < commit.dRandomizers.length := by omega
    have hvi : i < commit.v.length := by omega
    have hvRi : i < commit.vRandomizers.length := by omega
    refine ⟨⟨commit.c[i], ?_, ?_⟩, ⟨challenge * commit.d[i] + commit.dRandomizers[i], ?_, ?_⟩,
      ⟨challenge * commit.v[i] + commit.vRandomizers[i], ?_, ?_⟩⟩
    · simp [List.getElem?_eq_getElem hci]
    · have hr := computeBases_range g _ _ _ hc _ (List.getElem_mem hci)
      apply BitLen_le_of_natAbs_lt
      zify
      rw [abs_of_nonneg hr.1]
      exact hr.2
    · simp [List.getElem?_zipWith, List.getElem?_eq_getElem hdi, List.getElem?_eq_getElem hdRi]
    · have b := response_bound challenge commit.d[i] commit.dRandomizers[i] s.lh s.ld
        (s.ld + s.lh + s.lstatzk) hch (hd _ (List.getElem_mem hdi))
        (hdRr _ (List.getElem_mem hdRi)) (by omega)
      exact BitLen_le_of_lt _ _ b.1 b.2
    · simp [List.getElem?_zipWith, List.getElem?_eq_getElem hvi, List.getElem?_eq_getElem hvRi]
    · have b := response_bound challenge commit.v[i] commit.vRandomizers[i] s.lh s.lm
        (s.lm + s.lh + s.lstatzk) hch (hvr _ (List.getElem_mem hvi))
        (hvRr _ (List.getElem_mem hvRi)) (by omega)
      exact BitLen_le_of_lt _ _ b.1 b.2
  refine ⟨_, hbp, ?_, ⟨_, rfl, BitLen_le_of_lt _ _ hmresp.1 hmresp.2⟩,
    ⟨_, rfl, BitLen_le_of_lt _ _ hv5resp.1 hv5resp.2⟩, hentries⟩
  rw [VerifyProofStructure_eq_true_iff, w1, w2, w3]
  refine ⟨by simp [l5], by simp [l1, l2], by simp [l3, l4],
    ⟨_, rfl, BitLen_le_of_lt _ _ hv5resp.1 hv5resp.2⟩,
    ⟨_, rfl, BitLen_le_of_lt _ _ hmresp.1 hmresp.2⟩, hentries⟩

theorem exRandom_range (count bits : Nat) (x : Int) (h : exRandom count bits = .ok x) :
    0 ≤ x ∧ x < 2 ^ bits := by
  have hpos : (0 : Int) < 2 ^ bits := by positivity
  simp only [exRandom, Except.ok.injEq] at h
  subst h
  exact ⟨Int.emod_nonneg _ (ne_of_gt hpos), Int.emod_lt_of_pos _ hpos⟩

theorem boundedRandom_range (count bits : Nat) (x : Int)
    (h : boundedRandom count bits = .ok x) : 0 ≤ x ∧ x < 2 ^ bits := by
  have hpos : (0 : Int) < 2 ^ bits := by positivity
  unfold boundedRandom at h
  split at h
  · simp only [Except.ok.injEq] at h
    subst h
    exact ⟨Int.emod_nonneg _ (ne_of_gt hpos), Int.emod_lt_of_pos _ hpos⟩
  · cases h

/-- The source `boundedRandom` returns a value only for a draw of fewer than
`2 ^ 62` bits. -/
theorem boundedRandom_bits (count bits : Nat) (x : Int)
    (h : boundedRandom count bits = .ok x) : bits < 2 ^ 62 := by
  unfold boundedRandom at h
  split at h
  · rename_i hlt
    exact lt_trans hlt (by decide)
  · cases h

set_option maxRecDepth 100000 in
/-- C2, counterexample: the structure `New(1, 45, table, 2^64 - 3, 0, 8)` with
`m = 45 < 2^lm`, `mRandomizer = 7 < 2^(lm+lh+lstatzk)`, `challenge = 4 < 2^lh`,
the split `[1, 1, 0]` of `2 = 4 * 45 - 178` with `d_i < 2^ld = 8`, and a random
source whose values lie in the range they are drawn from. No draw asks for
more than 10 bits: the uint sums `ld+lh+lstatzk`, `lm+lh+lstatzk` and
`lm+ld+2+lh+lstatzk` wrap to 0, 5 and 10. The responses for `d` are
`[4, 4, 0]`, the uint sum `ld+lh+lstatzk+1` wraps to 1, and
`VerifyProofStructure` rejects the honestly built proof, whose first response
for `d` has 3 bits. -/
theorem VerifyProofStructure_honest_fails_at_wrapped_bound :
    New 1 45 exTable.toSplitter (2 ^ 64 - 3) 0 8 = .ok wrapLhStructure ∧
    wrapLhStructure.cRep.length ≤ 4 ∧
    ((0 : Int) ≤ 45 ∧ (45 : Int) < 2 ^ wrapLhStructure.lm) ∧
    ((0 : Int) ≤ 7 ∧ (7 : Int) < 2 ^ (wrapLhStructure.lm + wrapLhStructure.lh
      + wrapLhStructure.lstatzk)) ∧
    ((0 : Int) ≤ 4 ∧ (4 : Int) < 2 ^ wrapLhStructure.lh) ∧
    (∀ count bits x, boundedRandom count bits = .ok x → 0 ≤ x ∧ x < 2 ^ bits) ∧
    wrapUint (wrapLhStructure.ld + wrapLhStructure.lh + wrapLhStructure.lstatzk) = 0 ∧
    wrapUint (wrapLhStructure.lm + wrapLhStructure.lh + wrapLhStructure.lstatzk) = 5 ∧
    wrapUint (wrapLhStructure.lm + wrapLhStructure.ld + 2 + wrapLhStructure.lh
      + wrapLhStructure.lstatzk) = 10 ∧
    wrapLhStructure.CommitmentsFromSecrets boundedRandom exGroup 45 7
      = .ok ([1, 29, 9, 4], wrapLhCommit) ∧
    (∀ d ∈ wrapLhCommit.d, 0 ≤ d ∧ d < 2 ^ wrapLhStructure.ld) ∧
    wrapLhStructure.BuildProof wrapLhCommit 4 = .ok wrapLhProof ∧
    wrapLhProof.DResponses = [some 4, some 4, some 0] ∧ BitLen 4 = 3 ∧
    wrapUint (wrapLhStructure.ld + wrapLhStructure.lh + wrapLhStructure.lstatzk + 1) = 1 ∧
    wrapLhStructure.VerifyProofStructure exGroup wrapLhProof = false := by
  have hlh : wrapLhStructure.lh = 2 ^ 64 - 3 := rfl
  have h6 : 6 ≤ wrapLhStructure.lh := by rw [hlh]; decide
  have h4 : (4 : Int) < 2 ^ wrapLhStructure.lh :=
    lt_of_lt_of_le (by norm_num : (4 : Int) < 2 ^ 6) (pow_le_pow_right₀ (by norm_num) h6)
  have h7 : (7 : Int) < 2 ^ (wrapLhStructure.lm + wrapLhStructure.lh
      + wrapLhStructure.lstatzk) :=
    lt_of_lt_of_le (by norm_num : (7 : Int) < 2 ^ 6)
      (pow_le_pow_right₀ (by norm_num) (by omega))
  refine ⟨rfl, by decide, ⟨by decide, by decide⟩, ⟨by decide, h7⟩, ⟨by decide, h4⟩,
    boundedRandom_range, by decide, by decide, by decide, by decide, by decide, by decide, rfl,
    by decide, by decide, by decide⟩

set_option maxRecDepth 100000 in
/-- C2, amended, at the running example: `lm = 256`, `lh = 256`,
`lstatzk = 128`, `ld = 3`, `m = 45`, `mRandomizer = 7`, `challenge = 1234567`. -/
theorem VerifyProofStructure_honest_witness :
    exStructure.cRep.length ≤ 4 ∧
    exStructure.lm + exStructure.ld + 2 + exStructure.lh + exStructure.lstatzk + 1 < 2 ^ 64 ∧
    exStructure.CommitmentsFromSecrets exRandom exGroup 45 7
      = .ok ([27, 12, 16, 33], exCommit) ∧
    ∃ p, exStructure.BuildProof exCommit 1234567 = .ok p ∧
      exStructure.VerifyProofStructure exGroup p = true := by
  obtain ⟨p, hp, hv, -⟩ :=
    VerifyProofStructure_honest exStructure exRandom exGroup 45 7 1234567 [27, 12, 16, 33]
      exCommit (by decide) (by decide) (by decide) (by decide) (by decide) exRandom_range
      exCommit_eq (by decide)
  exact ⟨by decide, by decide, exCommit_eq, p, hp, hv⟩

/-! ## Modular exponentiation in the integers modulo `|N|` -/

theorem powModAux_eq (n : Nat) :
    ∀ (fuel b e : Nat), e < 2 ^ fuel → powModAux n fuel b e = b ^ e % n := by
  intro fuel
  induction fuel with
  | zero =>
    intro b e h
    have h0 : e = 0 := by simpa using h
    subst h0
    simp [powModAux]
  | succ fuel ih =>
    intro b e h
    rw [powModAux]
    by_cases he : e = 0
    · subst he; simp
    · rw [if_neg he]
      have hlt : e / 2 < 2 ^ fuel := by rw [pow_succ] at h; omega
      have hrec := ih (b * b % n) (e / 2) hlt
      have hsq : (b * b % n) ^ (e / 2) % n = (b * b) ^ (e / 2) % n := by
        rw [Nat.pow_mod, Nat.mod_mod, ← Nat.pow_mod]
      by_cases hodd : e % 2 = 1
      · rw [if_pos hodd, hrec, hsq]
        have e2 : b ^ e = b * (b * b) ^ (e / 2) := by
          conv_lhs => rw [← Nat.div_add_mod e 2, hodd]
          rw [pow_succ, pow_mul, sq]
          ring
        rw [e2, Nat.mul_mod, Nat.mod_mod, ← Nat.mul_mod]
      · rw [if_neg hodd, hrec, hsq]
        have e2 : b ^ e = (b * b) ^ (e / 2) := by
          conv_lhs => rw [← Nat.div_add_mod e 2, (by omega : e % 2 = 0)]
          rw [add_zero, pow_mul, sq]
        rw [e2]

theorem powMod_eq (b e n : Nat) : powMod b e n = b ^ e % n := by
  unfold powMod
  apply powModAux_eq
  exact (bitLenAux_le_iff e e _ (le_refl _)).mp (le_refl _)

theorem invMod_spec (x n : Nat) (hn : 0 < n) (hc : Nat.Coprime x n) :
    ∃ xi, invMod x n = some xi ∧ xi < n ∧ x * xi % n = 1 % n := by
  have hex : ∃ y, y ∈ List.range n ∧ decide (x * y % n = 1 % n) = true := by
    by_cases h1 : n = 1
    · subst h1
      exact ⟨0, by simp, by simp⟩
    · obtain ⟨m, hm⟩ := Nat.exists_mul_emod_eq_one_of_coprime hc (by omega)
      refine ⟨m % n, List.mem_range.mpr (Nat.mod_lt _ hn), ?_⟩
      rw [decide_eq_true_eq, Nat.mul_mod, Nat.mod_mod, ← Nat.mul_mod, hm, Nat.mod_eq_of_lt]
      omega
  have hsome : (invMod x n).isSome := by
    unfold invMod
    rw [List.find?_isSome]
    exact hex
  obtain ⟨xi, hxi⟩ := Option.isSome_iff_exists.mp hsome
  refine ⟨xi, hxi, ?_, ?_⟩
  · exact List.mem_range.mp (List.mem_of_find?_eq_some hxi)
  · have := List.find?_some hxi
    simpa using this


theorem emod_eq_emod_natAbs (x N : Int) : x % N = x % (N.natAbs : Int) := by
  rw [← Int.abs_eq_natAbs, Int.emod_abs]

theorem intCast_emod (x N : Int) : ((x % N : Int) : ZMod N.natAbs) = (x : ZMod N.natAbs) := by
  rw [emod_eq_emod_natAbs, ZMod.intCast_mod]

theorem emod_range (x N : Int) (hN : N ≠ 0) : 0 ≤ x % N ∧ x % N < (N.natAbs : Int) := by
  have hpos : (0 : Int) < (N.natAbs : Int) := by
    have := Int.natAbs_pos.mpr hN
    exact_mod_cast this
  rw [emod_eq_emod_natAbs]
  exact ⟨Int.emod_nonneg _ (ne_of_gt hpos), Int.emod_lt_of_pos _ hpos⟩

theorem eq_of_intCast_eq (n : Nat) (r1 r2 : Int) (h1 : 0 ≤ r1 ∧ r1 < n) (h2 : 0 ≤ r2 ∧ r2 < n)
    (h : (r1 : ZMod n) = (r2 : ZMod n)) : r1 = r2 := by
  rw [ZMod.intCast_eq_intCast_iff'] at h
  rw [Int.emod_eq_of_lt h1.1 h1.2, Int.emod_eq_of_lt h2.1 h2.2] at h
  exact h

theorem natCast_toNat_emod (x : Int) (n : Nat) (hn : 0 < n) :
    (((x % (n : Int)).toNat : Nat) : ZMod n) = (x : ZMod n) := by
  have h0 : 0 ≤ x % (n : Int) := Int.emod_nonneg _ (by omega)
  have h1 : (((x % (n : Int)).toNat : Nat) : Int) = x % (n : Int) := Int.toNat_of_nonneg h0
  have h2 : ((((x % (n : Int)).toNat : Nat) : Int) : ZMod n) = ((x % (n : Int) : Int) : ZMod n) := by
    rw [h1]
  rw [Int.cast_natCast, ZMod.intCast_mod] at h2
  exact h2

/-- The modular exponentiation of a unit: the result is the representative in
`[0, |N|)` of the integer power of the unit. -/
theorem bigExp_spec (x N : Int) (hN : N ≠ 0) (u : (ZMod N.natAbs)ˣ)
    (hu : (x : ZMod N.natAbs) = (u : ZMod N.natAbs)) (y : Int) :
    ∃ r, bigExp x y N = some r ∧ 0 ≤ r ∧ r < (N.natAbs : Int) ∧
      (r : ZMod N.natAbs) = ((u ^ y : (ZMod N.natAbs)ˣ) : ZMod N.natAbs) := by
  have hn : 0 < N.natAbs := Int.natAbs_pos.mpr hN
  have hn0 : ¬ N.natAbs = 0 := by omega
  have hb : (((x % (N.natAbs : Int)).toNat : Nat) : ZMod N.natAbs) = (u : ZMod N.natAbs) := by
    rw [natCast_toNat_emod x _ hn, hu]
  have hrange : ∀ b e : Nat, (0 : Int) ≤ ((powMod b e N.natAbs : Nat) : Int) ∧
      ((powMod b e N.natAbs : Nat) : Int) < (N.natAbs : Int) := by
    intro b e
    rw [powMod_eq]
    exact ⟨Int.natCast_nonneg _, by exact_mod_cast Nat.mod_lt _ hn⟩
  have hcast : ∀ b e : Nat, (((powMod b e N.natAbs : Nat) : Int) : ZMod N.natAbs)
      = (b : ZMod N.natAbs) ^ e := by
    intro b e
    rw [powMod_eq, Int.cast_natCast, ZMod.natCast_mod, Nat.cast_pow]
  unfold bigExp
  simp only [hn0, if_false]
  by_cases hy : 0 ≤ y
  · rw [if_pos hy]
    refine ⟨_, rfl, (hrange _ _).1, (hrange _ _).2, ?_⟩
    rw [hcast, hb]
    obtain ⟨e, he⟩ := Int.eq_ofNat_of_zero_le hy
    subst he
    simp
  · rw [if_neg hy]
    have hcop : Nat.Coprime (x % (N.natAbs : Int)).toNat N.natAbs := by
      rw [← ZMod.isUnit_iff_coprime, hb]
      exact u.isUnit
    obtain ⟨xi, hxi, -, hprod⟩ := invMod_spec _ _ hn hcop
    rw [hxi]
    refine ⟨_, rfl, (hrange _ _).1, (hrange _ _).2, ?_⟩
    rw [hcast]
    have hinv : (xi : ZMod N.natAbs) = ((u⁻¹ : (ZMod N.natAbs)ˣ) : ZMod N.natAbs) := by
      have h1 : (((x % (N.natAbs : Int)).toNat * xi : Nat) : ZMod N.natAbs) = 1 := by
        rw [← ZMod.natCast_mod, hprod, ZMod.natCast_mod, Nat.cast_one]
      rw [Nat.cast_mul, hb] at h1
      calc (xi : ZMod N.natAbs) = ((u⁻¹ : (ZMod N.natAbs)ˣ) : ZMod N.natAbs) * (u * xi) := by
            rw [← mul_assoc, Units.inv_mul, one_mul]
        _ = ((u⁻¹ : (ZMod N.natAbs)ˣ) : ZMod N.natAbs) := by rw [h1, mul_one]
    rw [hinv, ← Units.val_pow_eq_pow_val]
    congr 1
    have hy2 : y = -(((-y).toNat : Nat) : Int) := by
      rw [Int.toNat_of_nonneg (by omega)]; ring
    conv_rhs => rw [hy2]
    rw [zpow_neg, zpow_natCast, inv_pow]

/-- A base invertible modulo `N` is a unit of the integers modulo `|N|`. -/
theorem unit_of_gcd (x N : Int) (h : Int.gcd x N = 1) :
    ∃ u : (ZMod N.natAbs)ˣ, (x : ZMod N.natAbs) = (u : ZMod N.natAbs) := by
  obtain ⟨a, b, hab⟩ := Int.isCoprime_iff_gcd_eq_one.mpr h
  have hN0 : ((N : Int) : ZMod N.natAbs) = 0 := by
    rw [ZMod.intCast_zmod_eq_zero_iff_dvd]
    exact Int.natAbs_dvd.mpr (dvd_refl _)
  have h1 : (a : ZMod N.natAbs) * (x : ZMod N.natAbs) = 1 := by
    have := congrArg (fun z : Int => (z : ZMod N.natAbs)) hab
    simp only [Int.cast_add, Int.cast_mul, Int.cast_one, hN0, mul_zero, add_zero] at this
    exact this
  exact ⟨Units.mkOfMulEqOne (x : ZMod N.natAbs) (a : ZMod N.natAbs) (by rw [mul_comm]; exact h1),
    rfl⟩

/-! ## Evaluation of a relation -/

theorem resolves_group (g : QrGroup) (hN : g.N ≠ 0) (part : BaseLookup) (name : Name) (b : Int)
    (u : (ZMod g.N.natAbs)ˣ) (hb : g.Base name = some b)
    (hu : (b : ZMod g.N.natAbs) = (u : ZMod g.N.natAbs)) :
    Resolves g (NewBaseMerge g part) name u := by
  intro e
  obtain ⟨r, hr, h0, h1, h2⟩ := bigExp_spec b g.N hN u hu e
  refine ⟨r, ?_, h0, h1, h2⟩
  simp [NewBaseMerge, QrGroup.Exp, hb, hr]

theorem resolves_part (g : QrGroup) (hN : g.N ≠ 0) (part : BaseLookup) (name : Name) (b : Int)
    (u : (ZMod g.N.natAbs)ˣ) (hg : g.Base name = none)
    (hp : ∀ e, part.Exp 0 name e g.N = .ok ((bigExp b e g.N).getD 0, true))
    (hu : (b : ZMod g.N.natAbs) = (u : ZMod g.N.natAbs)) :
    Resolves g (NewBaseMerge g part) name u := by
  intro e
  obtain ⟨r, hr, h0, h1, h2⟩ := bigExp_spec b g.N hN u hu e
  refine ⟨r, ?_, h0, h1, h2⟩
  simp [NewBaseMerge, QrGroup.Exp, hg, hp, hr]

theorem secretsProduct_eval (g : QrGroup) (hN : g.N ≠ 0) (bases : BaseLookup)
    (secretdata : SecretLookup) :
    ∀ (items : List (RhsContribution × (ZMod g.N.natAbs)ˣ × Int × Int)),
      (∀ it ∈ items, secretdata.Randomizer it.1.Secret = .ok (some it.2.2.2) ∧
        Resolves g bases it.1.Base it.2.1) →
      ∀ (acc : Int) (w : (ZMod g.N.natAbs)ˣ), (acc : ZMod g.N.natAbs) = (w : ZMod g.N.natAbs) →
      ∃ r, secretsProduct g bases secretdata (items.map (fun it => it.1)) acc = .ok r ∧
        (r : ZMod g.N.natAbs)
          = ((w * (items.map (fun it => it.2.1 ^ (it.1.Power * it.2.2.2))).prod
              : (ZMod g.N.natAbs)ˣ) : ZMod g.N.natAbs) ∧
        (items ≠ [] → 0 ≤ r ∧ r < (g.N.natAbs : Int)) := by
  intro items
  induction items with
  | nil =>
    intro _ acc w hw
    exact ⟨acc, rfl, by simpa using hw, fun h => absurd rfl h⟩
  | cons it rest ih =>
    intro hall acc w hw
    obtain ⟨hrand, hres⟩ := hall it (List.mem_cons_self _ _)
    obtain ⟨x, hx, -, -, hxc⟩ := hres (it.1.Power * it.2.2.2)
    have hacc : ((acc * x % g.N : Int) : ZMod g.N.natAbs)
        = ((w * it.2.1 ^ (it.1.Power * it.2.2.2) : (ZMod g.N.natAbs)ˣ) : ZMod g.N.natAbs) := by
      rw [intCast_emod, Int.cast_mul, hw, hxc, Units.val_mul]
    obtain ⟨r, hr, hrc, hrr⟩ := ih (fun i hi => hall i (List.mem_cons_of_mem _ hi))
      (acc * x % g.N) _ hacc
    refine ⟨r, ?_, ?_, ?_⟩
    · simp only [List.map_cons, secretsProduct, hrand, hx]
      exact hr
    · rw [hrc, List.map_cons, List.prod_cons, mul_assoc]
    · intro _
      cases rest with
      | nil =>
        simp only [List.map_nil, secretsProduct] at hr
        cases hr
        exact emod_range _ _ hN
      | cons it2 rest2 => exact hrr (by simp)

theorem proofProduct_eval (g : QrGroup) (hN : g.N ≠ 0) (bases : BaseLookup)
    (proofdata : ProofLookup) (c : Int) :
    ∀ (items : List (RhsContribution × (ZMod g.N.natAbs)ˣ × Int × Int)),
      (∀ it ∈ items,
        proofdata.ProofResult it.1.Secret = .ok (some (c * it.2.2.1 + it.2.2.2)) ∧
        Resolves g bases it.1.Base it.2.1) →
      ∀ (acc : Int) (w : (ZMod g.N.natAbs)ˣ), (acc : ZMod g.N.natAbs) = (w : ZMod g.N.natAbs) →
      ∃ r, proofProduct g bases proofdata (items.map (fun it => it.1)) acc = .ok r ∧
        (r : ZMod g.N.natAbs)
          = ((w * (items.map
                (fun it => it.2.1 ^ (it.1.Power * (c * it.2.2.1 + it.2.2.2)))).prod
              : (ZMod g.N.natAbs)ˣ) : ZMod g.N.natAbs) ∧
        (items ≠ [] → 0 ≤ r ∧ r < (g.N.natAbs : Int)) := by
  intro items
  induction items with
  | nil =>
    intro _ acc w hw
    exact ⟨acc, rfl, by simpa using hw, fun h => absurd rfl h⟩
  | cons it rest ih =>
    intro hall acc w hw
    obtain ⟨hrand, hres⟩ := hall it (List.mem_cons_self _ _)
    obtain ⟨x, hx, -, -, hxc⟩ := hres (it.1.Power * (c * it.2.2.1 + it.2.2.2))
    have hacc : ((acc * x % g.N : Int) : ZMod g.N.natAbs)
        = ((w * it.2.1 ^ (it.1.Power * (c * it.2.2.1 + it.2.2.2)) : (ZMod g.N.natAbs)ˣ)
            : ZMod g.N.natAbs) := by
      rw [intCast_emod, Int.cast_mul, hw, hxc, Units.val_mul]
    obtain ⟨r, hr, hrc, hrr⟩ := ih (fun i hi => hall i (List.mem_cons_of_mem _ hi))
      (acc * x % g.N) _ hacc
    refine ⟨r, ?_, ?_, ?_⟩
    · simp only [List.map_cons, proofProduct, hrand, hx]
      exact hr
    · rw [hrc, List.map_cons, List.prod_cons, mul_assoc]
    · intro _
      cases rest with
      | nil =>
        simp only [List.map_nil, proofProduct] at hr
        cases hr
        exact emod_range _ _ hN
      | cons it2 rest2 => exact hrr (by simp)

theorem lhsProduct_eval (g : QrGroup) (bases : BaseLookup) :
    ∀ (items : List (LhsContribution × (ZMod g.N.natAbs)ˣ)),
      (∀ it ∈ items, Resolves g bases it.1.Base it.2) →
      ∀ (acc : Int) (w : (ZMod g.N.natAbs)ˣ), (acc : ZMod g.N.natAbs) = (w : ZMod g.N.natAbs) →
      ∃ r, lhsProduct g bases (items.map (fun it => it.1)) acc = .ok r ∧
        (r : ZMod g.N.natAbs)
          = ((w * (items.map (fun it => it.2 ^ it.1.Power)).prod
              : (ZMod g.N.natAbs)ˣ) : ZMod g.N.natAbs) := by
  intro items
  induction items with
  | nil =>
    intro _ acc w hw
    exact ⟨acc, rfl, by simpa using hw⟩
  | cons it rest ih =>
    intro hall acc w hw
    have hres := hall it (List.mem_cons_self _ _)
    obtain ⟨x, hx, -, -, hxc⟩ := hres it.1.Power
    have hacc : ((acc * x % g.N : Int) : ZMod g.N.natAbs)
        = ((w * it.2 ^ it.1.Power : (ZMod g.N.natAbs)ˣ) : ZMod g.N.natAbs) := by
      rw [intCast_emod, Int.cast_mul, hw, hxc, Units.val_mul]
    obtain ⟨r, hr, hrc⟩ := ih (fun i hi => hall i (List.mem_cons_of_mem _ hi))
      (acc * x % g.N) _ hacc
    refine ⟨r, ?_, ?_⟩
    · simp only [List.map_cons, lhsProduct, hx]
      exact hr
    · rw [hrc, List.map_cons, List.prod_cons, mul_assoc]

theorem prod_responses {G : Type} [CommGroup G] (c : Int) :
    ∀ (items : List (RhsContribution × G × Int × Int)),
      (items.map (fun it => it.2.1 ^ (it.1.Power * (c * it.2.2.1 + it.2.2.2)))).prod
        = ((items.map (fun it => it.2.1 ^ (it.1.Power * it.2.2.1))).prod) ^ c
          * (items.map (fun it => it.2.1 ^ (it.1.Power * it.2.2.2))).prod := by
  intro items
  induction items with
  | nil => simp
  | cons it rest ih =>
    simp only [List.map_cons, List.prod_cons, ih, mul_zpow]
    have e : it.2.1 ^ (it.1.Power * (c * it.2.2.1 + it.2.2.2))
        = (it.2.1 ^ (it.1.Power * it.2.2.1)) ^ c * it.2.1 ^ (it.1.Power * it.2.2.2) := by
      rw [← zpow_mul, ← zpow_add]
      congr 1
      ring
    rw [e]
    exact mul_mul_mul_comm _ _ _ _


/-! ## Resolution of the names `d<i>`, `v<i>`, `C<i>` -/

theorem Atoi_toDigits (i : Nat) (h : i < 4) : Atoi (Nat.toDigits 10 i) = some (i : Int) := by
  interval_cases i <;> decide

theorem indexInt_digits (xs : List Int) (i : Nat) (h : i < 4) (hi : i < xs.length) :
    indexInt xs (Nat.toDigits 10 i) = some (xs.getD i 0) := by
  unfold indexInt
  rw [Atoi_toDigits i h]
  simp only
  rw [if_neg (by omega)]
  simp [List.getD, List.getElem?_eq_getElem hi]

theorem indexPtr_digits (xs : List (Option Int)) (i : Nat) (h : i < 4) (hi : i < xs.length) :
    indexPtr xs (Nat.toDigits 10 i) = (xs[i]?).join := by
  unfold indexPtr
  rw [Atoi_toDigits i h]
  simp only
  rw [if_neg (by omega)]
  simp

theorem toDigits_ne_five (i : Nat) (h : i < 4) : Nat.toDigits 10 i ≠ ['5'] := by
  interval_cases i <;> decide

theorem commit_Randomizer_d (c : ProofCommit) (i : Nat) (h : i < 4)
    (hi : i < c.dRandomizers.length) :
    c.Randomizer (sprintfD 'd' i) = .ok (some (c.dRandomizers.getD i 0)) := by
  unfold ProofCommit.Randomizer sprintfD
  rw [if_neg (by simp), if_neg (by simp)]
  simp only
  rw [if_pos True.intro, indexInt_digits _ i h hi, if_neg (by decide)]

theorem commit_Randomizer_v (c : ProofCommit) (i : Nat) (h : i < 4)
    (hi : i < c.vRandomizers.length) :
    c.Randomizer (sprintfD 'v' i) = .ok (some (c.vRandomizers.getD i 0)) := by
  unfold ProofCommit.Randomizer sprintfD
  rw [if_neg (by simp), if_neg (by simpa using toDigits_ne_five i h)]
  simp only
  rw [if_pos True.intro, indexInt_digits _ i h hi]

theorem commit_Base_C (c : ProofCommit) (i : Nat) (h : i < 4) (hi : i < c.c.length) :
    c.Base (sprintfD 'C' i) = .ok (some (c.c.getD i 0)) := by
  unfold ProofCommit.Base sprintfD
  simp only
  rw [if_pos True.intro, indexInt_digits _ i h hi]

theorem proof_ProofResult_d (p : Proof) (i : Nat) (h : i < 4) (hi : i < p.DResponses.length) :
    p.ProofResult (sprintfD 'd' i) = .ok ((p.DResponses[i]?).join) := by
  unfold Proof.ProofResult sprintfD
  rw [if_neg (by simp), if_neg (by simp)]
  simp only
  rw [if_pos True.intro, indexPtr_digits _ i h hi, if_neg (by decide)]

theorem proof_ProofResult_v (p : Proof) (i : Nat) (h : i < 4) (hi : i < p.VResponses.length) :
    p.ProofResult (sprintfD 'v' i) = .ok ((p.VResponses[i]?).join) := by
  unfold Proof.ProofResult sprintfD
  rw [if_neg (by simp), if_neg (by simpa using toDigits_ne_five i h)]
  simp only
  rw [if_pos True.intro, indexPtr_digits _ i h hi]

theorem proof_Base_C (p : Proof) (i : Nat) (h : i < 4) (hi : i < p.Cs.length) :
    p.Base (sprintfD 'C' i) = .ok ((p.Cs[i]?).join) := by
  unfold Proof.Base sprintfD
  simp only
  rw [if_pos True.intro, indexPtr_digits _ i h hi]

theorem group_Base_C (g : QrGroup) (i : Nat) : g.Base (sprintfD 'C' i) = none := by
  unfold QrGroup.Base sprintfD
  rw [if_neg (by simp), if_neg (by simp)]

/-! ## Round trip of the contributions -/

/-- Round trip of one relation: when the prover's and the verifier's lookups
resolve every name of the relation, the responses are
`challenge * secret + randomizer`, and the relation holds for the secrets, the
verifier recomputes the contribution of the prover. -/
theorem relation_roundtrip (g : QrGroup) (hN : g.N ≠ 0) (bs bp : BaseLookup)
    (sd : SecretLookup) (pd : ProofLookup) (c : Int) (rep : qrRepresentationProofStructure)
    (items : List (RhsContribution × (ZMod g.N.natAbs)ˣ × Int × Int))
    (litems : List (LhsContribution × (ZMod g.N.natAbs)ˣ))
    (hRhs : rep.Rhs = items.map (fun it => it.1)) (hLhs : rep.Lhs = litems.map (fun it => it.1))
    (hne : items ≠ [])
    (hs : ∀ it ∈ items, sd.Randomizer it.1.Secret = .ok (some it.2.2.2) ∧
      Resolves g bs it.1.Base it.2.1)
    (hp : ∀ it ∈ items, pd.ProofResult it.1.Secret = .ok (some (c * it.2.2.1 + it.2.2.2)) ∧
      Resolves g bp it.1.Base it.2.1)
    (hl : ∀ it ∈ litems, Resolves g bp it.1.Base it.2)
    (hrel : (litems.map (fun it => it.2 ^ it.1.Power)).prod
      = (items.map (fun it => it.2.1 ^ (it.1.Power * it.2.2.1))).prod)
    (list : List Int) :
    ∃ x, rep.commitmentsFromSecrets g list bs sd = .ok (list ++ [x]) ∧
      rep.commitmentsFromProof g list c bp pd = .ok (list ++ [x]) := by
  have h1 : ((1 : Int) : ZMod g.N.natAbs) = ((1 : (ZMod g.N.natAbs)ˣ) : ZMod g.N.natAbs) := by
    simp
  obtain ⟨r1, hr1, hc1, hrange1⟩ := secretsProduct_eval g hN bs sd items hs 1 1 h1
  obtain ⟨lhs, hlhs, hcl⟩ := lhsProduct_eval g bp litems hl 1 1 h1
  obtain ⟨start, hstart, -, -, hcs⟩ := bigExp_spec lhs g.N hN _ hcl (-c)
  obtain ⟨r2, hr2, hc2, hrange2⟩ := proofProduct_eval g hN bp pd c items hp start _ hcs
  have heq : r2 = r1 := by
    apply eq_of_intCast_eq g.N.natAbs r2 r1 (hrange2 hne) (hrange1 hne)
    rw [hc1, hc2]
    congr 1
    rw [prod_responses, hrel, one_mul, one_mul, ← mul_assoc, ← zpow_add]
    simp
  refine ⟨r1, ?_, ?_⟩
  · unfold qrRepresentationProofStructure.commitmentsFromSecrets
    rw [hRhs, hr1]
  · unfold qrRepresentationProofStructure.commitmentsFromProof
    rw [hLhs, hlhs]
    simp only [hstart]
    rw [hRhs, hr2, heq]

theorem cRep_roundtrip (g : QrGroup) (bs bp : BaseLookup) (commit : ProofCommit) (p : Proof)
    (c : Int) :
    ∀ (reps : List qrRepresentationProofStructure),
      (∀ rep ∈ reps, ∀ list : List Int,
        ∃ x, rep.commitmentsFromSecrets g list bs commit.toSecretLookup = .ok (list ++ [x]) ∧
          rep.commitmentsFromProof g list c bp p.toProofLookup = .ok (list ++ [x])) →
      ∀ (list out : List Int),
        cRepFromSecrets g bs commit reps reps.length list = .ok out →
        cRepFromProof g c bp p reps list = .ok out := by
  intro reps
  induction reps with
  | nil =>
    intro _ list out h
    simpa [cRepFromSecrets, cRepFromProof] using h
  | cons rep rest ih =>
    intro hall list out h
    obtain ⟨x, hx1, hx2⟩ := hall rep (List.mem_cons_self _ _) list
    simp only [List.length_cons, cRepFromSecrets, hx1] at h
    simp only [cRepFromProof, hx2]
    exact ih (fun r hr => hall r (List.mem_cons_of_mem _ hr)) _ _ h

theorem computeBases_cast (g : QrGroup) (hN : g.N ≠ 0) (uR uS : (ZMod g.N.natAbs)ˣ)
    (hR : (g.R : ZMod g.N.natAbs) = (uR : ZMod g.N.natAbs))
    (hS : (g.S : ZMod g.N.natAbs) = (uS : ZMod g.N.natAbs)) :
    ∀ (ds vs cs : List Int), computeBases g ds vs = .ok cs →
      ∀ i, i < cs.length →
        ((cs.getD i 0 : Int) : ZMod g.N.natAbs)
          = ((uR ^ ds.getD i 0 * uS ^ vs.getD i 0 : (ZMod g.N.natAbs)ˣ) : ZMod g.N.natAbs) := by
  intro ds
  induction ds with
  | nil => intro vs cs h i hi; simp [computeBases] at h; subst h; simp at hi
  | cons d rest ih =>
    intro vs cs h i hi
    cases vs with
    | nil => simp [computeBases] at h; subst h; simp at hi
    | cons v vrest =>
      rw [computeBases] at h
      split at h
      · rename_i x y hx hy
        split at h
        · cases h
        · split at h
          · cases h
          · rename_i cs1 hcs1
            cases h
            cases i with
            | zero =>
              obtain ⟨x1, hx1, -, -, hxc⟩ := bigExp_spec g.R g.N hN uR hR d
              obtain ⟨y1, hy1, -, -, hyc⟩ := bigExp_spec g.S g.N hN uS hS v
              rw [hx] at hx1; rw [hy] at hy1
              cases hx1; cases hy1
              simp only [List.getD_cons_zero]
              rw [intCast_emod, Int.cast_mul, hxc, hyc, Units.val_mul]
            | succ j =>
              simp only [List.getD_cons_succ]
              exact ih vrest cs1 hcs1 j (by simpa using hi)
      · cases h

theorem computeBases_ne_zero (g : QrGroup) (d v : Int) (ds vs cs : List Int)
    (h : computeBases g (d :: ds) (v :: vs) = .ok cs) : g.N ≠ 0 := by
  rw [computeBases] at h
  split at h
  · split at h
    · cases h
    · assumption
  · cases h

theorem range_map_eq_zipWith {G : Type} (f : Int → Int → G) :
    ∀ (ds vs : List Int), ds.length = vs.length →
      (List.range ds.length).map (fun i => f (ds.getD i 0) (vs.getD i 0))
        = List.zipWith f ds vs := by
  intro ds vs hlen
  apply List.ext_getElem
  · simp [hlen]
  · intro i h1 h2
    simp only [List.length_map, List.length_range] at h1
    have h3 : i < vs.length := by omega
    simp [List.getElem?_eq_getElem h1, List.getElem?_eq_getElem h3]

theorem prod_zipWith_pow {G : Type} [CommGroup G] (x y : G) :
    ∀ (ds vs : List Int) (acc : Int), ds.length = vs.length →
      (List.zipWith (fun d v => (x ^ d * y ^ v) ^ (1 * d)) ds vs).prod * y ^ acc
        = x ^ (ds.map (fun d => d * d)).sum * y ^ sumProducts ds vs acc := by
  intro ds
  induction ds with
  | nil => intro vs acc _; simp [sumProducts]
  | cons d rest ih =>
    intro vs acc hlen
    cases vs with
    | nil => simp at hlen
    | cons v vrest =>
      simp only [List.zipWith_cons_cons, List.prod_cons, List.map_cons, List.sum_cons,
        sumProducts]
      have h := ih vrest (acc + d * v) (by simpa using hlen)
      rw [zpow_add x, mul_assoc (x ^ (d * d)), ← h, zpow_add y, one_mul, mul_zpow, ← zpow_mul,
        ← zpow_mul]
      have e : v * d = d * v := mul_comm _ _
      rw [e]
      have key : ∀ A B P C : G, A * B * P * C = A * (P * (C * B)) := by
        intro A B P C
        rw [mul_assoc, mul_assoc, mul_left_comm B P, mul_comm B C]
      exact key _ _ _ _

theorem cRepFromSecrets_length (g : QrGroup) (bs bp : BaseLookup) (commit : ProofCommit)
    (p : Proof) (c : Int) :
    ∀ (reps : List qrRepresentationProofStructure),
      (∀ rep ∈ reps, ∀ list : List Int,
        ∃ x, rep.commitmentsFromSecrets g list bs commit.toSecretLookup = .ok (list ++ [x]) ∧
          rep.commitmentsFromProof g list c bp p.toProofLookup = .ok (list ++ [x])) →
      ∀ (list out : List Int),
        cRepFromSecrets g bs commit reps reps.length list = .ok out →
        out.length = list.length + reps.length := by
  intro reps
  induction reps with
  | nil =>
    intro _ list out h
    simp only [List.length_nil, cRepFromSecrets, Except.ok.injEq] at h
    subst h
    simp
  | cons rep rest ih =>
    intro hall list out h
    obtain ⟨x, hx1, -⟩ := hall rep (List.mem_cons_self _ _) list
    simp only [List.length_cons, cRepFromSecrets, hx1] at h
    rw [ih (fun r hr => hall r (List.mem_cons_of_mem _ hr)) _ _ h]
    simp
    omega

theorem roundtrip_core (s : ProofStructure) (n : Nat) (hn4 : n ≤ 4)
    (hcRep : s.cRep = (List.range n).map cRepEntry)
    (hmC : s.mCorrect =
      { Lhs := [{ Base := ['R'], Power := -s.k }]
        Rhs := [{ Base := ['S'], Secret := ['v', '5'], Power := -1 },
                { Base := ['R'], Secret := ['m'], Power := -s.a }]
               ++ (List.range n).map mCorrectEntry })
    (rnd : RandomSource) (g : QrGroup) (m mRandomizer c : Int) (contribs : List Int)
    (commit : ProofCommit) (hN : g.N ≠ 0)
    (hR : Int.gcd g.R g.N = 1) (hS : Int.gcd g.S g.N = 1)
    (hcfs : s.CommitmentsFromSecrets rnd g m mRandomizer = .ok (contribs, commit))
    (hsq : (commit.d.map (fun x => x * x)).sum = s.a * m - s.k) :
    ∃ p, s.BuildProof commit c = .ok p ∧ s.CommitmentsFromProof g p c = .ok contribs ∧
      contribs.length = n + 1 := by
  have hlenRep : s.cRep.length = n := by rw [hcRep]; simp
  obtain ⟨-, splitter, -, -, -, -, -, hv5, -, hbases, hcm, -, c0, hc0, hc1⟩ :=
    CommitmentsFromSecrets_ok s rnd g m mRandomizer contribs commit hcfs
  obtain ⟨l1, l2, l3, l4, l5⟩ :=
    CommitmentsFromSecrets_lengths s rnd g m mRandomizer contribs commit hcfs
  rw [hlenRep] at l1 l2 l3 l4 l5
  obtain ⟨uR, huR⟩ := unit_of_gcd g.R g.N hR
  obtain ⟨uS, huS⟩ := unit_of_gcd g.S g.N hS
  have hbp := BuildProof_ok s rnd g m mRandomizer contribs commit c hcfs
  refine ⟨_, hbp, ?_⟩
  generalize hp :
    ({ Cs := commit.c.map some
       DResponses := List.zipWith (fun x r => some (c * x + r)) commit.d commit.dRandomizers
       VResponses := List.zipWith (fun x r => some (c * x + r)) commit.v commit.vRandomizers
       V5Response := some (c * commit.v5 + commit.v5Randomizer)
       MResponse := some (c * commit.m + commit.mRandomizer)
       Ld := s.ld, A := s.a, K := some s.k } : Proof) = p
  have pCs : p.Cs = commit.c.map some := by rw [← hp]
  have pD : p.DResponses
      = List.zipWith (fun x r => some (c * x + r)) commit.d commit.dRandomizers := by rw [← hp]
  have pV : p.VResponses
      = List.zipWith (fun x r => some (c * x + r)) commit.v commit.vRandomizers := by rw [← hp]
  have pV5 : p.V5Response = some (c * commit.v5 + commit.v5Randomizer) := by rw [← hp]
  have pM : p.MResponse = some (c * commit.m + commit.mRandomizer) := by rw [← hp]
  -- the bases C_i as units
  have hcast := computeBases_cast g hN uR uS huR huS _ _ _ hbases
  -- resolution of the names
  have resR_s : Resolves g (NewBaseMerge g commit.toBaseLookup) ['R'] uR :=
    resolves_group g hN _ ['R'] g.R uR rfl huR
  have resS_s : Resolves g (NewBaseMerge g commit.toBaseLookup) ['S'] uS :=
    resolves_group g hN _ ['S'] g.S uS rfl huS
  have resR_p : Resolves g (NewBaseMerge g p.toBaseLookup) ['R'] uR :=
    resolves_group g hN _ ['R'] g.R uR rfl huR
  have resS_p : Resolves g (NewBaseMerge g p.toBaseLookup) ['S'] uS :=
    resolves_group g hN _ ['S'] g.S uS rfl huS
  have resC_s : ∀ i, i < n → Resolves g (NewBaseMerge g commit.toBaseLookup) (sprintfD 'C' i)
      (uR ^ commit.d.getD i 0 * uS ^ commit.v.getD i 0) := by
    intro i hi
    apply resolves_part g hN _ _ (commit.c.getD i 0) _ (group_Base_C g i)
    · intro e
      simp only [ProofCommit.toBaseLookup, ProofCommit.Exp,
        commit_Base_C commit i (by omega) (by omega)]
    · exact hcast i (by omega)
  have resC_p : ∀ i, i < n → Resolves g (NewBaseMerge g p.toBaseLookup) (sprintfD 'C' i)
      (uR ^ commit.d.getD i 0 * uS ^ commit.v.getD i 0) := by
    intro i hi
    apply resolves_part g hN _ _ (commit.c.getD i 0) _ (group_Base_C g i)
    · intro e
      have hb : p.Base (sprintfD 'C' i) = .ok (some (commit.c.getD i 0)) := by
        rw [proof_Base_C p i (by omega) (by rw [pCs]; simp; omega), pCs]
        simp [List.getElem?_eq_getElem (by omega : i < commit.c.length)]
      simp only [Proof.toBaseLookup, Proof.Exp, hb]
    · exact hcast i (by omega)
  have hPd : ∀ i, i < n → p.ProofResult (sprintfD 'd' i)
      = .ok (some (c * commit.d.getD i 0 + commit.dRandomizers.getD i 0)) := by
    intro i hi
    rw [proof_ProofResult_d p i (by omega) (by rw [pD]; simp; omega), pD]
    simp [List.getElem?_zipWith, List.getElem?_eq_getElem (by omega : i < commit.d.length),
      List.getElem?_eq_getElem (by omega : i < commit.dRandomizers.length)]
  have hPv : ∀ i, i < n → p.ProofResult (sprintfD 'v' i)
      = .ok (some (c * commit.v.getD i 0 + commit.vRandomizers.getD i 0)) := by
    intro i hi
    rw [proof_ProofResult_v p i (by omega) (by rw [pV]; simp; omega), pV]
    simp [List.getElem?_zipWith, List.getElem?_eq_getElem (by omega : i < commit.v.length),
      List.getElem?_eq_getElem (by omega : i < commit.vRandomizers.length)]
  -- the relations C_i = R^(d_i) * S^(v_i)
  have hreps : ∀ rep ∈ s.cRep, ∀ list : List Int,
      ∃ x, rep.commitmentsFromSecrets g list (NewBaseMerge g commit.toBaseLookup)
          commit.toSecretLookup = .ok (list ++ [x]) ∧
        rep.commitmentsFromProof g list c (NewBaseMerge g p.toBaseLookup) p.toProofLookup
          = .ok (list ++ [x]) := by
    intro rep hrep list
    rw [hcRep, List.mem_map] at hrep
    obtain ⟨i, hi, rfl⟩ := hrep
    have hi : i < n := List.mem_range.mp hi
    apply relation_roundtrip g hN _ _ _ _ c (cRepEntry i)
      [(⟨['R'], sprintfD 'd' i, 1⟩, uR, commit.d.getD i 0, commit.dRandomizers.getD i 0),
       (⟨['S'], sprintfD 'v' i, 1⟩, uS, commit.v.getD i 0, commit.vRandomizers.getD i 0)]
      [(⟨sprintfD 'C' i, 1⟩, uR ^ commit.d.getD i 0 * uS ^ commit.v.getD i 0)]
      rfl rfl (by simp)
    · intro it hit
      simp only [List.mem_cons, List.mem_singleton, List.not_mem_nil, or_false] at hit
      rcases hit with rfl | rfl
      · exact ⟨commit_Randomizer_d commit i (by omega) (by omega), resR_s⟩
      · exact ⟨commit_Randomizer_v commit i (by omega) (by omega), resS_s⟩
    · intro it hit
      simp only [List.mem_cons, List.mem_singleton, List.not_mem_nil, or_false] at hit
      rcases hit with rfl | rfl
      · exact ⟨hPd i hi, resR_p⟩
      · exact ⟨hPv i hi, resS_p⟩
    · intro it hit
      simp only [List.mem_singleton] at hit
      subst hit
      exact resC_p i hi
    · simp
  -- the relation for m
  have hm : ∀ list : List Int,
      ∃ x, s.mCorrect.commitmentsFromSecrets g list (NewBaseMerge g commit.toBaseLookup)
          commit.toSecretLookup = .ok (list ++ [x]) ∧
        s.mCorrect.commitmentsFromProof g list c (NewBaseMerge g p.toBaseLookup) p.toProofLookup
          = .ok (list ++ [x]) := by
    intro list
    apply relation_roundtrip g hN _ _ _ _ c s.mCorrect
      ([(⟨['S'], ['v', '5'], -1⟩, uS, commit.v5, commit.v5Randomizer),
        (⟨['R'], ['m'], -s.a⟩, uR, commit.m, commit.mRandomizer)]
        ++ (List.range n).map (fun i => (mCorrectEntry i,
              uR ^ commit.d.getD i 0 * uS ^ commit.v.getD i 0, commit.d.getD i 0,
              commit.dRandomizers.getD i 0)))
      [(⟨['R'], -s.k⟩, uR)]
      (by rw [hmC]; simp [List.map_map, Function.comp_def])
      (by rw [hmC]; rfl) (by simp)
    · intro it hit
      simp only [List.mem_append, List.mem_cons, List.mem_singleton, List.not_mem_nil, or_false,
        List.mem_map, List.mem_range] at hit
      rcases hit with (rfl | rfl) | ⟨i, hi, rfl⟩
      · exact ⟨rfl, resS_s⟩
      · exact ⟨rfl, resR_s⟩
      · exact ⟨commit_Randomizer_d commit i (by omega) (by omega), resC_s i hi⟩
    · intro it hit
      simp only [List.mem_append, List.mem_cons, List.mem_singleton, List.not_mem_nil, or_false,
        List.mem_map, List.mem_range] at hit
      rcases hit with (rfl | rfl) | ⟨i, hi, rfl⟩
      · refine ⟨?_, resS_p⟩
        simp [Proof.toProofLookup, Proof.ProofResult, pV5]
      · refine ⟨?_, resR_p⟩
        simp [Proof.toProofLookup, Proof.ProofResult, pM]
      · exact ⟨hPd i hi, resC_p i hi⟩
    · intro it hit
      simp only [List.mem_singleton] at hit
      subst hit
      exact resR_p
    · have hz := range_map_eq_zipWith
        (fun d v => (uR ^ d * uS ^ v) ^ ((1 : Int) * d)) commit.d commit.v (by omega)
      have hprod := prod_zipWith_pow uR uS commit.d commit.v 0 (by omega)
      rw [← hz, l1, ← hv5, hsq] at hprod
      simp only [List.map_cons, List.map_nil, List.prod_cons, List.prod_nil, List.map_append,
        List.prod_append, List.map_map, Function.comp_def, mul_one, mCorrectEntry]
      simp only [zpow_zero, mul_one] at hprod
      rw [hprod, hcm]
      have key : ∀ (A B : (ZMod g.N.natAbs)ˣ) (a k m v : Int),
          A ^ (-k) = B ^ (-1 * v) * A ^ (-a * m) * (A ^ (a * m - k) * B ^ v) := by
        intro A B a k m v
        rw [mul_comm (A ^ (a * m - k)) (B ^ v), mul_mul_mul_comm, ← zpow_add, ← zpow_add]
        have e1 : -1 * v + v = 0 := by ring
        have e2 : -a * m + (a * m - k) = -k := by ring
        rw [e1, e2, zpow_zero, one_mul]
      rw [mul_assoc]
      have := key uR uS s.a s.k m commit.v5
      rw [mul_assoc] at this
      exact this
  obtain ⟨x, hx1, hx2⟩ := hm []
  rw [hx1] at hc0
  cases hc0
  rw [l1, ← hlenRep] at hc1
  have hfinal := cRep_roundtrip g _ (NewBaseMerge g p.toBaseLookup) commit p c s.cRep hreps _ _ hc1
  constructor
  · unfold ProofStructure.CommitmentsFromProof
    simp only [hx2]
    exact hfinal
  · rw [cRepFromSecrets_length g _ (NewBaseMerge g p.toBaseLookup) commit p c s.cRep hreps _ _
      hc1, hlenRep]
    simp
    omega

theorem wrapInt_neg (x : Int) (h : IsInt64 x) (hmin : x ≠ -(2 ^ 63)) : wrapInt (-x) = -x := by
  apply wrapInt_of_isInt64
  unfold IsInt64 at h ⊢
  norm_num at h hmin ⊢
  omega

theorem wrapInt_isInt64 (x : Int) : IsInt64 (wrapInt x) := by
  unfold IsInt64 wrapInt
  norm_num
  omega

set_option maxRecDepth 100000 in
/-- C1, counterexample: `New(2^61, 2^61, table, 256, 128, 256)` with a splitter
of three squares, the group `N = 35`, `R = 3`, `S = 4`, `m = -1`,
`mRandomizer = 7` and the challenge `1`. The structure stores `a = -2^63`
(`a *= 4` wraps) and `k = 2^63 - 2`; `CommitmentsFromSecrets` succeeds with the
split `[1, 1, 0]` of `2 = s.a * m - s.k` and returns `[12, 12, 16, 33]`, while
`CommitmentsFromProof` on the proof built from the commit returns
`[27, 12, 16, 33]`: the power `int64(-a)` of the relation for `m` wraps. -/
theorem roundtrip_fails_at_min_int :
    exTable.toSplitter.SquareCount = 3 ∧ IsInt64 (2 ^ 61) ∧
    New (2 ^ 61) (2 ^ 61) exTable.toSplitter 256 128 256 = .ok overflowStructure ∧
    Int.gcd exGroup.R exGroup.N = 1 ∧ Int.gcd exGroup.S exGroup.N = 1 ∧
    overflowStructure.CommitmentsFromSecrets exRandom exGroup (-1) 7
      = .ok ([12, 12, 16, 33], overflowCommit) ∧
    (overflowCommit.d.map (fun x => x * x)).sum
      = overflowStructure.a * (-1) - overflowStructure.k ∧
    overflowStructure.BuildProof overflowCommit 1 = .ok overflowProof ∧
    overflowStructure.CommitmentsFromProof exGroup overflowProof 1 = .ok [27, 12, 16, 33] ∧
    ([27, 12, 16, 33] : List Int) ≠ [12, 12, 16, 33] := by
  refine ⟨rfl, by decide, rfl, by decide, by decide, by decide, by decide, by decide, by decide,
    by decide⟩

/-- C1, amended: round trip. For every structure `s` built by
`New(a, k, splitter, lh, lstatzk, lm)` with `SquareCount()` 3 or 4 whose stored
`a` is not the least machine integer `-2^63` (so that the power `int64(-a)` of
the relation for `m` is `-a`), every group `(N, R, S)` with `R` and `S`
invertible modulo `N`, every `m`, `mRandomizer` and challenge `c`: if
`s.CommitmentsFromSecrets(g, m, mRandomizer)` succeeds with a split `d` whose
squares sum to `s.a * m - s.k`, then `BuildProof` succeeds on the commit and
`s.CommitmentsFromProof(g, s.BuildProof(commit, c), c)` equals, entry by entry
and in the same order (first the relation for `m`, then the relations for
`C_0 .. C_{n-1}`), the contribution vector returned by
`CommitmentsFromSecrets`. Each relation contributes the product of
`base_j ^ (randomizer_j * power_j)` modulo `N` on the prover side and
`LHS ^ (-c)` times the product of `base_j ^ (response_j * power_j)` modulo `N`
on the verifier side. -/
theorem roundtrip (a k : Int) (split : SquareSplitter) (lh lstatzk lm : Nat)
    (s : ProofStructure) (rnd : RandomSource) (g : QrGroup) (m mRandomizer c : Int)
    (contribs : List Int) (commit : ProofCommit)
    (hn : split.SquareCount = 3 ∨ split.SquareCount = 4)
    (ha : IsInt64 a)
    (hs : New a k split lh lstatzk lm = .ok s)
    (hmin : s.a ≠ -(2 ^ 63))
    (hR : Int.gcd g.R g.N = 1) (hS : Int.gcd g.S g.N = 1)
    (hcfs : s.CommitmentsFromSecrets rnd g m mRandomizer = .ok (contribs, commit))
    (hsq : (commit.d.map (fun x => x * x)).sum = s.a * m - s.k) :
    ∃ p, s.BuildProof commit c = .ok p ∧ s.CommitmentsFromProof g p c = .ok contribs ∧
      contribs.length = s.cRep.length + 1 := by
  have hstruct : ∃ n : Nat, 3 ≤ n ∧ n ≤ 4 ∧ IsInt64 s.a ∧
      s.cRep = (List.range n).map cRepEntry ∧
      s.mCorrect =
        { Lhs := [{ Base := ['R'], Power := -s.k }]
          Rhs := [{ Base := ['S'], Secret := ['v', '5'], Power := -1 },
                  { Base := ['R'], Secret := ['m'], Power := wrapInt (-s.a) }]
                 ++ (List.range n).map mCorrectEntry } := by
    rcases hn with h3 | h4
    · obtain ⟨s1, hs1, h_a, h_k, -, -, -, -, -, h_c, h_m⟩ :=
        newWithParams_ok (wrapInt (a * 4)) (k * 4 - 2) (some split) 3 split.Ld lh lstatzk lm
          (by decide)
      rw [New_three a k split lh lstatzk lm h3, hs1] at hs
      cases hs
      refine ⟨3, by omega, by omega, by rw [h_a]; exact wrapInt_isInt64 _, h_c, ?_⟩
      rw [h_m, h_a, h_k]
      rfl
    · obtain ⟨s1, hs1, h_a, h_k, -, -, -, -, -, h_c, h_m⟩ :=
        newWithParams_ok a k (some split) 4 split.Ld lh lstatzk lm (by decide)
      rw [New_four a k split lh lstatzk lm h4, hs1] at hs
      cases hs
      refine ⟨4, by omega, by omega, by rw [h_a]; exact ha, h_c, ?_⟩
      rw [h_m, h_a, h_k]
      rfl
  obtain ⟨n, hn3, hn4, hsa, hcRep, hmC⟩ := hstruct
  rw [wrapInt_neg s.a hsa hmin] at hmC
  have hlenRep : s.cRep.length = n := by rw [hcRep]; simp
  obtain ⟨-, -, -, -, -, -, -, -, -, hbases, -⟩ :=
    CommitmentsFromSecrets_ok s rnd g m mRandomizer contribs commit hcfs
  obtain ⟨l1, -, l3, -, -⟩ :=
    CommitmentsFromSecrets_lengths s rnd g m mRandomizer contribs commit hcfs
  have hN : g.N ≠ 0 := by
    rcases hd : commit.d with _ | ⟨d0, ds⟩
    · rw [hd, hlenRep] at l1
      simp at l1
      omega
    · rcases hv : commit.v with _ | ⟨v0, vs⟩
      · rw [hv, hlenRep] at l3
        simp at l3
        omega
      · rw [hd, hv] at hbases
        exact computeBases_ne_zero g d0 v0 ds vs _ hbases
  obtain ⟨p, hp1, hp2, hp3⟩ :=
    roundtrip_core s n hn4 hcRep hmC rnd g m mRandomizer c contribs commit hN hR hS hcfs hsq
  exact ⟨p, hp1, hp2, by rw [hp3, hlenRep]⟩

/-- C1, amended, at the running example: `a = 1`, `k = 45`, `m = 45`, the table
splitter of limit 3, the group `N = 35`, `R = 3`, `S = 4` and the challenge
`1234567`. -/
theorem roundtrip_witness :
    exTable.toSplitter.SquareCount = 3 ∧ IsInt64 1 ∧
    New 1 45 exTable.toSplitter 256 128 256 = .ok exStructure ∧
    exStructure.a ≠ -(2 ^ 63) ∧
    Int.gcd exGroup.R exGroup.N = 1 ∧ Int.gcd exGroup.S exGroup.N = 1 ∧
    exStructure.CommitmentsFromSecrets exRandom exGroup 45 7
      = .ok ([27, 12, 16, 33], exCommit) ∧
    (exCommit.d.map (fun x => x * x)).sum = exStructure.a * 45 - exStructure.k ∧
    ∃ p, exStructure.BuildProof exCommit 1234567 = .ok p ∧
      exStructure.CommitmentsFromProof exGroup p 1234567 = .ok [27, 12, 16, 33] := by
  obtain ⟨p, hp1, hp2, -⟩ :=
    roundtrip 1 45 exTable.toSplitter 256 128 256 exStructure exRandom exGroup 45 7 1234567
      [27, 12, 16, 33] exCommit (Or.inl rfl) (by decide) exStructure_eq (by decide) (by decide)
      (by decide) exCommit_eq (by decide)
  exact ⟨rfl, by decide, exStructure_eq, by decide, by decide, by decide, exCommit_eq,
    by decide, p, hp1, hp2⟩

/-! ## The checks on the output of the splitter -/

theorem wrapInt_le_self (x : Int) (h : 0 ≤ x) : wrapInt x ≤ x := by
  unfold wrapInt
  omega

theorem oversizedStructure_eq :
    New 1 45 (testSplit (.ok [512, 512, 512]) 3 8) 256 128 256 = .ok oversizedStructure := rfl

/-- The first loop of `CommitmentsFromSecrets` fails when one of the values has
more than `ld` bits: with the error of the check, or before it in a draw; it
returns an error when the random source does not panic on a draw of
`ld + lh + lstatzk` bits. -/
theorem drawDRandomizers_oversized (s : ProofStructure) (rnd : RandomSource) :
    ∀ (ds : List Int) (count : Nat), (∃ d ∈ ds, s.ld < BitLen d) →
      (∃ e, drawDRandomizers s rnd ds count = .error e) ∧
      ((∀ i e, rnd i (wrapUint (s.ld + s.lh + s.lstatzk)) = .error e → ∃ msg, e = .err msg) →
        ∃ msg, drawDRandomizers s rnd ds count = .error (.err msg)) := by
  intro ds
  induction ds with
  | nil => intro count h; simp at h
  | cons v rest ih =>
    intro count h
    rw [drawDRandomizers]
    split
    · exact ⟨⟨_, rfl⟩, fun _ => ⟨_, rfl⟩⟩
    · rename_i hv
      have hrest : ∃ d ∈ rest, s.ld < BitLen d := by
        obtain ⟨d, hd, hlt⟩ := h
        rcases List.mem_cons.mp hd with rfl | hd
        · exfalso
          apply hv
          have := wrapInt_le_self (s.ld : Int) (Int.ofNat_nonneg _)
          have : ((s.ld : Nat) : Int) < (BitLen d : Int) := by exact_mod_cast hlt
          omega
        · exact ⟨d, hd, hlt⟩
      split
      · rename_i e he
        refine ⟨⟨e, rfl⟩, fun hrnd => ?_⟩
        obtain ⟨msg, rfl⟩ := hrnd _ _ he
        exact ⟨msg, rfl⟩
      · obtain ⟨⟨e, he⟩, h2⟩ := ih (count + 1) hrest
        refine ⟨⟨e, by rw [he]⟩, fun hrnd => ?_⟩
        obtain ⟨msg, hmsg⟩ := h2 hrnd
        rw [hmsg]
        exact ⟨msg, rfl⟩

/-- C12, counterexample: `New(1, 45, testSplit{[0, 512, 512], 3, 8}, 2^63, 128,
256)` and `m = 112`. The splitter returns an array whose second element has 10
bits, more than `ld = 8`; the first element passes the check, and the draw of
its randomizer, of `2^63 + 136` bits, panics before the oversized element is
reached: `CommitmentsFromSecrets` does not return an error. -/
theorem CommitmentsFromSecrets_hostile_split_panics :
    New 1 45 (testSplit (.ok [0, 512, 512]) 3 8) (2 ^ 63) 128 256
      = .ok lateOversizedStructure ∧
    lateOversizedStructure.splitter = some (testSplit (.ok [0, 512, 512]) 3 8) ∧
    (0 : Int) ≤ lateOversizedStructure.a * 112 - lateOversizedStructure.k ∧
    (testSplit (.ok [0, 512, 512]) 3 8).Split
        (lateOversizedStructure.a * 112 - lateOversizedStructure.k) = .ok [0, 512, 512] ∧
    lateOversizedStructure.ld < BitLen 512 ∧
    wrapUint (lateOversizedStructure.ld + lateOversizedStructure.lh
      + lateOversizedStructure.lstatzk) = 2 ^ 63 + 136 ∧
    boundedRandom 0 (2 ^ 63 + 136) = .error (.crash "makeslice: len out of range") ∧
    lateOversizedStructure.CommitmentsFromSecrets boundedRandom exGroup 112 7
      = .error (.crash "makeslice: len out of range") := by
  refine ⟨rfl, rfl, by decide, rfl, by decide, by decide, by decide, by decide⟩

/-- C12, amended: let `s` be a structure with a splitter and `m` a value with
`0 ≤ s.a * m - s.k`. If `Split` returns an error, or an array whose length
differs from the number of relations `cRep`, or an array with an element of
more than `s.ld` bits, then `CommitmentsFromSecrets` returns neither a
contribution vector nor a commit; and it returns an error when `Split`
returned an error, or the length is wrong, or the random source does not panic
on a draw of `ld + lh + lstatzk` bits (one such draw is made for every element
before the oversized one). -/
theorem CommitmentsFromSecrets_hostile_split (s : ProofStructure) (splitter : SquareSplitter)
    (rnd : RandomSource) (g : QrGroup) (m mRandomizer : Int)
    (hsp : s.splitter = some splitter)
    (hineq : 0 ≤ s.a * m - s.k)
    (hbad : (∃ msg, splitter.Split (s.a * m - s.k) = .error (.err msg)) ∨
      ∃ ds, splitter.Split (s.a * m - s.k) = .ok ds ∧
        (ds.length ≠ s.cRep.length ∨ ∃ d ∈ ds, s.ld < BitLen d)) :
    (∃ e, s.CommitmentsFromSecrets rnd g m mRandomizer = .error e) ∧
    (((∃ msg, splitter.Split (s.a * m - s.k) = .error (.err msg)) ∨
        (∃ ds, splitter.Split (s.a * m - s.k) = .ok ds ∧ ds.length ≠ s.cRep.length) ∨
        (∀ i e, rnd i (wrapUint (s.ld + s.lh + s.lstatzk)) = .error e →
          ∃ msg, e = .err msg)) →
      ∃ msg, s.CommitmentsFromSecrets rnd g m mRandomizer = .error (.err msg)) := by
  have hcomm : m * s.a - s.k = s.a * m - s.k := by ring
  unfold ProofStructure.CommitmentsFromSecrets
  simp only [hcomm, hsp]
  rw [if_neg (by omega)]
  rcases hbad with ⟨msg, hmsg⟩ | ⟨ds, hds, hbad⟩
  · rw [hmsg]
    exact ⟨⟨_, rfl⟩, fun _ => ⟨msg, rfl⟩⟩
  · rw [hds]
    simp only
    by_cases hlen : ds.length = s.cRep.length
    · rcases hbad with hne | hover
      · exact absurd hlen hne
      · rw [if_neg (by simpa using hlen)]
        obtain ⟨⟨e, he⟩, h2⟩ := drawDRandomizers_oversized s rnd ds 0 hover
        refine ⟨⟨e, by rw [he]⟩, fun hcase => ?_⟩
        rcases hcase with ⟨msg, hmsg⟩ | ⟨ds1, hds1, hne⟩ | hrnd
        · cases hmsg
        · cases hds1
          exact absurd hlen hne
        · obtain ⟨msg, hmsg⟩ := h2 hrnd
          rw [hmsg]
          exact ⟨msg, rfl⟩
    · rw [if_pos hlen]
      exact ⟨⟨_, rfl⟩, fun _ => ⟨_, rfl⟩⟩

/-- C12, amended, at the oversized splitter of `TestRangeProofMisbehavingSplit`:
`New(1, 45, testSplit{[512, 512, 512], 3, 8}, 256, 128, 256)` and `m = 112`,
where the draws are of `8 + 256 + 128` bits and do not panic. -/
theorem CommitmentsFromSecrets_hostile_split_witness :
    oversizedStructure.splitter = some (testSplit (.ok [512, 512, 512]) 3 8) ∧
    (0 : Int) ≤ oversizedStructure.a * 112 - oversizedStructure.k ∧
    (testSplit (.ok [512, 512, 512]) 3 8).Split
        (oversizedStructure.a * 112 - oversizedStructure.k) = .ok [512, 512, 512] ∧
    oversizedStructure.ld < BitLen 512 ∧
    (∀ i e, boundedRandom i (wrapUint (oversizedStructure.ld + oversizedStructure.lh
        + oversizedStructure.lstatzk)) = .error e → ∃ msg, e = .err msg) ∧
    ∃ msg, oversizedStructure.CommitmentsFromSecrets boundedRandom exGroup 112 7
      = .error (.err msg) := by
  have hnp : ∀ i e, boundedRandom i (wrapUint (oversizedStructure.ld + oversizedStructure.lh
      + oversizedStructure.lstatzk)) = .error e → ∃ msg, e = .err msg := by
    intro i e h
    have hb : wrapUint (oversizedStructure.ld + oversizedStructure.lh
        + oversizedStructure.lstatzk) = 392 := by decide
    rw [hb] at h
    unfold boundedRandom at h
    rw [if_pos (by decide)] at h
    cases h
  exact ⟨rfl, by decide, rfl, by decide, hnp,
    (CommitmentsFromSecrets_hostile_split oversizedStructure _ boundedRandom exGroup 112 7 rfl
      (by decide)
      (Or.inr ⟨[512, 512, 512], rfl, Or.inr ⟨512, by simp, by decide⟩⟩)).2
      (Or.inr (Or.inr hnp))⟩

/-! ## The size of the committed squares -/

theorem negStructure_eq :
    New 1 45 (testSplit (.ok [-1, 1, 0]) 3 3) 256 128 256 = .ok negStructure := rfl

/-- The first loop of `CommitmentsFromSecrets` succeeds only if every value has
at most `int(ld)` bits. -/
theorem drawDRandomizers_bitlen (s : ProofStructure) (rnd : RandomSource) :
    ∀ (ds : List Int) (count : Nat) (rs : List Int),
      drawDRandomizers s rnd ds count = .ok rs →
      ∀ d ∈ ds, (BitLen d : Int) ≤ wrapInt (s.ld : Int) := by
  intro ds
  induction ds with
  | nil => intro count rs _ d hd; simp at hd
  | cons v rest ih =>
    intro count rs h d hd
    rw [drawDRandomizers] at h
    split at h
    · cases h
    · rename_i hv
      split at h
      · cases h
      · split at h
        · cases h
        · rename_i rs1 hrs1
          rcases List.mem_cons.mp hd with rfl | hd
          · omega
          · exact ih _ _ hrs1 d hd

set_option maxRecDepth 100000 in
/-- C20 fails at a splitter that returns a negative value: for
`New(1, 45, testSplit{[-1, 1, 0], 3, 3}, 256, 128, 256)` and `m = 45` the
method `CommitmentsFromSecrets` succeeds and the commit stores `d[0] = -1`. -/
theorem CommitmentsFromSecrets_stores_negative_d :
    negStructure.CommitmentsFromSecrets exRandom exGroup 45 7
      = .ok ([33, 12, 16, 33], negCommit) ∧
    negCommit.d[0]? = some (-1) ∧ ¬ (0 : Int) ≤ -1 := by
  decide

/-- C20, amended: whenever `CommitmentsFromSecrets` succeeds, every `d` value
stored in the commit has at most `s.ld` bits, that is `|d| < 2 ^ s.ld`; its
sign is not checked. -/
theorem CommitmentsFromSecrets_d_size (s : ProofStructure) (rnd : RandomSource) (g : QrGroup)
    (m mRandomizer : Int) (contribs : List Int) (commit : ProofCommit)
    (h : s.CommitmentsFromSecrets rnd g m mRandomizer = .ok (contribs, commit)) :
    ∀ d ∈ commit.d, BitLen d ≤ s.ld ∧ |d| < 2 ^ s.ld := by
  obtain ⟨-, splitter, -, -, -, hdraw, -⟩ := CommitmentsFromSecrets_ok s rnd g m mRandomizer _ _ h
  intro d hd
  have h1 := drawDRandomizers_bitlen s rnd _ _ _ hdraw d hd
  have h2 := wrapInt_le_self (s.ld : Int) (Int.ofNat_nonneg _)
  have h3 : BitLen d ≤ s.ld := by omega
  refine ⟨h3, ?_⟩
  have h4 := (BitLen_le_iff d s.ld).mp h3
  rw [Int.abs_eq_natAbs]
  exact_mod_cast h4

set_option maxRecDepth 100000 in
/-- C20, amended, at the splitter that returns `[-1, 1, 0]`. -/
theorem CommitmentsFromSecrets_d_size_witness :
    negStructure.CommitmentsFromSecrets exRandom exGroup 45 7
      = .ok ([33, 12, 16, 33], negCommit) ∧
    ∀ d ∈ negCommit.d, BitLen d ≤ negStructure.ld ∧ |d| < 2 ^ negStructure.ld :=
  ⟨by decide,
    CommitmentsFromSecrets_d_size negStructure exRandom exGroup 45 7 [33, 12, 16, 33] negCommit
      (by decide)⟩

/-! ## The number of bits declared by the table splitter -/

/-- The loop of `SquaresTable.Ld` counts the base-4 digits of `l`. -/
theorem ldLoop_spec : ∀ (fuel l ld : Nat), l ≤ fuel →
    ∃ d, ldLoop fuel l ld = ld + d ∧ l < 4 ^ d ∧ (l = 0 ∧ d = 0 ∨ 0 < d ∧ 4 ^ (d - 1) ≤ l) := by
  intro fuel
  induction fuel with
  | zero =>
    intro l ld h
    have h0 : l = 0 := by omega
    subst h0
    exact ⟨0, rfl, by decide, Or.inl ⟨rfl, rfl⟩⟩
  | succ fuel ih =>
    intro l ld h
    rw [ldLoop]
    by_cases hl : l > 0
    · rw [if_pos hl]
      obtain ⟨d, hd, hlt, hdig⟩ := ih (l / 4) (ld + 1) (by omega)
      refine ⟨d + 1, by rw [hd]; omega, ?_, Or.inr ⟨by omega, ?_⟩⟩
      · rw [pow_succ]; omega
      · rcases hdig with ⟨h4, rfl⟩ | ⟨hpos, hle⟩
        · simp; omega
        · have e : d + 1 - 1 = (d - 1) + 1 := by omega
          rw [e, pow_succ]
          omega
    · rw [if_neg hl]
      have h0 : l = 0 := by omega
      subst h0
      exact ⟨0, rfl, by decide, Or.inl ⟨rfl, rfl⟩⟩

/-- The method `Ld` returns one more than the number `d` of base-4 digits of
the length of the table. -/
theorem Ld_spec (t : SquaresTable) :
    ∃ d, t.Ld = d + 1 ∧ t.length < 4 ^ d ∧
      (t.length = 0 ∧ d = 0 ∨ 0 < d ∧ 4 ^ (d - 1) ≤ t.length) := by
  obtain ⟨d, hd, h⟩ := ldLoop_spec t.length t.length 0 (le_refl _)
  exact ⟨d, by unfold SquaresTable.Ld; rw [hd]; omega, h⟩

/-- A successful lookup in a sound table returns three natural numbers whose
squares sum to `delta`, and `delta` is below the length of the table. -/
theorem Split_table_ok (t : SquaresTable) (delta : Int) (ds : List Int) (hsound : t.Sound)
    (hsplit : t.Split delta = .ok ds) :
    ∃ a b c : Nat, ds = [(a : Int), (b : Int), (c : Int)] ∧
      ((a * a + b * b + c * c : Nat) : Int) = delta ∧ delta < t.length := by
  unfold SquaresTable.Split at hsplit
  simp only at hsplit
  split at hsplit
  · cases hsplit
  · rename_i hguard
    push_neg at hguard
    obtain ⟨-, h0, hlen, hmod⟩ := hguard
    rw [Int.tmod_eq_emod h0 (by decide)] at hmod
    split at hsplit
    · cases hsplit
    · rename_i entry hentry
      split at hsplit
      · rename_i x y z hx hy hz
        cases hsplit
        rcases hsound _ entry hentry with hnil | ⟨a, b, c, habc, hsum⟩
        · rw [hnil] at hx; cases hx
        · rw [habc] at hx hy hz
          simp only [List.getElem?_cons_zero, List.getElem?_cons_succ, Option.some.injEq]
            at hx hy hz
          subst hx hy hz
          have hidx : (((delta - 2).tdiv 4).toNat : Int) = (delta - 2) / 4 := by
            rw [Int.tdiv_eq_ediv (by omega) (by decide)]
            exact Int.toNat_of_nonneg (by omega)
          refine ⟨a, b, c, rfl, ?_, hlen⟩
          rw [hsum]; push_cast; rw [hidx]; omega
      · cases hsplit

/-- A natural number whose square is below `4 ^ d` has at most `d` bits. -/
theorem BitLen_le_of_sq_lt (x d : Nat) (h : x * x < 4 ^ d) : BitLen (x : Int) ≤ d := by
  rw [BitLen_le_iff, Int.natAbs_ofNat]
  by_contra hge
  push_neg at hge
  have h1 : 2 ^ d * 2 ^ d ≤ x * x := Nat.mul_le_mul hge hge
  have h2 : (4 : Nat) ^ d = 2 ^ d * 2 ^ d := by
    rw [← mul_pow]
    rfl
  omega

/-- C14: for every limit `L` and every `delta` for which the lookup in
`GenerateSquaresTable(L)` succeeds, each of the three returned integers has at
most `Ld()` bits; so, `L` being an int64, the check of `CommitmentsFromSecrets`
for an oversized `d`, which compares the bit length with `int(Ld())`, does not
fire on them. -/
theorem Ld_table_bounds_split (L : Nat) (t : SquaresTable) (delta : Int) (ds : List Int)
    (ht : GenerateSquaresTable L = some t) (hsplit : t.Split delta = .ok ds) :
    ds.length = 3 ∧ (∀ x ∈ ds, BitLen x ≤ t.Ld) ∧
      (IsInt64 (L : Int) → ∀ x ∈ ds, ¬ (BitLen x : Int) > wrapInt (t.Ld : Int)) := by
  obtain ⟨hsound, hlen⟩ := GenerateSquaresTable_sound L t ht
  obtain ⟨a, b, c, rfl, hsum, hlt⟩ := Split_table_ok t delta _ hsound hsplit
  obtain ⟨d, hd, hd4, hdig⟩ := Ld_spec t
  have hsumlt : a * a + b * b + c * c < 4 ^ d := by
    have : ((a * a + b * b + c * c : Nat) : Int) < (t.length : Int) := by rw [hsum]; exact hlt
    have : a * a + b * b + c * c < t.length := by exact_mod_cast this
    omega
  have hall : ∀ x ∈ [(a : Int), (b : Int), (c : Int)], BitLen x ≤ d := by
    intro x hx
    simp only [List.mem_cons, List.mem_singleton, List.not_mem_nil, or_false] at hx
    rcases hx with rfl | rfl | rfl <;> apply BitLen_le_of_sq_lt <;> omega
  refine ⟨rfl, fun x hx => by have := hall x hx; omega, ?_⟩
  intro hL x hx
  have hd32 : d ≤ 32 := by
    by_contra hgt
    push_neg at hgt
    rcases hdig with ⟨-, rfl⟩ | ⟨-, hle⟩
    · omega
    · have h1 : (4 : Nat) ^ 32 ≤ 4 ^ (d - 1) := Nat.pow_le_pow_right (by decide) (by omega)
      have h2 : (L : Int) < 2 ^ 63 := hL.2
      have h3 : L < 2 ^ 63 := by exact_mod_cast h2
      have h4 : (4 : Nat) ^ 32 = 2 ^ 64 := by norm_num
      omega
  have hw : wrapInt (t.Ld : Int) = (t.Ld : Int) :=
    wrapInt_of_isInt64 ⟨by omega, by rw [hd]; push_cast; omega⟩
  rw [hw]
  have := hall x hx
  omega

/-- C14 at `L = 3`, `delta = 2`: the lookup answers `[1, 1, 0]` and `Ld()` is
3. -/
theorem Ld_table_bounds_split_witness :
    GenerateSquaresTable 3 = some exTable ∧ exTable.Split 2 = .ok [1, 1, 0] ∧ exTable.Ld = 3 ∧
    ([1, 1, 0] : List Int).length = 3 ∧ (∀ x ∈ ([1, 1, 0] : List Int), BitLen x ≤ exTable.Ld) ∧
      (IsInt64 ((3 : Nat) : Int) →
        ∀ x ∈ ([1, 1, 0] : List Int), ¬ (BitLen x : Int) > wrapInt (exTable.Ld : Int)) :=
  ⟨exTable_eq, by decide, by decide,
    Ld_table_bounds_split 3 exTable 2 [1, 1, 0] exTable_eq (by decide)⟩

/-- C15 fails at `L = 3`: the table has 4 entries, `Ld()` returns 3, and
`ceil(log_4(3 + 1)) + 1` is 2. -/
theorem Ld_differs_from_ceil_formula :
    GenerateSquaresTable 3 = some exTable ∧ exTable.Ld = 3 ∧ Nat.clog 4 (3 + 1) + 1 = 2 := by
  refine ⟨exTable_eq, by decide, ?_⟩
  have h : Nat.clog 4 (3 + 1) = 1 := Nat.clog_pow 4 1 (by decide)
  rw [h]

/-- C15, amended: for every limit `L` the table is generated and its `Ld()` is
`floor(log_4(L + 1)) + 2`, the number of base-4 digits of `L + 1` plus one;
this is `ceil(log_4(L + 1)) + 1` exactly when `L + 1` is not a power of 4. -/
theorem Ld_table_eq (L : Nat) :
    ∃ t, GenerateSquaresTable L = some t ∧ t.Ld = Nat.log 4 (L + 1) + 2 ∧
      (t.Ld = Nat.clog 4 (L + 1) + 1 ↔ ∀ j, L + 1 ≠ 4 ^ j) := by
  obtain ⟨t, ht⟩ := GenerateSquaresTable_total L
  obtain ⟨-, hlen⟩ := GenerateSquaresTable_sound L t ht
  obtain ⟨d, hd, hd4, hdig⟩ := Ld_spec t
  rw [hlen] at hd4 hdig
  rcases hdig with ⟨h0, -⟩ | ⟨hpos, hle⟩
  · omega
  obtain ⟨e, rfl⟩ : ∃ e, d = e + 1 := ⟨d - 1, by omega⟩
  simp only [Nat.add_sub_cancel] at hle
  have hlog : Nat.log 4 (L + 1) = e :=
    (Nat.log_eq_iff (Or.inr ⟨by decide, by omega⟩)).mpr ⟨hle, hd4⟩
  refine ⟨t, ht, by rw [hd, hlog], ?_⟩
  rw [hd]
  constructor
  · intro hc j hj
    have hc1 : Nat.clog 4 (L + 1) = e + 1 := by omega
    have h1 : L + 1 ≤ 4 ^ (Nat.clog 4 (L + 1)) := Nat.le_pow_clog (by decide) _
    rw [hj] at hc1 hd4 hle
    rw [Nat.clog_pow 4 j (by decide)] at hc1
    subst hc1
    exact absurd hd4 (lt_irrefl _)
  · intro hne
    have hlt : 4 ^ e < L + 1 := lt_of_le_of_ne hle (fun h => hne e h.symm)
    have h1 : Nat.clog 4 (L + 1) ≤ e + 1 :=
      (Nat.le_pow_iff_clog_le (by decide)).mp (le_of_lt hd4)
    have h2 : e < Nat.clog 4 (L + 1) := (Nat.pow_lt_iff_lt_clog (by decide)).mp hlt
    omega

/-! ## The number of bits declared by the four-square splitter -/

set_option maxRecDepth 100000 in
/-- C16 fails at `delta = 2 ^ 258`: the four non-negative entries
`2 ^ 128` have squares that sum to `delta`, and each has 129 bits, above
`Ld() = 128`. -/
theorem FourSquaresSplitter_Ld_exceeded :
    (FourSquaresSplitter wideFourSquares).Split (2 ^ 258)
      = .ok [2 ^ 128, 2 ^ 128, 2 ^ 128, 2 ^ 128] ∧
    (0 : Int) ≤ 2 ^ 128 ∧
    (([2 ^ 128, 2 ^ 128, 2 ^ 128, 2 ^ 128] : List Int).map (fun x => x * x)).sum = 2 ^ 258 ∧
    (FourSquaresSplitter wideFourSquares).Ld = 128 ∧
    BitLen (2 ^ 128) = 129 := by
  decide

/-- Every decomposition of `2 ^ 258` into four squares of non-negative
integers has an entry of more than 128 bits. -/
theorem four_squares_wide (w x y z : Int) (hw : 0 ≤ w) (hx : 0 ≤ x) (hy : 0 ≤ y) (hz : 0 ≤ z)
    (hsum : w * w + x * x + y * y + z * z = 2 ^ 258) :
    ∃ v ∈ [w, x, y, z], 128 < BitLen v := by
  by_contra hno
  push_neg at hno
  have hb : ∀ v ∈ [w, x, y, z], 0 ≤ v → v * v < 2 ^ 256 := by
    intro v hv h0
    have h1 := (BitLen_le_iff v 128).mp (hno v hv)
    have h2 : (v.natAbs : Int) < 2 ^ 128 := by exact_mod_cast h1
    rw [Int.natAbs_of_nonneg h0] at h2
    nlinarith
  have h1 := hb w (by simp) hw
  have h2 := hb x (by simp) hx
  have h3 := hb y (by simp) hy
  have h4 := hb z (by simp) hz
  have e : (2 : Int) ^ 258 = 4 * 2 ^ 256 := by norm_num
  omega

/-- C16, amended: for every `delta` with `0 ≤ delta < 2 ^ 256` and every result
`[w, x, y, z]` of `FourSquaresSplitter.Split(delta)` with non-negative entries
whose squares sum to `delta`, each entry has at most `Ld() = 128` bits. -/
theorem FourSquaresSplitter_Ld_bound (SumFourSquares : Int → Int × Int × Int × Int)
    (delta : Int) (ds : List Int) (h0 : 0 ≤ delta) (hdelta : delta < 2 ^ 256)
    (hsplit : (FourSquaresSplitter SumFourSquares).Split delta = .ok ds)
    (hnonneg : ∀ x ∈ ds, 0 ≤ x) (hsum : (ds.map (fun x => x * x)).sum = delta) :
    (FourSquaresSplitter SumFourSquares).Ld = 128 ∧ ds.length = 4 ∧
      ∀ x ∈ ds, BitLen x ≤ (FourSquaresSplitter SumFourSquares).Ld := by
  have hlen : ds.length = 4 := by
    unfold FourSquaresSplitter at hsplit
    simp only at hsplit
    cases hsplit
    rfl
  refine ⟨rfl, hlen, ?_⟩
  intro x hx
  show BitLen x ≤ 128
  have hsq : x * x ≤ (ds.map (fun x => x * x)).sum :=
    List.single_le_sum (fun y hy => by
      obtain ⟨z, -, rfl⟩ := List.mem_map.mp hy
      exact mul_self_nonneg z) _ (List.mem_map.mpr ⟨x, hx, rfl⟩)
  apply BitLen_le_of_lt x 128 (hnonneg x hx)
  by_contra hge
  push_neg at hge
  have : (2 : Int) ^ 128 * 2 ^ 128 ≤ x * x := mul_le_mul hge hge (by positivity) (hnonneg x hx)
  have e : (2 : Int) ^ 128 * 2 ^ 128 = 2 ^ 256 := by norm_num
  omega

set_option maxRecDepth 100000 in
/-- C16, amended, at `delta = 30 = 1 + 4 + 9 + 16`. -/
theorem FourSquaresSplitter_Ld_bound_witness :
    (0 : Int) ≤ 30 ∧ (30 : Int) < 2 ^ 256 ∧
    (FourSquaresSplitter (fun _ => (1, 2, 3, 4))).Split 30 = .ok [1, 2, 3, 4] ∧
    (FourSquaresSplitter (fun _ => (1, 2, 3, 4))).Ld = 128 ∧
    ([1, 2, 3, 4] : List Int).length = 4 ∧
    ∀ x ∈ ([1, 2, 3, 4] : List Int), BitLen x ≤ (FourSquaresSplitter (fun _ => (1, 2, 3, 4))).Ld :=
  ⟨by decide, by decide, rfl,
    FourSquaresSplitter_Ld_bound (fun _ => (1, 2, 3, 4)) 30 [1, 2, 3, 4] (by decide) (by decide)
      rfl (by decide) (by decide)⟩

/-! ## The name resolvers -/

theorem commit_Secret_d (c : ProofCommit) (i : Nat) (h : i < 4) (hi : i < c.d.length) :
    c.Secret (sprintfD 'd' i) = .ok (some (c.d.getD i 0)) := by
  unfold ProofCommit.Secret sprintfD
  rw [if_neg (by simp), if_neg (by simp)]
  simp only
  rw [if_pos True.intro, indexInt_digits _ i h hi, if_neg (by decide)]

theorem commit_Secret_v (c : ProofCommit) (i : Nat) (h : i < 4) (hi : i < c.v.length) :
    c.Secret (sprintfD 'v' i) = .ok (some (c.v.getD i 0)) := by
  unfold ProofCommit.Secret sprintfD
  rw [if_neg (by simp), if_neg (by simpa using toDigits_ne_five i h)]
  simp only
  rw [if_pos True.intro, indexInt_digits _ i h hi]

theorem getD_eq_of_lt (xs : List Int) (i : Nat) (hi : i < xs.length) :
    some (xs.getD i 0) = xs[i]? := by
  simp [List.getD, List.getElem?_eq_getElem hi]

/-- An entry of an array without nil entries. -/
theorem join_present (xs : List (Option Int)) (i : Nat) (hi : i < xs.length)
    (hp : ∀ x ∈ xs, x ≠ none) : ∃ x, xs[i]? = some (some x) ∧ (xs[i]?).join = some x := by
  have hmem : xs[i] ∈ xs := List.getElem_mem hi
  cases hx : xs[i] with
  | none => exact absurd hx (hp _ hmem)
  | some x => exact ⟨x, by rw [List.getElem?_eq_getElem hi, hx], by
      rw [List.getElem?_eq_getElem hi, hx]; rfl⟩

theorem names_take (n : Nat) (hn : n ≤ 4) :
    (List.range n).map (sprintfD 'C')
      = List.take n [['C', '0'], ['C', '1'], ['C', '2'], ['C', '3']] := by
  interval_cases n <;> decide

/-- C17: for a commit and a proof whose arrays all have length `n ≤ 4` and
hold no nil entry, and every `i < n` written in decimal, `Secret`,
`Randomizer` and `Base` of the commit and `ProofResult` and `Base` of the proof
resolve `"d" + i`, `"v" + i` and `"C" + i` to the entry `i` of the matching
array; `"m"` and `"v5"` resolve to the `m` and `v5` secret, randomizer and
response; and `Names()` is `["C0", ..., "C{n-1}"]`, each element of which is
resolved by `Base` and by `Exp`. -/
theorem resolvers_valid_names (c : ProofCommit) (p : Proof) (n : Nat) (hn : n ≤ 4)
    (hc : c.c.length = n) (hd : c.d.length = n) (hdr : c.dRandomizers.length = n)
    (hv : c.v.length = n) (hvr : c.vRandomizers.length = n)
    (hCs : p.Cs.length = n) (hD : p.DResponses.length = n) (hV : p.VResponses.length = n)
    (hpCs : ∀ x ∈ p.Cs, x ≠ none) (hpD : ∀ x ∈ p.DResponses, x ≠ none)
    (hpV : ∀ x ∈ p.VResponses, x ≠ none) :
    (∀ i, i < n →
      (∃ x, c.d[i]? = some x ∧ c.Secret (sprintfD 'd' i) = .ok (some x)) ∧
      (∃ x, c.v[i]? = some x ∧ c.Secret (sprintfD 'v' i) = .ok (some x)) ∧
      (∃ x, c.dRandomizers[i]? = some x ∧ c.Randomizer (sprintfD 'd' i) = .ok (some x)) ∧
      (∃ x, c.vRandomizers[i]? = some x ∧ c.Randomizer (sprintfD 'v' i) = .ok (some x)) ∧
      (∃ x, c.c[i]? = some x ∧ c.Base (sprintfD 'C' i) = .ok (some x)) ∧
      (∃ x, p.DResponses[i]? = some (some x) ∧
        p.ProofResult (sprintfD 'd' i) = .ok (some x)) ∧
      (∃ x, p.VResponses[i]? = some (some x) ∧
        p.ProofResult (sprintfD 'v' i) = .ok (some x)) ∧
      (∃ x, p.Cs[i]? = some (some x) ∧ p.Base (sprintfD 'C' i) = .ok (some x))) ∧
    c.Secret ['m'] = .ok (some c.m) ∧ c.Secret ['v', '5'] = .ok (some c.v5) ∧
    c.Randomizer ['m'] = .ok (some c.mRandomizer) ∧
    c.Randomizer ['v', '5'] = .ok (some c.v5Randomizer) ∧
    p.ProofResult ['m'] = .ok p.MResponse ∧ p.ProofResult ['v', '5'] = .ok p.V5Response ∧
    c.Names = List.take n [['C', '0'], ['C', '1'], ['C', '2'], ['C', '3']] ∧
    p.Names = List.take n [['C', '0'], ['C', '1'], ['C', '2'], ['C', '3']] ∧
    (∀ name ∈ c.Names, ∃ x, c.Base name = .ok (some x) ∧
      ∀ ret e N, ∃ r, c.Exp ret name e N = .ok (r, true)) ∧
    (∀ name ∈ p.Names, ∃ x, p.Base name = .ok (some x) ∧
      ∀ ret e N, ∃ r, p.Exp ret name e N = .ok (r, true)) := by
  have hcB : ∀ i, i < n → ∃ x, c.c[i]? = some x ∧ c.Base (sprintfD 'C' i) = .ok (some x) :=
    fun i hi => ⟨_, (getD_eq_of_lt _ i (by omega)).symm,
      commit_Base_C c i (by omega) (by omega)⟩
  have hpB : ∀ i, i < n →
      ∃ x, p.Cs[i]? = some (some x) ∧ p.Base (sprintfD 'C' i) = .ok (some x) := by
    intro i hi
    obtain ⟨x, hx, hj⟩ := join_present p.Cs i (by omega) hpCs
    exact ⟨x, hx, by rw [proof_Base_C p i (by omega) (by omega), hj]⟩
  refine ⟨?_, rfl, rfl, rfl, rfl, rfl, rfl, ?_, ?_, ?_, ?_⟩
  · intro i hi
    have h4 : i < 4 := by omega
    refine ⟨⟨_, (getD_eq_of_lt _ i (by omega)).symm, commit_Secret_d c i h4 (by omega)⟩,
      ⟨_, (getD_eq_of_lt _ i (by omega)).symm, commit_Secret_v c i h4 (by omega)⟩,
      ⟨_, (getD_eq_of_lt _ i (by omega)).symm, commit_Randomizer_d c i h4 (by omega)⟩,
      ⟨_, (getD_eq_of_lt _ i (by omega)).symm, commit_Randomizer_v c i h4 (by omega)⟩,
      hcB i hi, ?_, ?_, hpB i hi⟩
    · obtain ⟨x, hx, hj⟩ := join_present p.DResponses i (by omega) hpD
      exact ⟨x, hx, by rw [proof_ProofResult_d p i h4 (by omega), hj]⟩
    · obtain ⟨x, hx, hj⟩ := join_present p.VResponses i (by omega) hpV
      exact ⟨x, hx, by rw [proof_ProofResult_v p i h4 (by omega), hj]⟩
  · unfold ProofCommit.Names
    rw [hc, names_take n hn]
  · unfold Proof.Names
    rw [hCs, names_take n hn]
  · intro name hname
    unfold ProofCommit.Names at hname
    obtain ⟨i, hi, rfl⟩ := List.mem_map.mp hname
    rw [List.mem_range, hc] at hi
    obtain ⟨x, -, hx⟩ := hcB i hi
    refine ⟨x, hx, fun ret e N => ⟨(bigExp x e N).getD ret, ?_⟩⟩
    unfold ProofCommit.Exp
    rw [hx]
  · intro name hname
    unfold Proof.Names at hname
    obtain ⟨i, hi, rfl⟩ := List.mem_map.mp hname
    rw [List.mem_range, hCs] at hi
    obtain ⟨x, -, hx⟩ := hpB i hi
    refine ⟨x, hx, fun ret e N => ⟨(bigExp x e N).getD ret, ?_⟩⟩
    unfold Proof.Exp
    rw [hx]

/-- C17 at the commit and the proof of the running example, `n = 3`: the names
are `["C0", "C1", "C2"]`, and `"d1"` resolves to `d[1] = 1` in the commit and to
`DResponses[1] = 1234573` in the proof. -/
theorem resolvers_valid_names_witness :
    exCommit.Names = [['C', '0'], ['C', '1'], ['C', '2']] ∧
    exProof.Names = [['C', '0'], ['C', '1'], ['C', '2']] ∧
    exCommit.Secret ['d', '1'] = .ok (some 1) ∧
    exProof.ProofResult ['d', '1'] = .ok (some 1234573) ∧
    exCommit.Base ['C', '2'] = .ok (some 1) ∧
    exCommit.Exp 0 ['C', '1'] 2 35 = .ok (4, true) := by
  have h := resolvers_valid_names exCommit exProof 3 (by decide) rfl rfl rfl rfl rfl rfl rfl rfl
    (by decide) (by decide) (by decide)
  obtain ⟨h1, -, -, -, -, -, -, h8, h9, -, -⟩ := h
  obtain ⟨⟨x, hx, hs⟩, -, -, -, -, ⟨y, hy, hp⟩, -, -⟩ := h1 1 (by decide)
  cases hx
  cases hy
  exact ⟨h8, h9, hs, hp, by decide, by decide⟩

/-- C18 fails at the empty name: every resolver evaluates `name[0]`, for
`Secret`, `Randomizer` and `ProofResult` after the comparisons with `"m"` and
`"v5"`, and panics on the empty string instead of answering nil or false. -/
theorem resolvers_crash_on_empty_name :
    exCommit.Secret [] = .error (.crash "index out of range") ∧
    exCommit.Randomizer [] = .error (.crash "index out of range") ∧
    exCommit.Base [] = .error (.crash "index out of range") ∧
    exCommit.Exp 0 [] 1 35 = .error (.crash "index out of range") ∧
    exProof.ProofResult [] = .error (.crash "index out of range") ∧
    exProof.Base [] = .error (.crash "index out of range") ∧
    exProof.Exp 0 [] 1 35 = .error (.crash "index out of range") := by
  decide

/-- On a non-empty name no resolver fails: each returns a value or nil, and
`Exp` returns a boolean. -/
theorem resolvers_ok_of_nonempty (c : ProofCommit) (p : Proof) (name : Name) (h : name ≠ []) :
    (∃ r, c.Secret name = .ok r) ∧ (∃ r, c.Randomizer name = .ok r) ∧
    (∃ r, c.Base name = .ok r) ∧ (∀ ret e N, ∃ r b, c.Exp ret name e N = .ok (r, b)) ∧
    (∃ r, p.ProofResult name = .ok r) ∧ (∃ r, p.Base name = .ok r) ∧
    (∀ ret e N, ∃ r b, p.Exp ret name e N = .ok (r, b)) := by
  obtain ⟨first, rest, rfl⟩ : ∃ first rest, name = first :: rest := by
    cases name with
    | nil => exact absurd rfl h
    | cons first rest => exact ⟨first, rest, rfl⟩
  have hcB : ∃ r, c.Base (first :: rest) = .ok r := by
    unfold ProofCommit.Base
    simp only
    split <;> exact ⟨_, rfl⟩
  have hpB : ∃ r, p.Base (first :: rest) = .ok r := by
    unfold Proof.Base
    simp only
    split <;> exact ⟨_, rfl⟩
  refine ⟨?_, ?_, hcB, ?_, ?_, hpB, ?_⟩
  · unfold ProofCommit.Secret
    split
    · exact ⟨_, rfl⟩
    · split
      · exact ⟨_, rfl⟩
      · simp only
        split
        · exact ⟨_, rfl⟩
        · split <;> exact ⟨_, rfl⟩
  · unfold ProofCommit.Randomizer
    split
    · exact ⟨_, rfl⟩
    · split
      · exact ⟨_, rfl⟩
      · simp only
        split
        · exact ⟨_, rfl⟩
        · split <;> exact ⟨_, rfl⟩
  · intro ret e N
    obtain ⟨r, hr⟩ := hcB
    unfold ProofCommit.Exp
    rw [hr]
    cases r with
    | none => exact ⟨_, _, rfl⟩
    | some b => exact ⟨_, _, rfl⟩
  · unfold Proof.ProofResult
    split
    · exact ⟨_, rfl⟩
    · split
      · exact ⟨_, rfl⟩
      · simp only
        split
        · exact ⟨_, rfl⟩
        · split <;> exact ⟨_, rfl⟩
  · intro ret e N
    obtain ⟨r, hr⟩ := hpB
    unfold Proof.Exp
    rw [hr]
    cases r with
    | none => exact ⟨_, _, rfl⟩
    | some b => exact ⟨_, _, rfl⟩

/-- C19 fails at a suffix with a sign character: `strconv.Atoi` accepts
`"+1"` and `"-0"`, so `"d+1"`, `"v-0"`, `"C+2"` and `"C-0"` resolve to the
entries 1, 0, 2 and 0 although their suffix does not consist solely of
decimal digits. -/
theorem resolvers_accept_signed_suffix :
    exCommit.Secret ['d', '+', '1'] = .ok (some 1) ∧
    exCommit.Randomizer ['v', '-', '0'] = .ok (some 9) ∧
    exCommit.Base ['C', '+', '2'] = .ok (some 1) ∧
    exProof.ProofResult ['d', '+', '1'] = .ok (some 1234573) ∧
    exProof.Base ['C', '-', '0'] = .ok (some 13) ∧
    digitVal '+' = none ∧ digitVal '-' = none := by
  decide

theorem indexInt_eq_some_iff (xs : List Int) (suffix : Name) (x : Int) :
    indexInt xs suffix = some x ↔ ∃ i : Nat, Atoi suffix = some (i : Int) ∧ xs[i]? = some x := by
  unfold indexInt
  constructor
  · intro h
    split at h
    · cases h
    · rename_i i hi
      split at h
      · cases h
      · rename_i hr
        push_neg at hr
        exact ⟨i.toNat, by rw [hi, Int.toNat_of_nonneg hr.1], h⟩
  · rintro ⟨i, hi, hx⟩
    rw [hi]
    simp only
    have hlt : i < xs.length := by
      by_contra hge
      rw [List.getElem?_eq_none (by omega)] at hx
      cases hx
    rw [if_neg (by omega), Int.toNat_ofNat]
    exact hx

theorem indexPtr_eq_some_iff (xs : List (Option Int)) (suffix : Name) (x : Int) :
    indexPtr xs suffix = some x ↔
      ∃ i : Nat, Atoi suffix = some (i : Int) ∧ xs[i]? = some (some x) := by
  unfold indexPtr
  constructor
  · intro h
    split at h
    · cases h
    · rename_i i hi
      split at h
      · cases h
      · rename_i hr
        push_neg at hr
        refine ⟨i.toNat, by rw [hi, Int.toNat_of_nonneg hr.1], ?_⟩
        cases hq : xs[i.toNat]? with
        | none => rw [hq] at h; cases h
        | some y =>
          rw [hq] at h
          cases y with
          | none => cases h
          | some z => cases h; rfl
  · rintro ⟨i, hi, hx⟩
    rw [hi]
    simp only
    have hlt : i < xs.length := by
      by_contra hge
      rw [List.getElem?_eq_none (by omega)] at hx
      cases hx
    rw [if_neg (by omega), Int.toNat_ofNat, hx]
    rfl

/-- The characters accepted by `parseDigits` are the decimal digits. -/
theorem parseDigits_digits : ∀ (s : List Char) (acc n : Nat), parseDigits s acc = some n →
    ∀ ch ∈ s, '0'.toNat ≤ ch.toNat ∧ ch.toNat ≤ '9'.toNat := by
  intro s
  induction s with
  | nil => intro acc n _ ch hch; simp at hch
  | cons c rest ih =>
    intro acc n h ch hch
    rw [parseDigits] at h
    split at h
    · cases h
    · rename_i d hd
      rcases List.mem_cons.mp hch with rfl | hmem
      · unfold digitVal at hd
        split at hd
        · rename_i hr
          exact hr
        · cases hd
      · exact ih _ _ h ch hmem

/-- The strings accepted by `Atoi`: an optional sign followed by at least one
decimal digit. -/
theorem Atoi_shape (s : Name) (i : Int) (h : Atoi s = some i) :
    ∃ sign digits, s = sign ++ digits ∧ (sign = [] ∨ sign = ['+'] ∨ sign = ['-']) ∧
      digits ≠ [] ∧ ∀ ch ∈ digits, '0'.toNat ≤ ch.toNat ∧ ch.toNat ≤ '9'.toNat := by
  unfold Atoi at h
  split at h
  · cases h
  · rename_i ch rest
    split at h
    · rename_i hminus
      split at h
      · cases h
      · rename_i hrest
        split at h
        · cases h
        · rename_i n hn
          exact ⟨['-'], rest, by rw [hminus]; rfl, Or.inr (Or.inr rfl), hrest,
            parseDigits_digits rest 0 n hn⟩
    · split at h
      · rename_i hplus
        split at h
        · cases h
        · rename_i hrest
          split at h
          · cases h
          · rename_i n hn
            exact ⟨['+'], rest, by rw [hplus]; rfl, Or.inr (Or.inl rfl), hrest,
              parseDigits_digits rest 0 n hn⟩
      · split at h
        · cases h
        · rename_i n hn
          exact ⟨[], ch :: rest, rfl, Or.inl rfl, by simp, parseDigits_digits _ 0 n hn⟩

/-- The case analysis shared by `Secret`, `Randomizer` and `ProofResult` on a
name other than `"m"` and `"v5"`. -/
theorem resolve_vd_iff (first : Char) (rest : Name) (rv rd : Option Int) (x : Int)
    (P Q : Nat → Prop)
    (hv : rv = some x ↔ ∃ i : Nat, Atoi rest = some (i : Int) ∧ P i)
    (hd : rd = some x ↔ ∃ i : Nat, Atoi rest = some (i : Int) ∧ Q i) :
    ((if first = 'v' then (.ok rv : Except Fault (Option Int))
      else if first = 'd' then .ok rd else .ok none) = .ok (some x)) ↔
    ∃ (suffix : Name) (i : Nat), Atoi suffix = some (i : Int) ∧
      (first :: rest = 'v' :: suffix ∧ P i ∨ first :: rest = 'd' :: suffix ∧ Q i) := by
  by_cases h1 : first = 'v'
  · subst h1
    rw [if_pos rfl]
    constructor
    · intro h
      have h2 : rv = some x := by cases h; rfl
      obtain ⟨i, hi, hp⟩ := hv.mp h2
      exact ⟨rest, i, hi, Or.inl ⟨rfl, hp⟩⟩
    · rintro ⟨suffix, i, hi, ⟨he, hp⟩ | ⟨he, -⟩⟩
      · obtain rfl : rest = suffix := (List.cons.inj he).2
        rw [hv.mpr ⟨i, hi, hp⟩]
      · exact absurd (List.cons.inj he).1 (by decide)
  · rw [if_neg h1]
    by_cases h2 : first = 'd'
    · subst h2
      rw [if_pos rfl]
      constructor
      · intro h
        have h3 : rd = some x := by cases h; rfl
        obtain ⟨i, hi, hp⟩ := hd.mp h3
        exact ⟨rest, i, hi, Or.inr ⟨rfl, hp⟩⟩
      · rintro ⟨suffix, i, hi, ⟨he, -⟩ | ⟨he, hp⟩⟩
        · exact absurd (List.cons.inj he).1 (by decide)
        · obtain rfl : rest = suffix := (List.cons.inj he).2
          rw [hd.mpr ⟨i, hi, hp⟩]
    · rw [if_neg h2]
      constructor
      · intro h; cases h
      · rintro ⟨suffix, i, hi, ⟨he, -⟩ | ⟨he, -⟩⟩
        · exact absurd (List.cons.inj he).1 h1
        · exact absurd (List.cons.inj he).1 h2

/-- The case analysis of `Base` of a commit and of a proof. -/
theorem resolve_C_iff (first : Char) (rest : Name) (rc : Option Int) (x : Int) (P : Nat → Prop)
    (hc : rc = some x ↔ ∃ i : Nat, Atoi rest = some (i : Int) ∧ P i) :
    ((if first = 'C' then (.ok rc : Except Fault (Option Int)) else .ok none) = .ok (some x)) ↔
    ∃ (suffix : Name) (i : Nat), Atoi suffix = some (i : Int) ∧
      first :: rest = 'C' :: suffix ∧ P i := by
  by_cases h1 : first = 'C'
  · subst h1
    rw [if_pos rfl]
    constructor
    · intro h
      have h2 : rc = some x := by cases h; rfl
      obtain ⟨i, hi, hp⟩ := hc.mp h2
      exact ⟨rest, i, hi, rfl, hp⟩
    · rintro ⟨suffix, i, hi, he, hp⟩
      obtain rfl : rest = suffix := (List.cons.inj he).2
      rw [hc.mpr ⟨i, hi, hp⟩]
  · rw [if_neg h1]
    constructor
    · intro h; cases h
    · rintro ⟨suffix, i, hi, he, -⟩
      exact absurd (List.cons.inj he).1 h1

/-- C19, amended: for every non-empty name other than `"m"` and `"v5"`, a
resolver returns a present value `x` if and only if the name is the letter of
one of its arrays (`v` or `d` for `Secret`, `Randomizer` and `ProofResult`, `C`
for `Base`) followed by a suffix that `strconv.Atoi` parses to an index `i` at
which the array holds `x`; and `strconv.Atoi` parses a suffix only if it is an
optional sign character followed by at least one decimal digit. Every other
name resolves to nil. -/
theorem resolvers_present_iff (c : ProofCommit) (p : Proof) (name : Name) (x : Int)
    (hne : name ≠ []) (hm : name ≠ ['m']) (hv5 : name ≠ ['v', '5']) :
    (c.Secret name = .ok (some x) ↔
      ∃ (suffix : Name) (i : Nat), Atoi suffix = some (i : Int) ∧
        (name = 'v' :: suffix ∧ c.v[i]? = some x ∨ name = 'd' :: suffix ∧ c.d[i]? = some x)) ∧
    (c.Randomizer name = .ok (some x) ↔
      ∃ (suffix : Name) (i : Nat), Atoi suffix = some (i : Int) ∧
        (name = 'v' :: suffix ∧ c.vRandomizers[i]? = some x ∨
          name = 'd' :: suffix ∧ c.dRandomizers[i]? = some x)) ∧
    (c.Base name = .ok (some x) ↔
      ∃ (suffix : Name) (i : Nat), Atoi suffix = some (i : Int) ∧
        name = 'C' :: suffix ∧ c.c[i]? = some x) ∧
    (p.ProofResult name = .ok (some x) ↔
      ∃ (suffix : Name) (i : Nat), Atoi suffix = some (i : Int) ∧
        (name = 'v' :: suffix ∧ p.VResponses[i]? = some (some x) ∨
          name = 'd' :: suffix ∧ p.DResponses[i]? = some (some x))) ∧
    (p.Base name = .ok (some x) ↔
      ∃ (suffix : Name) (i : Nat), Atoi suffix = some (i : Int) ∧
        name = 'C' :: suffix ∧ p.Cs[i]? = some (some x)) ∧
    (∀ (suffix : Name) (i : Int), Atoi suffix = some i →
      ∃ sign digits, suffix = sign ++ digits ∧ (sign = [] ∨ sign = ['+'] ∨ sign = ['-']) ∧
        digits ≠ [] ∧ ∀ ch ∈ digits, '0'.toNat ≤ ch.toNat ∧ ch.toNat ≤ '9'.toNat) := by
  obtain ⟨first, rest, rfl⟩ : ∃ first rest, name = first :: rest := by
    cases name with
    | nil => exact absurd rfl hne
    | cons first rest => exact ⟨first, rest, rfl⟩
  refine ⟨?_, ?_, ?_, ?_, ?_, Atoi_shape⟩
  · unfold ProofCommit.Secret
    rw [if_neg hm, if_neg hv5]
    exact resolve_vd_iff first rest _ _ x _ _ (indexInt_eq_some_iff c.v rest x)
      (indexInt_eq_some_iff c.d rest x)
  · unfold ProofCommit.Randomizer
    rw [if_neg hm, if_neg hv5]
    exact resolve_vd_iff first rest _ _ x _ _ (indexInt_eq_some_iff c.vRandomizers rest x)
      (indexInt_eq_some_iff c.dRandomizers rest x)
  · unfold ProofCommit.Base
    exact resolve_C_iff first rest _ x _ (indexInt_eq_some_iff c.c rest x)
  · unfold Proof.ProofResult
    rw [if_neg hm, if_neg hv5]
    exact resolve_vd_iff first rest _ _ x _ _ (indexPtr_eq_some_iff p.VResponses rest x)
      (indexPtr_eq_some_iff p.DResponses rest x)
  · unfold Proof.Base
    exact resolve_C_iff first rest _ x _ (indexPtr_eq_some_iff p.Cs rest x)

/-- C19, amended, at the name `"d+1"` and the running example: the suffix
`"+1"` parses to the index 1, where `d` holds 1. -/
theorem resolvers_present_iff_witness :
    (['d', '+', '1'] : Name) ≠ [] ∧ (['d', '+', '1'] : Name) ≠ ['m'] ∧
    (['d', '+', '1'] : Name) ≠ ['v', '5'] ∧ Atoi ['+', '1'] = some 1 ∧
    exCommit.d[1]? = some 1 ∧ exCommit.Secret ['d', '+', '1'] = .ok (some 1) :=
  ⟨by decide, by decide, by decide, by decide, by decide,
    (resolvers_present_iff exCommit exProof ['d', '+', '1'] 1 (by decide) (by decide)
      (by decide)).1.mpr ⟨['+', '1'], 1, by decide, Or.inr ⟨rfl, by decide⟩⟩⟩

/-! ## Reconstruction of the structure from a proof -/

/-- The shape and bounds check reads only the number of relations and the four
size parameters of the structure. -/
theorem VerifyProofStructure_congr (s t : ProofStructure) (g : QrGroup) (p : Proof)
    (hc : t.cRep.length = s.cRep.length) (hld : t.ld = s.ld) (hlm : t.lm = s.lm)
    (hlh : t.lh = s.lh) (hls : t.lstatzk = s.lstatzk) :
    t.VerifyProofStructure g p = s.VerifyProofStructure g p := by
  have he : verifyEntry t g p = verifyEntry s g p := by
    funext i
    unfold verifyEntry
    rw [hld, hlm, hlh, hls]
  unfold ProofStructure.VerifyProofStructure
  rw [hc, hld, hlm, hlh, hls, he]

/-- The verifier's contributions read only the relations of the structure. -/
theorem CommitmentsFromProof_congr (s t : ProofStructure) (g : QrGroup) (p : Proof) (c : Int)
    (hm : t.mCorrect = s.mCorrect) (hc : t.cRep = s.cRep) :
    t.CommitmentsFromProof g p c = s.CommitmentsFromProof g p c := by
  unfold ProofStructure.CommitmentsFromProof
  rw [hm, hc]

/-- The structure built by `newWithParams` for `n` squares, `n` being 3 or 4,
is rebuilt, up to the splitter, by `ExtractStructure` from every proof that
carries its `a`, `k`, `ld` and `n` bases, when the bounds of `ExtractStructure`
hold and `lm + strconv.IntSize` fits a machine int. -/
theorem ExtractStructure_newWithParams (a k : Int) (split : Option SquareSplitter) (n ld : Nat)
    (lh lstatzk lm : Nat) (s : ProofStructure) (p : Proof) (hn : n = 3 ∨ n = 4)
    (hs : newWithParams a k split (n : Int) ld lh lstatzk lm = .ok s)
    (hld : ld ≤ lm) (hk : BitLen k ≤ lm + IntSize) (hlm : lm + IntSize < 2 ^ 63)
    (hA : p.A = a) (hK : p.K = some k) (hL : p.Ld = ld) (hC : p.Cs.length = n) :
    ∃ t, p.ExtractStructure lh lstatzk lm = .ok t ∧ t.a = s.a ∧ t.k = s.k ∧ t.ld = s.ld ∧
      t.lm = s.lm ∧ t.lh = s.lh ∧ t.lstatzk = s.lstatzk ∧ t.cRep = s.cRep ∧
      t.mCorrect = s.mCorrect ∧ t.splitter = none := by
  have hbound : wrapInt ((wrapUint (lm + IntSize) : Nat) : Int) = ((lm + IntSize : Nat) : Int) := by
    have h1 : wrapUint (lm + IntSize) = lm + IntSize :=
      wrapUint_of_isUint (by unfold IsUint; omega)
    rw [h1]
    apply wrapInt_of_isInt64
    unfold IsInt64
    constructor <;> omega
  have hle : (n : Int) ≤ 4 := by omega
  obtain ⟨s1, hs1, h_a, h_k, -, h_ld, h_lh, h_ls, h_lm, h_c, h_m⟩ :=
    newWithParams_ok a k split (n : Int) ld lh lstatzk lm hle
  rw [hs1] at hs
  cases hs
  obtain ⟨t, ht, t_a, t_k, t_sp, t_ld, t_lh, t_ls, t_lm, t_c, t_m⟩ :=
    newWithParams_ok a k none (n : Int) ld lh lstatzk lm hle
  refine ⟨t, ?_, by rw [t_a, h_a], by rw [t_k, h_k], by rw [t_ld, h_ld], by rw [t_lm, h_lm],
    by rw [t_lh, h_lh], by rw [t_ls, h_ls], by rw [t_c, h_c], by rw [t_m, h_m], t_sp⟩
  unfold Proof.ExtractStructure
  rw [hK]
  simp only [hbound, hA, hL, hC]
  rw [if_neg]
  · exact ht
  · have hb2 : ¬ ((BitLen k : Nat) : Int) > ((lm + IntSize : Nat) : Int) := by
      exact_mod_cast (by omega : ¬ BitLen k > lm + IntSize)
    omega

/-- Reconstruction when `lm + strconv.IntSize` fits a machine int: for
`s = New(a, k, splitter, lh, lstatzk, lm)` with `SquareCount()` 3 or 4,
`splitter.Ld() ≤ lm` and a stored `s.k` of at most `lm + strconv.IntSize` bits,
`ExtractStructure(lh, lstatzk, lm)` rebuilds, from every proof built by `s`,
the parameters and the relations of `s`. -/
theorem ExtractStructure_reconstructs_of_bound (a k : Int) (split : SquareSplitter)
    (lh lstatzk lm : Nat)
    (s : ProofStructure) (rnd : RandomSource) (g : QrGroup) (m mRandomizer : Int)
    (contribs : List Int) (commit : ProofCommit) (challenge : Int)
    (hn : split.SquareCount = 3 ∨ split.SquareCount = 4)
    (hs : New a k split lh lstatzk lm = .ok s)
    (hld : split.Ld ≤ lm) (hk : BitLen s.k ≤ lm + IntSize) (hlm : lm + IntSize < 2 ^ 63)
    (hc : s.CommitmentsFromSecrets rnd g m mRandomizer = .ok (contribs, commit)) :
    ∃ p t, s.BuildProof commit challenge = .ok p ∧ p.ExtractStructure lh lstatzk lm = .ok t ∧
      t.a = s.a ∧ t.k = s.k ∧ t.ld = s.ld ∧ t.lm = s.lm ∧ t.lh = s.lh ∧
      t.lstatzk = s.lstatzk ∧ t.cRep.length = s.cRep.length ∧ t.mCorrect = s.mCorrect ∧
      t.cRep = s.cRep ∧
      (∀ g1 q, t.VerifyProofStructure g1 q = s.VerifyProofStructure g1 q) ∧
      (∀ g1 q c1, t.CommitmentsFromProof g1 q c1 = s.CommitmentsFromProof g1 q c1) := by
  obtain ⟨-, -, -, -, hlen⟩ :=
    CommitmentsFromSecrets_lengths s rnd g m mRandomizer contribs commit hc
  obtain ⟨p, hp, pA, pK, pL, pC⟩ : ∃ p, s.BuildProof commit challenge = .ok p ∧ p.A = s.a ∧
      p.K = some s.k ∧ p.Ld = s.ld ∧ p.Cs.length = commit.c.length :=
    ⟨_, BuildProof_ok s rnd g m mRandomizer contribs commit challenge hc, rfl, rfl, rfl,
      List.length_map _ _⟩
  have key : ∀ (a1 k1 : Int) (n : Nat), (n = 3 ∨ n = 4) →
      newWithParams a1 k1 (some split) (n : Int) split.Ld lh lstatzk lm = .ok s →
      ∃ p t, s.BuildProof commit challenge = .ok p ∧
        p.ExtractStructure lh lstatzk lm = .ok t ∧
        t.a = s.a ∧ t.k = s.k ∧ t.ld = s.ld ∧ t.lm = s.lm ∧ t.lh = s.lh ∧
        t.lstatzk = s.lstatzk ∧ t.cRep.length = s.cRep.length ∧ t.mCorrect = s.mCorrect ∧
        t.cRep = s.cRep ∧
        (∀ g1 q, t.VerifyProofStructure g1 q = s.VerifyProofStructure g1 q) ∧
        (∀ g1 q c1, t.CommitmentsFromProof g1 q c1 = s.CommitmentsFromProof g1 q c1) := by
    intro a1 k1 n hn1 hs1
    obtain ⟨s1, hs2, h_a, h_k, -, h_ld, -, -, -, h_c, -⟩ :=
      newWithParams_ok a1 k1 (some split) (n : Int) split.Ld lh lstatzk lm (by omega)
    rw [hs2] at hs1
    cases hs1
    have hcl : s.cRep.length = n := by rw [h_c]; simp
    obtain ⟨t, ht, t_a, t_k, t_ld, t_lm, t_lh, t_ls, t_c, t_m, -⟩ :=
      ExtractStructure_newWithParams a1 k1 (some split) n split.Ld lh lstatzk lm s p hn1 hs2
        hld (by rw [← h_k]; exact hk) hlm (by rw [pA, h_a]) (by rw [pK, h_k])
        (by rw [pL, h_ld]) (by rw [pC, hlen, hcl])
    exact ⟨p, t, hp, ht, t_a, t_k, t_ld, t_lm, t_lh, t_ls, by rw [t_c], t_m, t_c,
      fun g1 q => VerifyProofStructure_congr s t g1 q (by rw [t_c]) t_ld t_lm t_lh t_ls,
      fun g1 q c1 => CommitmentsFromProof_congr s t g1 q c1 t_m t_c⟩
  rcases hn with h3 | h4
  · rw [New_three a k split lh lstatzk lm h3] at hs
    exact key _ _ 3 (Or.inl rfl) hs
  · rw [New_four a k split lh lstatzk lm h4] at hs
    exact key _ _ 4 (Or.inr rfl) hs

/-- A successful `CommitmentsFromSecrets` of a structure with at least one
relation `cRep` has drawn a value of `lm` bits. -/
theorem CommitmentsFromSecrets_draws_lm (s : ProofStructure) (rnd : RandomSource) (g : QrGroup)
    (m mRandomizer : Int) (contribs : List Int) (commit : ProofCommit)
    (hpos : 0 < s.cRep.length)
    (hcfs : s.CommitmentsFromSecrets rnd g m mRandomizer = .ok (contribs, commit)) :
    ∃ i x, rnd i s.lm = .ok x := by
  obtain ⟨-, splitter, -, -, -, -, hv, -⟩ :=
    CommitmentsFromSecrets_ok s rnd g m mRandomizer contribs commit hcfs
  obtain ⟨-, -, l3, -, -⟩ :=
    CommitmentsFromSecrets_lengths s rnd g m mRandomizer contribs commit hcfs
  rcases hvl : commit.v with _ | ⟨v0, vs⟩
  · rw [hvl] at l3
    simp at l3
    omega
  · obtain ⟨i, hi⟩ := (drawV_mem s rnd _ _ _ _ hv).1 v0 (by rw [hvl]; simp)
    exact ⟨i, v0, hi⟩

/-- The structure returned by `New` for a splitter of 3 or 4 squares stores
`lm` and has at least one relation `cRep`. -/
theorem New_lm (a k : Int) (split : SquareSplitter) (lh lstatzk lm : Nat) (s : ProofStructure)
    (hn : split.SquareCount = 3 ∨ split.SquareCount = 4)
    (hs : New a k split lh lstatzk lm = .ok s) : s.lm = lm ∧ 0 < s.cRep.length := by
  rcases hn with h3 | h4
  · obtain ⟨s1, hs1, -, -, -, -, -, -, h_lm, h_c, -⟩ :=
      newWithParams_ok (wrapInt (a * 4)) (k * 4 - 2) (some split) 3 split.Ld lh lstatzk lm
        (by decide)
    rw [New_three a k split lh lstatzk lm h3, hs1] at hs
    cases hs
    exact ⟨h_lm, by rw [h_c]; simp⟩
  · obtain ⟨s1, hs1, -, -, -, -, -, -, h_lm, h_c, -⟩ :=
      newWithParams_ok a k (some split) 4 split.Ld lh lstatzk lm (by decide)
    rw [New_four a k split lh lstatzk lm h4, hs1] at hs
    cases hs
    exact ⟨h_lm, by rw [h_c]; simp⟩

/-- C11: let `s = New(a, k, splitter, lh, lstatzk, lm)` with `SquareCount()` 3
or 4, `splitter.Ld() ≤ lm` and a stored `s.k` of at most
`lm + strconv.IntSize` bits, and let the random source return a value only
for a draw of fewer than `2 ^ 62` bits (`common.RandomBigInt` panics on a draw
that large: the value cannot be allocated). For every proof `p` built by
`BuildProof` from a commit of a successful `CommitmentsFromSecrets`,
`p.ExtractStructure(lh, lstatzk, lm)` succeeds and returns a structure with
the same `a`, `k` (the adjustment for three squares is not applied again),
`ld`, `lm`, `lh`, `lstatzk`, number of squares and relations `mCorrect` and
`cRep`; so its `VerifyProofStructure` and `CommitmentsFromProof` agree with
those of `s` on every group, proof and challenge. The commit holds values
drawn with `lm` bits, hence `lm < 2 ^ 62` and `int(lm + strconv.IntSize)` does
not wrap. -/
theorem ExtractStructure_reconstructs (a k : Int) (split : SquareSplitter)
    (lh lstatzk lm : Nat)
    (s : ProofStructure) (rnd : RandomSource) (g : QrGroup) (m mRandomizer : Int)
    (contribs : List Int) (commit : ProofCommit) (challenge : Int)
    (hn : split.SquareCount = 3 ∨ split.SquareCount = 4)
    (hs : New a k split lh lstatzk lm = .ok s)
    (hld : split.Ld ≤ lm) (hk : BitLen s.k ≤ lm + IntSize)
    (hrnd : ∀ count bits x, rnd count bits = .ok x → bits < 2 ^ 62)
    (hc : s.CommitmentsFromSecrets rnd g m mRandomizer = .ok (contribs, commit)) :
    ∃ p t, s.BuildProof commit challenge = .ok p ∧ p.ExtractStructure lh lstatzk lm = .ok t ∧
      t.a = s.a ∧ t.k = s.k ∧ t.ld = s.ld ∧ t.lm = s.lm ∧ t.lh = s.lh ∧
      t.lstatzk = s.lstatzk ∧ t.cRep.length = s.cRep.length ∧ t.mCorrect = s.mCorrect ∧
      t.cRep = s.cRep ∧
      (∀ g1 q, t.VerifyProofStructure g1 q = s.VerifyProofStructure g1 q) ∧
      (∀ g1 q c1, t.CommitmentsFromProof g1 q c1 = s.CommitmentsFromProof g1 q c1) := by
  obtain ⟨hlm, hpos⟩ := New_lm a k split lh lstatzk lm s hn hs
  obtain ⟨i, x, hx⟩ :=
    CommitmentsFromSecrets_draws_lm s rnd g m mRandomizer contribs commit hpos hc
  have hb := hrnd _ _ _ hx
  rw [hlm] at hb
  have hsmall : lm + IntSize < 2 ^ 63 := by
    have e : IntSize = 64 := rfl
    rw [e]
    omega
  exact ExtractStructure_reconstructs_of_bound a k split lh lstatzk lm s rnd g m mRandomizer
    contribs commit challenge hn hs hld hk hsmall hc

set_option maxRecDepth 100000 in
/-- C11 at the running example: `New(1, 45, table, 256, 128, 256)`, `m = 45`,
challenge `1234567`, with a random source that panics on a draw of `2 ^ 51`
bits or more. -/
theorem ExtractStructure_reconstructs_witness :
    exTable.toSplitter.SquareCount = 3 ∧
    New 1 45 exTable.toSplitter 256 128 256 = .ok exStructure ∧
    exTable.toSplitter.Ld ≤ 256 ∧ BitLen exStructure.k ≤ 256 + IntSize ∧
    (∀ count bits x, boundedRandom count bits = .ok x → bits < 2 ^ 62) ∧
    exStructure.CommitmentsFromSecrets boundedRandom exGroup 45 7
      = .ok ([27, 12, 16, 33], exCommit) ∧
    ∃ p t, exStructure.BuildProof exCommit 1234567 = .ok p ∧
      p.ExtractStructure 256 128 256 = .ok t ∧ t.a = exStructure.a ∧ t.k = exStructure.k ∧
      t.cRep = exStructure.cRep ∧ t.mCorrect = exStructure.mCorrect := by
  have hcommit : exStructure.CommitmentsFromSecrets boundedRandom exGroup 45 7
      = .ok ([27, 12, 16, 33], exCommit) := by decide
  obtain ⟨p, t, hp, ht, h1, h2, -, -, -, -, -, h3, h4, -⟩ :=
    ExtractStructure_reconstructs 1 45 exTable.toSplitter 256 128 256 exStructure
      boundedRandom exGroup 45 7 [27, 12, 16, 33] exCommit 1234567 (Or.inl rfl) exStructure_eq
      (by decide) (by decide) boundedRandom_bits hcommit
  exact ⟨rfl, exStructure_eq, by decide, by decide, boundedRandom_bits, hcommit, p, t, hp, ht,
    h1, h2, h4, h3⟩

/-! ## The contributions for a split whose squares do not sum to `delta` -/

/-- Evaluation of one relation on both sides: when the prover's and the
verifier's lookups resolve every name of the relation and the responses are
`challenge * secret + randomizer`, both sides append one value, the same for
every list, and the two values are equal exactly when
`LHS ^ (-challenge) * (prod base ^ (power * secret)) ^ challenge` is 1. -/
theorem relation_eval (g : QrGroup) (hN : g.N ≠ 0) (bs bp : BaseLookup)
    (sd : SecretLookup) (pd : ProofLookup) (c : Int) (rep : qrRepresentationProofStructure)
    (items : List (RhsContribution × (ZMod g.N.natAbs)ˣ × Int × Int))
    (litems : List (LhsContribution × (ZMod g.N.natAbs)ˣ))
    (hRhs : rep.Rhs = items.map (fun it => it.1)) (hLhs : rep.Lhs = litems.map (fun it => it.1))
    (hne : items ≠ [])
    (hs : ∀ it ∈ items, sd.Randomizer it.1.Secret = .ok (some it.2.2.2) ∧
      Resolves g bs it.1.Base it.2.1)
    (hp : ∀ it ∈ items, pd.ProofResult it.1.Secret = .ok (some (c * it.2.2.1 + it.2.2.2)) ∧
      Resolves g bp it.1.Base it.2.1)
    (hl : ∀ it ∈ litems, Resolves g bp it.1.Base it.2) :
    ∃ x y, (∀ list : List Int, rep.commitmentsFromSecrets g list bs sd = .ok (list ++ [x])) ∧
      (∀ list : List Int, rep.commitmentsFromProof g list c bp pd = .ok (list ++ [y])) ∧
      (x = y ↔ ((litems.map (fun it => it.2 ^ it.1.Power)).prod) ^ (-c)
        * ((items.map (fun it => it.2.1 ^ (it.1.Power * it.2.2.1))).prod) ^ c = 1) := by
  have h1 : ((1 : Int) : ZMod g.N.natAbs) = ((1 : (ZMod g.N.natAbs)ˣ) : ZMod g.N.natAbs) := by
    simp
  obtain ⟨r1, hr1, hc1, hrange1⟩ := secretsProduct_eval g hN bs sd items hs 1 1 h1
  obtain ⟨lhs, hlhs, hcl⟩ := lhsProduct_eval g bp litems hl 1 1 h1
  obtain ⟨start, hstart, -, -, hcs⟩ := bigExp_spec lhs g.N hN _ hcl (-c)
  obtain ⟨r2, hr2, hc2, hrange2⟩ := proofProduct_eval g hN bp pd c items hp start _ hcs
  refine ⟨r1, r2, ?_, ?_, ?_⟩
  · intro list
    unfold qrRepresentationProofStructure.commitmentsFromSecrets
    rw [hRhs, hr1]
  · intro list
    unfold qrRepresentationProofStructure.commitmentsFromProof
    rw [hLhs, hlhs]
    simp only [hstart]
    rw [hRhs, hr2]
  · have hcast : r1 = r2 ↔ (r1 : ZMod g.N.natAbs) = (r2 : ZMod g.N.natAbs) :=
      ⟨fun h => by rw [h], fun h => eq_of_intCast_eq g.N.natAbs r1 r2 (hrange1 hne)
        (hrange2 hne) h⟩
    rw [hcast, hc1, hc2, Units.eq_iff, prod_responses, one_mul, one_mul, ← mul_assoc]
    constructor
    · intro h
      exact (mul_right_cancel (b := (items.map (fun it => it.2.1 ^ (it.1.Power * it.2.2.2))).prod)
        (by rw [one_mul]; exact h)).symm
    · intro h
      rw [h, one_mul]

/-- The loops over the relations `cRep` on both sides, when every relation
appends the same value on both sides whatever the list: both loops append the
same values to their lists. -/
theorem cRep_tail (g : QrGroup) (bs bp : BaseLookup) (commit : ProofCommit) (p : Proof)
    (c : Int) :
    ∀ (reps : List qrRepresentationProofStructure),
      (∀ rep ∈ reps, ∃ x, ∀ list : List Int,
        rep.commitmentsFromSecrets g list bs commit.toSecretLookup = .ok (list ++ [x]) ∧
          rep.commitmentsFromProof g list c bp p.toProofLookup = .ok (list ++ [x])) →
      ∃ tail : List Int, tail.length = reps.length ∧ ∀ list : List Int,
        cRepFromSecrets g bs commit reps reps.length list = .ok (list ++ tail) ∧
        cRepFromProof g c bp p reps list = .ok (list ++ tail) := by
  intro reps
  induction reps with
  | nil =>
    intro _
    exact ⟨[], rfl, fun list => by simp [cRepFromSecrets, cRepFromProof]⟩
  | cons rep rest ih =>
    intro hall
    obtain ⟨x, hx⟩ := hall rep (List.mem_cons_self _ _)
    obtain ⟨tail, hlen, htail⟩ := ih (fun r hr => hall r (List.mem_cons_of_mem _ hr))
    refine ⟨x :: tail, by simp [hlen], fun list => ?_⟩
    obtain ⟨h1, h2⟩ := htail (list ++ [x])
    simp only [List.length_cons, cRepFromSecrets, cRepFromProof, (hx list).1, (hx list).2]
    rw [h1, h2]
    simp

/-- The two contribution vectors of a structure with `n ≤ 4` relations `cRep`
whose relation for `m` carries the powers `-s.k`, `-1`, `-s.a` and 1: the
entries after the first are the same on both sides, and the first entries are
equal exactly when `R ^ (c * (sum of d_i^2 - (s.a * m - s.k)))` is 1 in the
units modulo `|N|`. -/
theorem contributions_core (s : ProofStructure) (n : Nat) (hn4 : n ≤ 4)
    (hcRep : s.cRep = (List.range n).map cRepEntry)
    (hmC : s.mCorrect =
      { Lhs := [{ Base := ['R'], Power := -s.k }]
        Rhs := [{ Base := ['S'], Secret := ['v', '5'], Power := -1 },
                { Base := ['R'], Secret := ['m'], Power := -s.a }]
               ++ (List.range n).map mCorrectEntry })
    (rnd : RandomSource) (g : QrGroup) (m mRandomizer c : Int) (contribs : List Int)
    (commit : ProofCommit) (hN : g.N ≠ 0) (uR uS : (ZMod g.N.natAbs)ˣ)
    (huR : (g.R : ZMod g.N.natAbs) = (uR : ZMod g.N.natAbs))
    (huS : (g.S : ZMod g.N.natAbs) = (uS : ZMod g.N.natAbs))
    (hcfs : s.CommitmentsFromSecrets rnd g m mRandomizer = .ok (contribs, commit)) :
    ∃ p xm ym rest, s.BuildProof commit c = .ok p ∧ contribs = xm :: rest ∧
      s.CommitmentsFromProof g p c = .ok (ym :: rest) ∧ rest.length = n ∧
      (xm = ym ↔
        uR ^ (c * ((commit.d.map (fun x => x * x)).sum - (s.a * m - s.k))) = 1) := by
  have hlenRep : s.cRep.length = n := by rw [hcRep]; simp
  obtain ⟨-, splitter, -, -, -, -, -, hv5, -, hbases, hcm, -, c0, hc0, hc1⟩ :=
    CommitmentsFromSecrets_ok s rnd g m mRandomizer contribs commit hcfs
  obtain ⟨l1, l2, l3, l4, l5⟩ :=
    CommitmentsFromSecrets_lengths s rnd g m mRandomizer contribs commit hcfs
  rw [hlenRep] at l1 l2 l3 l4 l5
  have hbp := BuildProof_ok s rnd g m mRandomizer contribs commit c hcfs
  suffices h : ∀ p : Proof, p.Cs = commit.c.map some →
      p.DResponses
        = List.zipWith (fun x r => some (c * x + r)) commit.d commit.dRandomizers →
      p.VResponses
        = List.zipWith (fun x r => some (c * x + r)) commit.v commit.vRandomizers →
      p.V5Response = some (c * commit.v5 + commit.v5Randomizer) →
      p.MResponse = some (c * commit.m + commit.mRandomizer) →
      ∃ xm ym rest, contribs = xm :: rest ∧
        s.CommitmentsFromProof g p c = .ok (ym :: rest) ∧ rest.length = n ∧
        (xm = ym ↔
          uR ^ (c * ((commit.d.map (fun x => x * x)).sum - (s.a * m - s.k))) = 1) by
    obtain ⟨xm, ym, rest, h1, h2, h3, h4⟩ := h
      { Cs := commit.c.map some
        DResponses := List.zipWith (fun x r => some (c * x + r)) commit.d commit.dRandomizers
        VResponses := List.zipWith (fun x r => some (c * x + r)) commit.v commit.vRandomizers
        V5Response := some (c * commit.v5 + commit.v5Randomizer)
        MResponse := some (c * commit.m + commit.mRandomizer)
        Ld := s.ld, A := s.a, K := some s.k } rfl rfl rfl rfl rfl
    exact ⟨_, xm, ym, rest, hbp, h1, h2, h3, h4⟩
  intro p pCs pD pV pV5 pM
  -- the bases C_i as units
  have hcast := computeBases_cast g hN uR uS huR huS _ _ _ hbases
  -- resolution of the names
  have resR_s : Resolves g (NewBaseMerge g commit.toBaseLookup) ['R'] uR :=
    resolves_group g hN _ ['R'] g.R uR rfl huR
  have resS_s : Resolves g (NewBaseMerge g commit.toBaseLookup) ['S'] uS :=
    resolves_group g hN _ ['S'] g.S uS rfl huS
  have resR_p : Resolves g (NewBaseMerge g p.toBaseLookup) ['R'] uR :=
    resolves_group g hN _ ['R'] g.R uR rfl huR
  have resS_p : Resolves g (NewBaseMerge g p.toBaseLookup) ['S'] uS :=
    resolves_group g hN _ ['S'] g.S uS rfl huS
  have resC_s : ∀ i, i < n → Resolves g (NewBaseMerge g commit.toBaseLookup) (sprintfD 'C' i)
      (uR ^ commit.d.getD i 0 * uS ^ commit.v.getD i 0) := by
    intro i hi
    apply resolves_part g hN _ _ (commit.c.getD i 0) _ (group_Base_C g i)
    · intro e
      simp only [ProofCommit.toBaseLookup, ProofCommit.Exp,
        commit_Base_C commit i (by omega) (by omega)]
    · exact hcast i (by omega)
  have resC_p : ∀ i, i < n → Resolves g (NewBaseMerge g p.toBaseLookup) (sprintfD 'C' i)
      (uR ^ commit.d.getD i 0 * uS ^ commit.v.getD i 0) := by
    intro i hi
    apply resolves_part g hN _ _ (commit.c.getD i 0) _ (group_Base_C g i)
    · intro e
      have hb : p.Base (sprintfD 'C' i) = .ok (some (commit.c.getD i 0)) := by
        rw [proof_Base_C p i (by omega) (by rw [pCs]; simp; omega), pCs]
        simp [List.getElem?_eq_getElem (by omega : i < commit.c.length)]
      simp only [Proof.toBaseLookup, Proof.Exp, hb]
    · exact hcast i (by omega)
  have hPd : ∀ i, i < n → p.ProofResult (sprintfD 'd' i)
      = .ok (some (c * commit.d.getD i 0 + commit.dRandomizers.getD i 0)) := by
    intro i hi
    rw [proof_ProofResult_d p i (by omega) (by rw [pD]; simp; omega), pD]
    simp [List.getElem?_zipWith, List.getElem?_eq_getElem (by omega : i < commit.d.length),
      List.getElem?_eq_getElem (by omega : i < commit.dRandomizers.length)]
  have hPv : ∀ i, i < n → p.ProofResult (sprintfD 'v' i)
      = .ok (some (c * commit.v.getD i 0 + commit.vRandomizers.getD i 0)) := by
    intro i hi
    rw [proof_ProofResult_v p i (by omega) (by rw [pV]; simp; omega), pV]
    simp [List.getElem?_zipWith, List.getElem?_eq_getElem (by omega : i < commit.v.length),
      List.getElem?_eq_getElem (by omega : i < commit.vRandomizers.length)]
  -- the relations C_i = R^(d_i) * S^(v_i)
  have hreps : ∀ rep ∈ s.cRep, ∃ x, ∀ list : List Int,
      rep.commitmentsFromSecrets g list (NewBaseMerge g commit.toBaseLookup)
          commit.toSecretLookup = .ok (list ++ [x]) ∧
        rep.commitmentsFromProof g list c (NewBaseMerge g p.toBaseLookup) p.toProofLookup
          = .ok (list ++ [x]) := by
    intro rep hrep
    rw [hcRep, List.mem_map] at hrep
    obtain ⟨i, hi, rfl⟩ := hrep
    have hi : i < n := List.mem_range.mp hi
    obtain ⟨x, y, hx, hy, hxy⟩ := relation_eval g hN (NewBaseMerge g commit.toBaseLookup)
      (NewBaseMerge g p.toBaseLookup) commit.toSecretLookup p.toProofLookup c (cRepEntry i)
      [(⟨['R'], sprintfD 'd' i, 1⟩, uR, commit.d.getD i 0, commit.dRandomizers.getD i 0),
       (⟨['S'], sprintfD 'v' i, 1⟩, uS, commit.v.getD i 0, commit.vRandomizers.getD i 0)]
      [(⟨sprintfD 'C' i, 1⟩, uR ^ commit.d.getD i 0 * uS ^ commit.v.getD i 0)]
      rfl rfl (by simp)
      (by
        intro it hit
        simp only [List.mem_cons, List.mem_singleton, List.not_mem_nil, or_false] at hit
        rcases hit with rfl | rfl
        · exact ⟨commit_Randomizer_d commit i (by omega) (by omega), resR_s⟩
        · exact ⟨commit_Randomizer_v commit i (by omega) (by omega), resS_s⟩)
      (by
        intro it hit
        simp only [List.mem_cons, List.mem_singleton, List.not_mem_nil, or_false] at hit
        rcases hit with rfl | rfl
        · exact ⟨hPd i hi, resR_p⟩
        · exact ⟨hPv i hi, resS_p⟩)
      (by
        intro it hit
        simp only [List.mem_singleton] at hit
        subst hit
        exact resC_p i hi)
    have hxy1 : x = y := hxy.mpr (by simp)
    subst hxy1
    exact ⟨x, fun list => ⟨hx list, hy list⟩⟩
  -- the relation for m
  obtain ⟨xm, ym, hxm, hym, hiff⟩ := relation_eval g hN (NewBaseMerge g commit.toBaseLookup)
      (NewBaseMerge g p.toBaseLookup) commit.toSecretLookup p.toProofLookup c s.mCorrect
      ([(⟨['S'], ['v', '5'], -1⟩, uS, commit.v5, commit.v5Randomizer),
        (⟨['R'], ['m'], -s.a⟩, uR, commit.m, commit.mRandomizer)]
        ++ (List.range n).map (fun i => (mCorrectEntry i,
              uR ^ commit.d.getD i 0 * uS ^ commit.v.getD i 0, commit.d.getD i 0,
              commit.dRandomizers.getD i 0)))
      [(⟨['R'], -s.k⟩, uR)]
      (by rw [hmC]; simp [List.map_map, Function.comp_def])
      (by rw [hmC]; rfl) (by simp)
      (by
        intro it hit
        simp only [List.mem_append, List.mem_cons, List.mem_singleton, List.not_mem_nil,
          or_false, List.mem_map, List.mem_range] at hit
        rcases hit with (rfl | rfl) | ⟨i, hi, rfl⟩
        · exact ⟨rfl, resS_s⟩
        · exact ⟨rfl, resR_s⟩
        · exact ⟨commit_Randomizer_d commit i (by omega) (by omega), resC_s i hi⟩)
      (by
        intro it hit
        simp only [List.mem_append, List.mem_cons, List.mem_singleton, List.not_mem_nil,
          or_false, List.mem_map, List.mem_range] at hit
        rcases hit with (rfl | rfl) | ⟨i, hi, rfl⟩
        · refine ⟨?_, resS_p⟩
          simp [Proof.toProofLookup, Proof.ProofResult, pV5]
        · refine ⟨?_, resR_p⟩
          simp [Proof.toProofLookup, Proof.ProofResult, pM]
        · exact ⟨hPd i hi, resC_p i hi⟩)
      (by
        intro it hit
        simp only [List.mem_singleton] at hit
        subst hit
        exact resR_p)
  obtain ⟨tail, htl, htail⟩ := cRep_tail g (NewBaseMerge g commit.toBaseLookup)
    (NewBaseMerge g p.toBaseLookup) commit p c s.cRep hreps
  rw [hxm []] at hc0
  cases hc0
  rw [l1, ← hlenRep, (htail _).1] at hc1
  cases hc1
  refine ⟨xm, ym, tail, rfl, ?_, by rw [htl, hlenRep], ?_⟩
  · unfold ProofStructure.CommitmentsFromProof
    simp only [hym []]
    exact (htail _).2
  · rw [hiff]
    have hz := range_map_eq_zipWith
      (fun d v => (uR ^ d * uS ^ v) ^ ((1 : Int) * d)) commit.d commit.v (by omega)
    have hprod := prod_zipWith_pow uR uS commit.d commit.v 0 (by omega)
    rw [← hz, l1, ← hv5] at hprod
    simp only [zpow_zero, mul_one] at hprod
    simp only [List.map_cons, List.map_nil, List.prod_cons, List.prod_nil, List.map_append,
      List.prod_append, List.map_map, Function.comp_def, mul_one, mCorrectEntry]
    rw [hprod, hcm]
    have key : ∀ (A B : (ZMod g.N.natAbs)ˣ) (a k m v q e : Int),
        (A ^ (-k)) ^ (-e) * (B ^ (-1 * v) * A ^ (-a * m) * (A ^ q * B ^ v)) ^ e
          = A ^ (e * (q - (a * m - k))) := by
      intro A B a k m v q e
      have e1 : B ^ (-1 * v) * A ^ (-a * m) * (A ^ q * B ^ v) = A ^ (q - a * m) := by
        rw [mul_comm (A ^ q) (B ^ v), mul_mul_mul_comm, ← zpow_add, ← zpow_add]
        have e2 : -1 * v + v = 0 := by ring
        have e3 : -a * m + q = q - a * m := by ring
        rw [e2, e3, zpow_zero, one_mul]
      rw [e1, ← zpow_mul, ← zpow_mul, ← zpow_add]
      congr 1
      ring
    rw [key]

theorem BitLen_le_of_abs_lt (x : Int) (k : Nat) (h : |x| < 2 ^ k) : BitLen x ≤ k := by
  rw [BitLen_le_iff]
  zify
  exact h

/-- Bound of a response `c * x + r` for a secret `x` of either sign. -/
theorem response_bound_abs (c x r : Int) (a b e : Nat) (hc : 0 ≤ c ∧ c < 2 ^ a)
    (hx : |x| < 2 ^ b) (hr : 0 ≤ r ∧ r < 2 ^ e) (h : a + b ≤ e) :
    |c * x + r| < 2 ^ (e + 1) := by
  have h1 : c * |x| < 2 ^ a * 2 ^ b := by
    calc c * |x| ≤ c * 2 ^ b := mul_le_mul_of_nonneg_left (le_of_lt hx) hc.1
      _ < 2 ^ a * 2 ^ b := mul_lt_mul_of_pos_right hc.2 (by positivity)
  have h2 : (2 : Int) ^ a * 2 ^ b ≤ 2 ^ e := by
    rw [← pow_add]
    exact pow_le_pow_right₀ (by norm_num) h
  have h3 : |c * x| = c * |x| := by rw [abs_mul, abs_of_nonneg hc.1]
  have h4 : |c * x + r| ≤ |c * x| + |r| := abs_add _ _
  rw [abs_of_nonneg hr.1, h3] at h4
  rw [pow_succ]
  omega

/-- Bound of the sum `v5` of the products `d[i] * v[i]` for values `d[i]` of
either sign. -/
theorem sumProducts_abs_bound (D V : Int) (hD : 0 < D) (hV : 0 < V) :
    ∀ (ds vs : List Int) (acc : Int), (∀ d ∈ ds, |d| < D) → (∀ v ∈ vs, 0 ≤ v ∧ v < V) →
      |sumProducts ds vs acc - acc| + ds.length ≤ ds.length * (D * V) := by
  intro ds
  induction ds with
  | nil => intro vs acc _ _; simp [sumProducts]
  | cons d rest ih =>
    intro vs acc hd hv
    have hDV : (1 : Int) ≤ D * V := by nlinarith
    cases vs with
    | nil =>
      simp only [sumProducts, sub_self, abs_zero, zero_add, List.length_cons]
      have h2 : (0 : Int) ≤ (rest.length : Int) := Int.natCast_nonneg _
      push_cast
      nlinarith
    | cons v vrest =>
      rw [sumProducts]
      have hd0 := hd d (List.mem_cons_self _ _)
      have hv0 := hv v (List.mem_cons_self _ _)
      have h1 := ih vrest (acc + d * v)
        (fun x hx => hd x (List.mem_cons_of_mem _ hx))
        (fun x hx => hv x (List.mem_cons_of_mem _ hx))
      have h3 : |d * v| = |d| * v := by rw [abs_mul, abs_of_nonneg hv0.1]
      have h4 : |d| * v + 1 ≤ D * V := by
        have : 0 ≤ |d| := abs_nonneg d
        nlinarith
      have h5 : |sumProducts rest vrest (acc + d * v) - acc|
          ≤ |sumProducts rest vrest (acc + d * v) - (acc + d * v)| + |d * v| := by
        have := abs_add (sumProducts rest vrest (acc + d * v) - (acc + d * v)) (d * v)
        have e : sumProducts rest vrest (acc + d * v) - (acc + d * v) + d * v
            = sumProducts rest vrest (acc + d * v) - acc := by ring
        rw [e] at this
        exact this
      simp only [List.length_cons]
      push_cast
      rw [h3] at h5
      linarith

/-- Every proof built from the commit of a successful `CommitmentsFromSecrets`
passes `VerifyProofStructure`, whatever the signs of the values of the
splitter, when the structure has at most four relations `cRep`, the uint sums
do not wrap, `m`, `mRandomizer` and the challenge lie in their ranges and
every sampled value lies in the range it is drawn from. -/
theorem BuildProof_passes_structure (s : ProofStructure) (rnd : RandomSource) (g : QrGroup)
    (m mRandomizer challenge : Int) (contribs : List Int) (commit : ProofCommit) (p : Proof)
    (hn : s.cRep.length ≤ 4)
    (hw : s.lm + s.ld + 2 + s.lh + s.lstatzk + 1 < 2 ^ 64)
    (hm : 0 ≤ m ∧ m < 2 ^ s.lm)
    (hmr : 0 ≤ mRandomizer ∧ mRandomizer < 2 ^ (s.lm + s.lh + s.lstatzk))
    (hch : 0 ≤ challenge ∧ challenge < 2 ^ s.lh)
    (hrnd : ∀ count bits x, rnd count bits = .ok x → 0 ≤ x ∧ x < 2 ^ bits)
    (hcfs : s.CommitmentsFromSecrets rnd g m mRandomizer = .ok (contribs, commit))
    (hp : s.BuildProof commit challenge = .ok p) :
    s.VerifyProofStructure g p = true := by
  have w1 : wrapUint (s.lm + s.ld + 2 + s.lh + s.lstatzk + 1)
      = s.lm + s.ld + 2 + s.lh + s.lstatzk + 1 := wrapUint_of_isUint hw
  have w2 : wrapUint (s.lm + s.lh + s.lstatzk + 1) = s.lm + s.lh + s.lstatzk + 1 :=
    wrapUint_of_isUint (by unfold IsUint; omega)
  have w3 : wrapUint (s.ld + s.lh + s.lstatzk + 1) = s.ld + s.lh + s.lstatzk + 1 :=
    wrapUint_of_isUint (by unfold IsUint; omega)
  have w4 : wrapUint (s.ld + s.lh + s.lstatzk) = s.ld + s.lh + s.lstatzk :=
    wrapUint_of_isUint (by unfold IsUint; omega)
  have w5 : wrapUint (s.lm + s.lh + s.lstatzk) = s.lm + s.lh + s.lstatzk :=
    wrapUint_of_isUint (by unfold IsUint; omega)
  have w6 : wrapUint (s.lm + s.ld + 2 + s.lh + s.lstatzk)
      = s.lm + s.ld + 2 + s.lh + s.lstatzk := wrapUint_of_isUint (by unfold IsUint; omega)
  obtain ⟨-, splitter, -, -, -, hdR, hv, hv5, hr5, hc, hcm, hcmr, -⟩ :=
    CommitmentsFromSecrets_ok s rnd g m mRandomizer contribs commit hcfs
  obtain ⟨l1, l2, l3, l4, l5⟩ :=
    CommitmentsFromSecrets_lengths s rnd g m mRandomizer contribs commit hcfs
  have hd : ∀ d ∈ commit.d, |d| < 2 ^ s.ld := by
    intro d hd
    have h1 := drawDRandomizers_bitlen s rnd _ _ _ hdR d hd
    have h2 := wrapInt_le_self (s.ld : Int) (Int.ofNat_nonneg _)
    have h3 : BitLen d ≤ s.ld := by exact_mod_cast le_trans h1 h2
    have h4 := (BitLen_le_iff d s.ld).mp h3
    rw [Int.abs_eq_natAbs]
    exact_mod_cast h4
  have hdRr : ∀ r ∈ commit.dRandomizers, 0 ≤ r ∧ r < 2 ^ (s.ld + s.lh + s.lstatzk) := by
    intro r hr
    obtain ⟨i, hi⟩ := drawDRandomizers_mem s rnd _ _ _ hdR r hr
    rw [w4] at hi
    exact hrnd _ _ _ hi
  have hvr : ∀ v ∈ commit.v, 0 ≤ v ∧ v < 2 ^ s.lm := by
    intro v hv1
    obtain ⟨i, hi⟩ := (drawV_mem s rnd _ _ _ _ hv).1 v hv1
    exact hrnd _ _ _ hi
  have hvRr : ∀ r ∈ commit.vRandomizers, 0 ≤ r ∧ r < 2 ^ (s.lm + s.lh + s.lstatzk) := by
    intro r hr
    obtain ⟨i, hi⟩ := (drawV_mem s rnd _ _ _ _ hv).2 r hr
    rw [w5] at hi
    exact hrnd _ _ _ hi
  have hr5r : 0 ≤ commit.v5Randomizer ∧
      commit.v5Randomizer < 2 ^ (s.lm + s.ld + 2 + s.lh + s.lstatzk) := by
    rw [w6] at hr5
    exact hrnd _ _ _ hr5
  have hv5r : |commit.v5| < 2 ^ (s.ld + s.lm + 2) := by
    have b := sumProducts_abs_bound (2 ^ s.ld) (2 ^ s.lm) (by positivity) (by positivity)
      commit.d commit.v 0 hd hvr
    rw [← hv5, sub_zero] at b
    have hlen : (commit.d.length : Int) ≤ 4 := by
      have : commit.d.length ≤ 4 := by omega
      exact_mod_cast this
    have hpos : (0 : Int) < 2 ^ s.ld * 2 ^ s.lm := by positivity
    have hl0 : (0 : Int) ≤ (commit.d.length : Int) := Int.natCast_nonneg _
    have e : (2 : Int) ^ (s.ld + s.lm + 2) = 4 * (2 ^ s.ld * 2 ^ s.lm) := by
      rw [pow_add, pow_add]; ring
    rw [e]
    have h2 : (commit.d.length : Int) * (2 ^ s.ld * 2 ^ s.lm) ≤ 4 * (2 ^ s.ld * 2 ^ s.lm) :=
      mul_le_mul_of_nonneg_right hlen (le_of_lt hpos)
    rcases Nat.eq_zero_or_pos commit.d.length with h0 | h0
    · rw [h0] at b
      simp only [Nat.cast_zero, add_zero, zero_mul] at b
      linarith
    · have h1 : (1 : Int) ≤ (commit.d.length : Int) := by exact_mod_cast h0
      linarith
  have hmresp := response_bound_abs challenge commit.m commit.mRandomizer s.lh s.lm
    (s.lm + s.lh + s.lstatzk) hch (by rw [hcm, abs_of_nonneg hm.1]; exact hm.2)
    (by rw [hcmr]; exact hmr) (by omega)
  have hv5resp := response_bound_abs challenge commit.v5 commit.v5Randomizer s.lh
    (s.ld + s.lm + 2) (s.lm + s.ld + 2 + s.lh + s.lstatzk) hch hv5r hr5r (by omega)
  have hbp := BuildProof_ok s rnd g m mRandomizer contribs commit challenge hcfs
  rw [hbp] at hp
  cases hp
  have hentries : ∀ i, i < s.cRep.length →
      (∃ c, (commit.c.map some)[i]? = some (some c) ∧ BitLen c ≤ BitLen g.N) ∧
      (∃ r, (List.zipWith (fun x r => some (challenge * x + r)) commit.d
          commit.dRandomizers)[i]? = some (some r) ∧
        BitLen r ≤ s.ld + s.lh + s.lstatzk + 1) ∧
      (∃ r, (List.zipWith (fun x r => some (challenge * x + r)) commit.v
          commit.vRandomizers)[i]? = some (some r) ∧
        BitLen r ≤ s.lm + s.lh + s.lstatzk + 1) := by
    intro i hi
    have hci : i < commit.c.length := by omega
    have hdi : i < commit.d.length := by omega
    have hdRi : i < commit.dRandomizers.length := by omega
    have hvi : i < commit.v.length := by omega
    have hvRi : i < commit.vRandomizers.length := by omega
    refine ⟨⟨commit.c[i], ?_, ?_⟩, ⟨challenge * commit.d[i] + commit.dRandomizers[i], ?_, ?_⟩,
      ⟨challenge * commit.v[i] + commit.vRandomizers[i], ?_, ?_⟩⟩
    · simp [List.getElem?_eq_getElem hci]
    · have hr := computeBases_range g _ _ _ hc _ (List.getElem_mem hci)
      apply BitLen_le_of_natAbs_lt
      zify
      rw [abs_of_nonneg hr.1]
      exact hr.2
    · simp [List.getElem?_zipWith, List.getElem?_eq_getElem hdi, List.getElem?_eq_getElem hdRi]
    · exact BitLen_le_of_abs_lt _ _
        (response_bound_abs challenge commit.d[i] commit.dRandomizers[i] s.lh s.ld
          (s.ld + s.lh + s.lstatzk) hch (hd _ (List.getElem_mem hdi))
          (hdRr _ (List.getElem_mem hdRi)) (by omega))
    · simp [List.getElem?_zipWith, List.getElem?_eq_getElem hvi, List.getElem?_eq_getElem hvRi]
    · have hvb := hvr _ (List.getElem_mem hvi)
      exact BitLen_le_of_abs_lt _ _
        (response_bound_abs challenge commit.v[i] commit.vRandomizers[i] s.lh s.lm
          (s.lm + s.lh + s.lstatzk) hch (by rw [abs_of_nonneg hvb.1]; exact hvb.2)
          (hvRr _ (List.getElem_mem hvRi)) (by omega))
  rw [VerifyProofStructure_eq_true_iff, w1, w2, w3]
  exact ⟨by simp [l5], by simp [l1, l2], by simp [l3, l4],
    ⟨_, rfl, BitLen_le_of_abs_lt _ _ hv5resp⟩, ⟨_, rfl, BitLen_le_of_abs_lt _ _ hmresp⟩,
    hentries⟩

/-- The relations stored by `New` for a splitter of 3 or 4 squares. -/
theorem New_relations (a k : Int) (split : SquareSplitter) (lh lstatzk lm : Nat)
    (s : ProofStructure) (hn : split.SquareCount = 3 ∨ split.SquareCount = 4)
    (ha : IsInt64 a) (hs : New a k split lh lstatzk lm = .ok s) :
    ∃ n : Nat, 3 ≤ n ∧ n ≤ 4 ∧ IsInt64 s.a ∧
      s.cRep = (List.range n).map cRepEntry ∧
      s.mCorrect =
        { Lhs := [{ Base := ['R'], Power := -s.k }]
          Rhs := [{ Base := ['S'], Secret := ['v', '5'], Power := -1 },
                  { Base := ['R'], Secret := ['m'], Power := wrapInt (-s.a) }]
                 ++ (List.range n).map mCorrectEntry } := by
  rcases hn with h3 | h4
  · obtain ⟨s1, hs1, h_a, h_k, -, -, -, -, -, h_c, h_m⟩ :=
      newWithParams_ok (wrapInt (a * 4)) (k * 4 - 2) (some split) 3 split.Ld lh lstatzk lm
        (by decide)
    rw [New_three a k split lh lstatzk lm h3, hs1] at hs
    cases hs
    refine ⟨3, by omega, by omega, by rw [h_a]; exact wrapInt_isInt64 _, h_c, ?_⟩
    rw [h_m, h_a, h_k]
    rfl
  · obtain ⟨s1, hs1, h_a, h_k, -, -, -, -, -, h_c, h_m⟩ :=
      newWithParams_ok a k (some split) 4 split.Ld lh lstatzk lm (by decide)
    rw [New_four a k split lh lstatzk lm h4, hs1] at hs
    cases hs
    refine ⟨4, by omega, by omega, by rw [h_a]; exact ha, h_c, ?_⟩
    rw [h_m, h_a, h_k]
    rfl

/-- A successful `CommitmentsFromSecrets` of a structure with at least one
relation `cRep` has reduced modulo a non-zero `N`. -/
theorem CommitmentsFromSecrets_modulus (s : ProofStructure) (rnd : RandomSource) (g : QrGroup)
    (m mRandomizer : Int) (contribs : List Int) (commit : ProofCommit)
    (hpos : 0 < s.cRep.length)
    (hcfs : s.CommitmentsFromSecrets rnd g m mRandomizer = .ok (contribs, commit)) :
    g.N ≠ 0 := by
  obtain ⟨-, -, -, -, -, -, -, -, -, hbases, -⟩ :=
    CommitmentsFromSecrets_ok s rnd g m mRandomizer contribs commit hcfs
  obtain ⟨l1, -, l3, -, -⟩ :=
    CommitmentsFromSecrets_lengths s rnd g m mRandomizer contribs commit hcfs
  rcases hd : commit.d with _ | ⟨d0, ds⟩
  · rw [hd] at l1
    simp at l1
    omega
  · rcases hv : commit.v with _ | ⟨v0, vs⟩
    · rw [hv] at l3
      simp at l3
      omega
    · rw [hd, hv] at hbases
      exact computeBases_ne_zero g d0 v0 ds vs _ hbases

/-- The modular power of a unit is 1 exactly when its computed representative
is `1 mod N`. -/
theorem bigExp_eq_one_iff (x N : Int) (hN : N ≠ 0) (u : (ZMod N.natAbs)ˣ)
    (hu : (x : ZMod N.natAbs) = (u : ZMod N.natAbs)) (y : Int) :
    bigExp x y N = some (1 % N) ↔ u ^ y = 1 := by
  obtain ⟨r, hr, h0, h1, hc⟩ := bigExp_spec x N hN u hu y
  rw [hr, Option.some.injEq]
  constructor
  · intro h
    rw [h, intCast_emod, Int.cast_one] at hc
    exact Units.ext hc.symm
  · intro h
    apply eq_of_intCast_eq N.natAbs r (1 % N) ⟨h0, h1⟩ (emod_range 1 N hN)
    rw [hc, h, intCast_emod, Int.cast_one, Units.val_one]


set_option maxRecDepth 100000 in
/-- C13 fails in two ways. First, at a challenge outside its range: for
`New(1, 45, testSplit{[1, 1, 1], 3, 8}, 256, 128, 256)`, `m = 112` and the
challenge `2 ^ 700` the response for `m` has 707 bits and the proof does not
pass `VerifyProofStructure`. Second, at a stored `a = -2^63`: for
`New(2^61, 2, testSplit{[1, 1, 0], 3, 3}, 256, 128, 256)`, `m = -1` and the
challenge `1`, the squares sum to 2, `delta` is `2^63 - 6`, and
`R ^ (c * (2 - delta))` is 1 modulo `N = 35`, yet the entries for `m` are 12
and 27. -/
theorem hostile_split_claim_fails :
    (New 1 45 (testSplit (.ok [1, 1, 1]) 3 8) 256 128 256 = .ok misbehavingStructure ∧
      Int.gcd exGroup.R exGroup.N = 1 ∧ Int.gcd exGroup.S exGroup.N = 1 ∧
      misbehavingStructure.CommitmentsFromSecrets exRandom exGroup 112 7
        = .ok ([4, 12, 16, 33], misbehavingCommit) ∧
      (misbehavingCommit.d.map (fun x => x * x)).sum
        ≠ misbehavingStructure.a * 112 - misbehavingStructure.k ∧
      ∃ p, misbehavingStructure.BuildProof misbehavingCommit (2 ^ 700) = .ok p ∧
        p.MResponse = some (2 ^ 700 * 112 + 7) ∧ BitLen (2 ^ 700 * 112 + 7) = 707 ∧
        misbehavingStructure.VerifyProofStructure exGroup p = false) ∧
    (New (2 ^ 61) 2 (testSplit (.ok [1, 1, 0]) 3 3) 256 128 256 = .ok overflowSplitStructure ∧
      overflowSplitStructure.CommitmentsFromSecrets exRandom exGroup (-1) 7
        = .ok ([12, 12, 16, 33], overflowCommit) ∧
      (overflowCommit.d.map (fun x => x * x)).sum
        ≠ overflowSplitStructure.a * (-1) - overflowSplitStructure.k ∧
      overflowSplitStructure.BuildProof overflowCommit 1 = .ok overflowSplitProof ∧
      overflowSplitStructure.CommitmentsFromProof exGroup overflowSplitProof 1
        = .ok [27, 12, 16, 33] ∧
      bigExp exGroup.R (1 * ((overflowCommit.d.map (fun x => x * x)).sum
          - (overflowSplitStructure.a * (-1) - overflowSplitStructure.k))) exGroup.N
        = some 1) := by
  refine ⟨⟨rfl, by decide, by decide, by decide, by decide, ?_⟩,
    ⟨rfl, by decide, by decide, by decide, by decide, by decide⟩⟩
  refine ⟨{ Cs := [some 13, some 33, some 3],
            DResponses := [some (2 ^ 700 * 1 + 5), some (2 ^ 700 * 1 + 6),
              some (2 ^ 700 * 1 + 7)],
            VResponses := [some (2 ^ 700 * 8 + 9), some (2 ^ 700 * 10 + 11),
              some (2 ^ 700 * 12 + 13)],
            V5Response := some (2 ^ 700 * 30 + 14), MResponse := some (2 ^ 700 * 112 + 7),
            Ld := 8, A := 4, K := some 178 }, by decide, rfl, by decide, by decide⟩

/-- C13, amended: let `s = New(a, k, splitter, lh, lstatzk, lm)` with
`SquareCount()` 3 or 4 and a stored `a` other than `-2^63`, let `R` and `S` be
invertible modulo `N`, and let `CommitmentsFromSecrets` succeed, so that the
values `d` of the splitter have the right number and size, whatever the sum of
their squares. Then for every challenge `c` the proof is built, the entries of
`CommitmentsFromProof` and `CommitmentsFromSecrets` for the relations `C_i`
agree, and the entries for `m` agree if and only if
`R ^ (c * (sum of d_i^2 - (s.a * m - s.k)))` is 1 modulo `N`; so the vectors
differ whenever the order of `R` does not divide that exponent. If moreover
the uint sums of the bounds do not wrap, `0 ≤ m < 2^lm`,
`0 ≤ mRandomizer < 2^(lm+lh+lstatzk)`, `0 ≤ c < 2^lh` and every sampled value
lies in the range it is drawn from, the proof passes `VerifyProofStructure`. -/
theorem hostile_split_contributions (a k : Int) (split : SquareSplitter) (lh lstatzk lm : Nat)
    (s : ProofStructure) (rnd : RandomSource) (g : QrGroup) (m mRandomizer c : Int)
    (contribs : List Int) (commit : ProofCommit)
    (hn : split.SquareCount = 3 ∨ split.SquareCount = 4)
    (ha : IsInt64 a)
    (hs : New a k split lh lstatzk lm = .ok s)
    (hmin : s.a ≠ -(2 ^ 63))
    (hR : Int.gcd g.R g.N = 1) (hS : Int.gcd g.S g.N = 1)
    (hcfs : s.CommitmentsFromSecrets rnd g m mRandomizer = .ok (contribs, commit)) :
    ∃ p xm ym rest, s.BuildProof commit c = .ok p ∧ contribs = xm :: rest ∧
      s.CommitmentsFromProof g p c = .ok (ym :: rest) ∧ rest.length = s.cRep.length ∧
      (xm = ym ↔
        bigExp g.R (c * ((commit.d.map (fun x => x * x)).sum - (s.a * m - s.k))) g.N
          = some (1 % g.N)) ∧
      (∀ u : (ZMod g.N.natAbs)ˣ, (g.R : ZMod g.N.natAbs) = (u : ZMod g.N.natAbs) →
        ¬ ((orderOf u : Int) ∣ c * ((commit.d.map (fun x => x * x)).sum - (s.a * m - s.k))) →
        s.CommitmentsFromProof g p c ≠ .ok contribs) ∧
      (s.lm + s.ld + 2 + s.lh + s.lstatzk + 1 < 2 ^ 64 → (0 ≤ m ∧ m < 2 ^ s.lm) →
        (0 ≤ mRandomizer ∧ mRandomizer < 2 ^ (s.lm + s.lh + s.lstatzk)) →
        (0 ≤ c ∧ c < 2 ^ s.lh) →
        (∀ count bits x, rnd count bits = .ok x → 0 ≤ x ∧ x < 2 ^ bits) →
        s.VerifyProofStructure g p = true) := by
  obtain ⟨n, hn3, hn4, hsa, hcRep, hmC⟩ := New_relations a k split lh lstatzk lm s hn ha hs
  rw [wrapInt_neg s.a hsa hmin] at hmC
  have hlenRep : s.cRep.length = n := by rw [hcRep]; simp
  have hN : g.N ≠ 0 :=
    CommitmentsFromSecrets_modulus s rnd g m mRandomizer contribs commit (by omega) hcfs
  obtain ⟨uR, huR⟩ := unit_of_gcd g.R g.N hR
  obtain ⟨uS, huS⟩ := unit_of_gcd g.S g.N hS
  obtain ⟨p, xm, ym, rest, hp, hcon, hcfp, hrest, hiff⟩ :=
    contributions_core s n hn4 hcRep hmC rnd g m mRandomizer c contribs commit hN uR uS huR huS
      hcfs
  refine ⟨p, xm, ym, rest, hp, hcon, hcfp, by rw [hrest, hlenRep], ?_, ?_, ?_⟩
  · rw [hiff, bigExp_eq_one_iff g.R g.N hN uR huR]
  · intro u hu hord heq
    have huu : u = uR := Units.ext (by rw [← hu, huR])
    subst huu
    rw [hcfp, hcon] at heq
    have hxy : xm = ym := by
      have := Except.ok.inj heq
      exact (List.cons.inj this).1.symm
    exact hord (orderOf_dvd_iff_zpow_eq_one.mpr (hiff.mp hxy))
  · intro hw hm hmr hch hrnd
    exact BuildProof_passes_structure s rnd g m mRandomizer c contribs commit p (by omega) hw hm
      hmr hch hrnd hcfs hp

set_option maxRecDepth 100000 in
/-- C13, amended, at the misbehaving splitter of
`TestRangeProofMisbehavingSplit`: `New(1, 45, testSplit{[1, 1, 1], 3, 8}, 256,
128, 256)`, `m = 112`, the group `N = 35`, `R = 3`, `S = 4` and the challenge
`1234567`; the entries for `m` are 4 and 3, the other entries agree. -/
theorem hostile_split_contributions_witness :
    (testSplit (.ok [1, 1, 1]) 3 8).SquareCount = 3 ∧ IsInt64 1 ∧
    New 1 45 (testSplit (.ok [1, 1, 1]) 3 8) 256 128 256 = .ok misbehavingStructure ∧
    misbehavingStructure.a ≠ -(2 ^ 63) ∧
    Int.gcd exGroup.R exGroup.N = 1 ∧ Int.gcd exGroup.S exGroup.N = 1 ∧
    misbehavingStructure.CommitmentsFromSecrets exRandom exGroup 112 7
      = .ok ([4, 12, 16, 33], misbehavingCommit) ∧
    ∃ p, misbehavingStructure.BuildProof misbehavingCommit 1234567 = .ok p ∧
      misbehavingStructure.CommitmentsFromProof exGroup p 1234567 = .ok [3, 12, 16, 33] ∧
      misbehavingStructure.VerifyProofStructure exGroup p = true := by
  obtain ⟨p, xm, ym, rest, hp, hcon, hcfp, -, hiff, -, hver⟩ :=
    hostile_split_contributions 1 45 (testSplit (.ok [1, 1, 1]) 3 8) 256 128 256
      misbehavingStructure exRandom exGroup 112 7 1234567 [4, 12, 16, 33] misbehavingCommit
      (Or.inl rfl) (by decide) rfl (by decide) (by decide) (by decide) (by decide)
  have hv := hver (by decide) (by decide) (by decide) (by decide) exRandom_range
  refine ⟨rfl, by decide, rfl, by decide, by decide, by decide, by decide, p, hp, ?_, hv⟩
  have hp2 : misbehavingStructure.BuildProof misbehavingCommit 1234567
      = .ok { Cs := [some 13, some 33, some 3],
              DResponses := [some 1234572, some 1234573, some 1234574],
              VResponses := [some 9876545, some 12345681, some 14814817],
              V5Response := some 37037024, MResponse := some 138271511,
              Ld := 8, A := 4, K := some 178 } := by decide
  rw [hp2] at hp
  cases hp
  decide

/-! ## Rejections of the table lookup -/

/-- C25: for every limit `L` the table is generated, and for every `delta`
that does not fit an int64, or is negative, or is not congruent to 2 modulo 4,
or is greater than `4 * L`, the lookup returns the error "Value outside of
table range", hence no triple. -/
theorem Split_table_rejects (L : Nat) :
    ∃ t, GenerateSquaresTable L = some t ∧ ∀ delta : Int,
      (¬ IsInt64 delta ∨ delta < 0 ∨ delta % 4 ≠ 2 ∨ delta > 4 * (L : Int)) →
      t.Split delta = .error (.err "Value outside of table range") := by
  obtain ⟨t, ht⟩ := GenerateSquaresTable_total L
  obtain ⟨-, hlen⟩ := GenerateSquaresTable_sound L t ht
  refine ⟨t, ht, fun delta h => ?_⟩
  unfold SquaresTable.Split
  simp only
  rw [if_pos]
  by_cases h1 : IsInt64 delta
  · by_cases h2 : delta < 0
    · exact Or.inr (Or.inl h2)
    · rcases h with h | h | h | h
      · exact absurd h1 h
      · exact absurd h h2
      · right; right; right
        rw [Int.tmod_eq_emod (by omega) (by decide)]
        exact h
      · right; right; left
        rw [hlen]
        push_cast
        omega
  · exact Or.inl h1

/-! ## The number of squares of a structure -/

/-- What `newWithParams` returns when it returns: the check on the number of
squares passed, and the structure has one relation `cRep` per square and two
more right-hand terms in its relation for `m`. -/
theorem newWithParams_arity (a k : Int) (split : Option SquareSplitter) (nSplit : Int)
    (ld lh lstatzk lm : Nat) (s : ProofStructure)
    (hs : newWithParams a k split nSplit ld lh lstatzk lm = .ok s) :
    nSplit ≤ 4 ∧ s.cRep.length = nSplit.toNat ∧ s.mCorrect.Rhs.length = s.cRep.length + 2 := by
  by_cases h : nSplit > 4
  · simp [newWithParams, h] at hs
  · obtain ⟨s1, hs1, -, -, -, -, -, -, -, h_c, h_m⟩ :=
      newWithParams_ok a k split nSplit ld lh lstatzk lm (by omega)
    rw [hs1] at hs
    cases hs
    refine ⟨by omega, by rw [h_c]; simp, ?_⟩
    rw [h_m, h_c]
    simp

/-- C24 fails for `New` at a splitter of two squares: `New(1, 45,
testSplit{[1, 1], 2, 8}, 256, 128, 256)` returns a structure with two
relations `cRep` and four right-hand terms in the relation for `m`; only more
than four squares are refused. -/
theorem New_two_squares :
    ∃ s, New 1 45 (testSplit (.ok [1, 1]) 2 8) 256 128 256 = .ok s ∧ s.cRep.length = 2 ∧
      s.mCorrect.Rhs.length = 4 :=
  ⟨_, rfl, rfl, rfl⟩

/-- C24, amended: `New` returns exactly when `SquareCount()` is at most 4, and
the structure then has `max(SquareCount(), 0)` relations `cRep`, so 3 or 4 of
them when `SquareCount()` is 3 or 4; a structure returned by a successful
`ExtractStructure` has 3 or 4 relations `cRep`; in both cases the relation for
`m` has two more right-hand terms than there are relations `cRep`. -/
theorem structure_arity :
    (∀ (a k : Int) (split : SquareSplitter) (lh lstatzk lm : Nat),
      (split.SquareCount ≤ 4 → ∃ s, New a k split lh lstatzk lm = .ok s) ∧
      ∀ s, New a k split lh lstatzk lm = .ok s →
        split.SquareCount ≤ 4 ∧ s.cRep.length = split.SquareCount.toNat ∧
        s.cRep.length ≤ 4 ∧ s.mCorrect.Rhs.length = s.cRep.length + 2 ∧
        ((split.SquareCount = 3 ∨ split.SquareCount = 4) →
          (s.cRep.length = 3 ∨ s.cRep.length = 4))) ∧
    (∀ (p : Proof) (lh lstatzk lm : Nat) (s : ProofStructure),
      p.ExtractStructure lh lstatzk lm = .ok s →
        (s.cRep.length = 3 ∨ s.cRep.length = 4) ∧
        s.mCorrect.Rhs.length = s.cRep.length + 2) := by
  constructor
  · intro a k split lh lstatzk lm
    constructor
    · intro h4
      unfold New
      split
      · obtain ⟨s, hs, -⟩ := newWithParams_ok (wrapInt (a * 4)) (k * 4 - 2) (some split)
          split.SquareCount split.Ld lh lstatzk lm h4
        exact ⟨s, hs⟩
      · obtain ⟨s, hs, -⟩ := newWithParams_ok a k (some split) split.SquareCount split.Ld lh
          lstatzk lm h4
        exact ⟨s, hs⟩
    · intro s hs
      have key : ∀ a1 k1, newWithParams a1 k1 (some split) split.SquareCount split.Ld lh lstatzk
          lm = .ok s →
          split.SquareCount ≤ 4 ∧ s.cRep.length = split.SquareCount.toNat ∧
          s.cRep.length ≤ 4 ∧ s.mCorrect.Rhs.length = s.cRep.length + 2 ∧
          ((split.SquareCount = 3 ∨ split.SquareCount = 4) →
            (s.cRep.length = 3 ∨ s.cRep.length = 4)) := by
        intro a1 k1 h
        obtain ⟨h1, h2, h3⟩ := newWithParams_arity a1 k1 _ _ _ _ _ _ s h
        refine ⟨h1, h2, by omega, h3, fun hn => ?_⟩
        rcases hn with hn | hn <;> rw [hn] at h2 <;> simp at h2 <;> omega
      unfold New at hs
      split at hs
      · exact key _ _ hs
      · exact key _ _ hs
  · intro p lh lstatzk lm s hs
    unfold Proof.ExtractStructure at hs
    split at hs
    · cases hs
    · split at hs
      · cases hs
      · rename_i hcond
        push_neg at hcond
        obtain ⟨h1, h2, h3⟩ := newWithParams_arity _ _ _ _ _ _ _ _ s hs
        rw [Int.toNat_ofNat] at h2
        exact ⟨by omega, h3⟩

/-! ## The statements accepted by `ProvesStatement` -/

theorem wrapStructure_eq : New (2 ^ 62) 0 exTable.toSplitter 256 128 256 = .ok wrapStructure :=
  rfl

set_option maxRecDepth 100000 in
/-- C28 fails for proofs with three bases: the proof built by
`New(2^62, 0, table, 256, 128, 256)` for `m = 45` carries `A = 0` (`a *= 4`
wraps) and `K = -2`, and `ProvesStatement` accepts it for `(2^62, 0)` and for
`(0, 0)`. -/
theorem ProvesStatement_accepts_two_statements :
    wrapStructure.CommitmentsFromSecrets exRandom exGroup 45 7
      = .ok ([17, 12, 16, 33], exCommit) ∧
    wrapStructure.BuildProof exCommit 1234567 = .ok wrapProof ∧
    wrapProof.Cs.length = 3 ∧ IsInt64 (2 ^ 62) ∧ IsInt64 0 ∧
    wrapProof.ProvesStatement (2 ^ 62) 0 = .ok true ∧
    wrapProof.ProvesStatement 0 0 = .ok true ∧ (2 : Int) ^ 62 ≠ 0 := by
  refine ⟨by decide, by decide, by decide, by decide, by decide, by decide, by decide,
    by decide⟩

/-- What an accepting `ProvesStatement` compared. -/
theorem ProvesStatement_true (p : Proof) (a k : Int) (h : p.ProvesStatement a k = .ok true) :
    (if p.Cs.length = 3 then wrapInt (a * 4) else a) = p.A ∧
      p.K = some (if p.Cs.length = 3 then k * 4 - 2 else k) := by
  unfold Proof.ProvesStatement at h
  simp only at h
  by_cases ha : (if p.Cs.length = 3 then wrapInt (a * 4) else a) = p.A
  · rw [if_pos ha] at h
    cases hK : p.K with
    | none => rw [hK] at h; cases h
    | some pK =>
      rw [hK] at h
      simp only [Except.ok.injEq, decide_eq_true_eq] at h
      exact ⟨ha, by rw [h]⟩
  · rw [if_neg ha] at h
    cases h

/-- C28, amended: if `ProvesStatement(a1, k1)` and `ProvesStatement(a2, k2)`
both return true for machine integers `a1`, `a2`, then `k1 = k2`; `a1 = a2`
for a proof whose number of bases is not 3; and for a proof with three bases
`4 * a1` and `4 * a2` agree as machine integers, that is `a1` and `a2` are
congruent modulo `2^62`, so `a1 = a2` when neither product overflows. -/
theorem ProvesStatement_unique (p : Proof) (a1 a2 k1 k2 : Int)
    (h1 : p.ProvesStatement a1 k1 = .ok true) (h2 : p.ProvesStatement a2 k2 = .ok true) :
    k1 = k2 ∧ (p.Cs.length ≠ 3 → a1 = a2) ∧
      (p.Cs.length = 3 → wrapInt (a1 * 4) = wrapInt (a2 * 4) ∧ (a1 - a2) % 2 ^ 62 = 0 ∧
        (IsInt64 (4 * a1) → IsInt64 (4 * a2) → a1 = a2)) := by
  obtain ⟨ha1, hk1⟩ := ProvesStatement_true p a1 k1 h1
  obtain ⟨ha2, hk2⟩ := ProvesStatement_true p a2 k2 h2
  rw [hk1, Option.some.injEq] at hk2
  by_cases h3 : p.Cs.length = 3
  · simp only [if_pos h3] at ha1 ha2 hk2
    have hw : wrapInt (a1 * 4) = wrapInt (a2 * 4) := by rw [ha1, ha2]
    refine ⟨by omega, fun h => absurd h3 h, fun _ => ⟨hw, ?_, ?_⟩⟩
    · unfold wrapInt at hw
      omega
    · intro i1 i2
      have e1 : a1 * 4 = 4 * a1 := by ring
      have e2 : a2 * 4 = 4 * a2 := by ring
      rw [e1, e2, wrapInt_of_isInt64 i1, wrapInt_of_isInt64 i2] at hw
      omega
  · simp only [if_neg h3] at ha1 ha2 hk2
    exact ⟨hk2, fun _ => by rw [ha1, ha2], fun h => absurd h h3⟩

/-- C28, amended, at the proof `wrapProof` with three bases, `A = 0` and
`K = -2`, and the two statements `(2^62, 0)` and `(0, 0)` it is accepted for:
`2^62` and `0` are congruent modulo `2^62`. -/
theorem ProvesStatement_unique_witness :
    wrapProof.ProvesStatement (2 ^ 62) 0 = .ok true ∧
    wrapProof.ProvesStatement 0 0 = .ok true ∧
    ((0 : Int) = 0 ∧ (wrapProof.Cs.length ≠ 3 → (2 : Int) ^ 62 = 0) ∧
      (wrapProof.Cs.length = 3 →
        wrapInt (2 ^ 62 * 4) = wrapInt (0 * 4) ∧ ((2 : Int) ^ 62 - 0) % 2 ^ 62 = 0 ∧
        (IsInt64 (4 * 2 ^ 62) → IsInt64 (4 * 0) → (2 : Int) ^ 62 = 0))) :=
  ⟨by decide, by decide,
    ProvesStatement_unique wrapProof (2 ^ 62) 0 0 0 (by decide) (by decide)⟩

/-! ## The responses of `BuildProof` -/

/-- The loop of `BuildProof` over the secrets `xs` when every secret has its
randomizer. -/
theorem responses_spec (challenge : Int) :
    ∀ (xs rs : List Int), xs.length ≤ rs.length →
      ∃ out, responses challenge xs rs = .ok out ∧ out.length = xs.length ∧
        ∀ (i : Nat) (x r : Int), xs[i]? = some x → rs[i]? = some r →
          out[i]? = some (some (challenge * x + r)) := by
  intro xs
  induction xs with
  | nil =>
    intro rs _
    refine ⟨[], ?_, rfl, ?_⟩
    · cases rs <;> rfl
    · intro i x r hx; simp at hx
  | cons x rest ih =>
    intro rs hlen
    cases rs with
    | nil => simp at hlen
    | cons r rrest =>
      obtain ⟨out, hout, hl, hall⟩ := ih rrest (by simpa using hlen)
      refine ⟨some (challenge * x + r) :: out, ?_, by simp [hl], ?_⟩
      · unfold responses
        rw [hout]
      · intro i y q hy hq
        cases i with
        | zero =>
          simp only [List.getElem?_cons_zero, Option.some.injEq] at hy hq ⊢
          rw [hy, hq]
        | succ j =>
          simp only [List.getElem?_cons_succ] at hy hq ⊢
          exact hall j y q hy hq

/-- C22: for every structure `s`, every commit in which each `d[i]` and
`v[i]` has its randomizer, and every challenge `c`, `BuildProof` returns a
proof with `MResponse = c * m + mRandomizer`,
`V5Response = c * v5 + v5Randomizer`, `DResponses[i] = c * d[i] +
dRandomizers[i]` and `VResponses[i] = c * v[i] + vRandomizers[i]` for every
`i`, as integers without reduction, `Cs` equal to the bases of the commit
element by element, and `(A, K, Ld)` equal to `(s.a, s.k, s.ld)`. -/
theorem BuildProof_spec (s : ProofStructure) (commit : ProofCommit) (c : Int)
    (hd : commit.d.length ≤ commit.dRandomizers.length)
    (hv : commit.v.length ≤ commit.vRandomizers.length) :
    ∃ p, s.BuildProof commit c = .ok p ∧
      p.MResponse = some (c * commit.m + commit.mRandomizer) ∧
      p.V5Response = some (c * commit.v5 + commit.v5Randomizer) ∧
      p.DResponses.length = commit.d.length ∧
      (∀ (i : Nat) (x r : Int), commit.d[i]? = some x → commit.dRandomizers[i]? = some r →
        p.DResponses[i]? = some (some (c * x + r))) ∧
      p.VResponses.length = commit.v.length ∧
      (∀ (i : Nat) (x r : Int), commit.v[i]? = some x → commit.vRandomizers[i]? = some r →
        p.VResponses[i]? = some (some (c * x + r))) ∧
      p.Cs = commit.c.map some ∧ p.A = s.a ∧ p.K = some s.k ∧ p.Ld = s.ld := by
  obtain ⟨dr, hdr, hdl, hdall⟩ := responses_spec c commit.d commit.dRandomizers hd
  obtain ⟨vr, hvr, hvl, hvall⟩ := responses_spec c commit.v commit.vRandomizers hv
  refine ⟨{ Cs := commit.c.map some, DResponses := dr, VResponses := vr,
            V5Response := some (c * commit.v5 + commit.v5Randomizer),
            MResponse := some (c * commit.m + commit.mRandomizer),
            Ld := s.ld, A := s.a, K := some s.k }, ?_, rfl, rfl, hdl, hdall, hvl, hvall, rfl,
    rfl, rfl, rfl⟩
  unfold ProofStructure.BuildProof
  rw [hdr, hvr]

/-- C22 at the commit of the running example and the challenge `1234567`. -/
theorem BuildProof_spec_witness :
    exCommit.d.length ≤ exCommit.dRandomizers.length ∧
    exCommit.v.length ≤ exCommit.vRandomizers.length ∧
    ∃ p, exStructure.BuildProof exCommit 1234567 = .ok p ∧
      p.MResponse = some (1234567 * 45 + 7) ∧ p.V5Response = some (1234567 * 18 + 14) ∧
      p.DResponses[1]? = some (some (1234567 * 1 + 6)) ∧
      p.Cs = [some 13, some 33, some 1] ∧ p.A = 4 ∧ p.K = some 178 ∧ p.Ld = 3 := by
  obtain ⟨p, hp, h1, h2, -, h4, -, -, h7, h8, h9, h10⟩ :=
    BuildProof_spec exStructure exCommit 1234567 (by decide) (by decide)
  exact ⟨by decide, by decide, p, hp, h1, h2, h4 1 1 6 (by decide) (by decide), h7, h8, h9, h10⟩

/-! ## Invariants of the commit -/

/-- The sum computed by the third loop of `CommitmentsFromSecrets`. -/
theorem sumProducts_eq : ∀ (ds vs : List Int) (acc : Int),
    sumProducts ds vs acc = acc + (List.zipWith (fun d v => d * v) ds vs).sum := by
  intro ds
  induction ds with
  | nil => intro vs acc; simp [sumProducts]
  | cons d rest ih =>
    intro vs acc
    cases vs with
    | nil => simp [sumProducts]
    | cons v vrest =>
      rw [sumProducts, ih]
      simp only [List.zipWith_cons_cons, List.sum_cons]
      ring

/-- The modular exponentiation for a non-negative exponent and a non-zero
modulus: the power modulo `|N|`. -/
theorem bigExp_of_nonneg (x y N : Int) (hN : N ≠ 0) (hy : 0 ≤ y) :
    bigExp x y N = some (x ^ y.toNat % (N.natAbs : Int)) := by
  have hn : N.natAbs ≠ 0 := Int.natAbs_ne_zero.mpr hN
  have hpos : (0 : Int) < (N.natAbs : Int) := by
    have := Int.natAbs_pos.mpr hN
    exact_mod_cast this
  unfold bigExp
  simp only
  rw [if_neg hn, if_pos hy, powMod_eq]
  congr 1
  rw [Int.natCast_mod, Nat.cast_pow, Int.toNat_of_nonneg (Int.emod_nonneg _ (ne_of_gt hpos))]
  exact (Int.ModEq.pow y.toNat (Int.mod_modEq x _))

/-- The entries of the fourth loop of `CommitmentsFromSecrets`. -/
theorem computeBases_get (g : QrGroup) :
    ∀ (ds vs cs : List Int), computeBases g ds vs = .ok cs →
      ∀ (i : Nat) (d v : Int), ds[i]? = some d → vs[i]? = some v →
        ∃ x y, bigExp g.R d g.N = some x ∧ bigExp g.S v g.N = some y ∧
          cs[i]? = some (x * y % g.N) := by
  intro ds
  induction ds with
  | nil => intro vs cs _ i d v hd; simp at hd
  | cons d0 rest ih =>
    intro vs cs h i d v hd hv
    cases vs with
    | nil => simp at hv
    | cons v0 vrest =>
      rw [computeBases] at h
      split at h
      · rename_i x y hx hy
        split at h
        · cases h
        · split at h
          · cases h
          · rename_i cs1 hcs1
            cases h
            cases i with
            | zero =>
              simp only [List.getElem?_cons_zero, Option.some.injEq] at hd hv ⊢
              subst hd hv
              exact ⟨x, y, hx, hy, rfl⟩
            | succ j =>
              simp only [List.getElem?_cons_succ] at hd hv ⊢
              exact ih vrest cs1 hcs1 j d v hd hv
      · cases h

/-- C21: for every successful `CommitmentsFromSecrets(g, m, mRandomizer)` with
`N > 1`, non-negative values `d[i]` and a random source that returns values
in the range they are drawn from, the commit satisfies
`v5 = sum of d[i] * v[i]` as integers, its arrays `c`, `d`, `v`,
`dRandomizers`, `vRandomizers` all have as many entries as there are relations
`cRep`, it keeps the caller's `m` and `mRandomizer`, and for every `i` the
base `c[i]` is `R ^ d[i] * S ^ v[i]` modulo `N`, with `0 ≤ c[i] < N`. -/
theorem CommitmentsFromSecrets_commit_invariants (s : ProofStructure) (rnd : RandomSource)
    (g : QrGroup) (m mRandomizer : Int) (contribs : List Int) (commit : ProofCommit)
    (hN : 1 < g.N)
    (hrnd : ∀ count bits x, rnd count bits = .ok x → 0 ≤ x ∧ x < 2 ^ bits)
    (hcfs : s.CommitmentsFromSecrets rnd g m mRandomizer = .ok (contribs, commit))
    (hd : ∀ d ∈ commit.d, 0 ≤ d) :
    commit.v5 = (List.zipWith (fun d v => d * v) commit.d commit.v).sum ∧
    commit.c.length = s.cRep.length ∧ commit.d.length = s.cRep.length ∧
    commit.v.length = s.cRep.length ∧ commit.dRandomizers.length = s.cRep.length ∧
    commit.vRandomizers.length = s.cRep.length ∧
    commit.m = m ∧ commit.mRandomizer = mRandomizer ∧
    ∀ i, i < s.cRep.length → ∃ c d v, commit.c[i]? = some c ∧ commit.d[i]? = some d ∧
      commit.v[i]? = some v ∧ 0 ≤ d ∧ 0 ≤ v ∧
      c = g.R ^ d.toNat * g.S ^ v.toNat % g.N ∧ 0 ≤ c ∧ c < g.N := by
  obtain ⟨-, splitter, -, -, -, -, hv, hv5, -, hc, hcm, hcmr, -⟩ :=
    CommitmentsFromSecrets_ok s rnd g m mRandomizer contribs commit hcfs
  obtain ⟨l1, l2, l3, l4, l5⟩ :=
    CommitmentsFromSecrets_lengths s rnd g m mRandomizer contribs commit hcfs
  have hN0 : g.N ≠ 0 := by omega
  have habs : (g.N.natAbs : Int) = g.N := by
    rw [Int.natCast_natAbs, abs_of_pos (by omega)]
  refine ⟨by rw [hv5, sumProducts_eq, zero_add], l5, l1, l3, l2, l4, hcm, hcmr, ?_⟩
  intro i hi
  have hdi : i < commit.d.length := by omega
  have hvi : i < commit.v.length := by omega
  have hdn := hd _ (List.getElem_mem hdi)
  have hvn : 0 ≤ commit.v[i] := by
    obtain ⟨j, hj⟩ := (drawV_mem s rnd _ _ _ _ hv).1 _ (List.getElem_mem hvi)
    exact (hrnd _ _ _ hj).1
  obtain ⟨x, y, hx, hy, hci⟩ := computeBases_get g _ _ _ hc i commit.d[i] commit.v[i]
    (List.getElem?_eq_getElem hdi) (List.getElem?_eq_getElem hvi)
  rw [bigExp_of_nonneg _ _ _ hN0 hdn, Option.some.injEq, habs] at hx
  rw [bigExp_of_nonneg _ _ _ hN0 hvn, Option.some.injEq, habs] at hy
  refine ⟨_, _, _, hci, List.getElem?_eq_getElem hdi, List.getElem?_eq_getElem hvi, hdn, hvn,
    ?_, Int.emod_nonneg _ hN0, Int.emod_lt_of_pos _ (by omega)⟩
  rw [← hx, ← hy, ← Int.mul_emod]

set_option maxRecDepth 100000 in
/-- C21 at the running example: `N = 35`, `R = 3`, `S = 4`, `m = 45`. -/
theorem CommitmentsFromSecrets_commit_invariants_witness :
    (1 : Int) < exGroup.N ∧
    exStructure.CommitmentsFromSecrets exRandom exGroup 45 7
      = .ok ([27, 12, 16, 33], exCommit) ∧
    (∀ d ∈ exCommit.d, 0 ≤ d) ∧
    exCommit.v5 = (List.zipWith (fun d v => d * v) exCommit.d exCommit.v).sum ∧
    exCommit.c[1]? = some (exGroup.R ^ 1 * exGroup.S ^ 10 % exGroup.N) :=
  ⟨by decide, exCommit_eq, by decide,
    (CommitmentsFromSecrets_commit_invariants exStructure exRandom exGroup 45 7
      [27, 12, 16, 33] exCommit (by decide) exRandom_range exCommit_eq (by decide)).1,
    by decide⟩

/-! ## The lookups of the verifier -/

/-- C29: for every structure with at most four relations `cRep` and every
proof that passes `VerifyProofStructure`, the names that the relations built
by `newWithParams` refer to resolve to present values in the proof:
`Base("C" + i)`, `ProofResult("d" + i)` and `ProofResult("v" + i)` for every
`i` below the number of relations, `ProofResult("v5")` and
`ProofResult("m")`; `Exp` resolves `"C" + i` as well. -/
theorem VerifyProofStructure_guards_lookups (s : ProofStructure) (g : QrGroup) (p : Proof)
    (hn : s.cRep.length ≤ 4) (hv : s.VerifyProofStructure g p = true) :
    (∀ i, i < s.cRep.length →
      (∃ x, p.Cs[i]? = some (some x) ∧ p.Base (sprintfD 'C' i) = .ok (some x) ∧
        ∀ ret e N, p.Exp ret (sprintfD 'C' i) e N = .ok ((bigExp x e N).getD ret, true)) ∧
      (∃ x, p.DResponses[i]? = some (some x) ∧
        p.ProofResult (sprintfD 'd' i) = .ok (some x)) ∧
      (∃ x, p.VResponses[i]? = some (some x) ∧
        p.ProofResult (sprintfD 'v' i) = .ok (some x))) ∧
    (∃ x, p.V5Response = some x ∧ p.ProofResult ['v', '5'] = .ok (some x)) ∧
    (∃ x, p.MResponse = some x ∧ p.ProofResult ['m'] = .ok (some x)) := by
  obtain ⟨l1, l2, l3, ⟨v5, hv5, -⟩, ⟨m, hm, -⟩, hall⟩ :=
    (VerifyProofStructure_eq_true_iff s g p).mp hv
  refine ⟨fun i hi => ?_, ⟨v5, hv5, ?_⟩, ⟨m, hm, ?_⟩⟩
  · obtain ⟨⟨c, hc, -⟩, ⟨d, hd, -⟩, ⟨v, hvi, -⟩⟩ := hall i hi
    have hb : p.Base (sprintfD 'C' i) = .ok (some c) := by
      rw [proof_Base_C p i (by omega) (by omega), hc]
      rfl
    refine ⟨⟨c, hc, hb, fun ret e N => ?_⟩, ⟨d, hd, ?_⟩, ⟨v, hvi, ?_⟩⟩
    · unfold Proof.Exp
      rw [hb]
    · rw [proof_ProofResult_d p i (by omega) (by omega), hd]
      rfl
    · rw [proof_ProofResult_v p i (by omega) (by omega), hvi]
      rfl
  · unfold Proof.ProofResult
    rw [if_neg (by decide), if_pos rfl, hv5]
  · unfold Proof.ProofResult
    rw [if_pos rfl, hm]

/-- C29 at the structure and the proof of the running example. -/
theorem VerifyProofStructure_guards_lookups_witness :
    exStructure.cRep.length ≤ 4 ∧ exStructure.VerifyProofStructure exGroup exProof = true ∧
    exProof.Base ['C', '2'] = .ok (some 1) ∧
    exProof.ProofResult ['d', '2'] = .ok (some 7) ∧
    (∃ x, exProof.V5Response = some x ∧ exProof.ProofResult ['v', '5'] = .ok (some x)) := by
  have h := VerifyProofStructure_guards_lookups exStructure exGroup exProof (by decide)
    (by decide)
  obtain ⟨⟨x, hx, hb, -⟩, ⟨y, hy, hd⟩, -⟩ := h.1 2 (by decide)
  cases hx
  cases hy
  exact ⟨by decide, by decide, hb, hd, h.2.1⟩

/-- The second loop of `commitmentsFromProof` finishes when every right-hand
term has a present response and a base that the lookup resolves. -/
theorem proofProduct_total (g : QrGroup) (bases : BaseLookup) (pd : ProofLookup) :
    ∀ (rhs : List RhsContribution) (acc : Int),
      (∀ t ∈ rhs, (∃ r, pd.ProofResult t.Secret = .ok (some r)) ∧
        ∀ e, ∃ z, bases.Exp 0 t.Base e g.N = .ok (z, true)) →
      ∃ r, proofProduct g bases pd rhs acc = .ok r := by
  intro rhs
  induction rhs with
  | nil => intro acc _; exact ⟨acc, rfl⟩
  | cons t rest ih =>
    intro acc hall
    obtain ⟨⟨r, hr⟩, hexp⟩ := hall t (List.mem_cons_self _ _)
    obtain ⟨z, hz⟩ := hexp (t.Power * r)
    obtain ⟨out, hout⟩ := ih (acc * z % g.N) (fun u hu => hall u (List.mem_cons_of_mem _ hu))
    exact ⟨out, by simp only [proofProduct, hr, hz]; exact hout⟩

/-- The first loop of `commitmentsFromProof` finishes when the lookup resolves
the base of every left-hand term. -/
theorem lhsProduct_total (g : QrGroup) (bases : BaseLookup) :
    ∀ (lhs : List LhsContribution) (acc : Int),
      (∀ t ∈ lhs, ∀ e, ∃ z, bases.Exp 0 t.Base e g.N = .ok (z, true)) →
      ∃ r, lhsProduct g bases lhs acc = .ok r := by
  intro lhs
  induction lhs with
  | nil => intro acc _; exact ⟨acc, rfl⟩
  | cons t rest ih =>
    intro acc hall
    obtain ⟨z, hz⟩ := hall t (List.mem_cons_self _ _) t.Power
    obtain ⟨out, hout⟩ := ih (acc * z % g.N) (fun u hu => hall u (List.mem_cons_of_mem _ hu))
    exact ⟨out, by simp only [lhsProduct, hz]; exact hout⟩

/-- A relation all of whose names resolve is evaluated by the verifier without
a fault of a lookup: it appends its contribution, or the inverse of its
left-hand side does not exist. -/
theorem commitmentsFromProof_total (rep : qrRepresentationProofStructure) (g : QrGroup)
    (list : List Int) (c : Int) (bases : BaseLookup) (pd : ProofLookup)
    (hl : ∀ t ∈ rep.Lhs, ∀ e, ∃ z, bases.Exp 0 t.Base e g.N = .ok (z, true))
    (hr : ∀ t ∈ rep.Rhs, (∃ r, pd.ProofResult t.Secret = .ok (some r)) ∧
      ∀ e, ∃ z, bases.Exp 0 t.Base e g.N = .ok (z, true)) :
    (∃ x, rep.commitmentsFromProof g list c bases pd = .ok (list ++ [x])) ∨
      rep.commitmentsFromProof g list c bases pd = .error (.crash "no inverse") := by
  obtain ⟨lhs, hlhs⟩ := lhsProduct_total g bases rep.Lhs 1 hl
  unfold qrRepresentationProofStructure.commitmentsFromProof
  rw [hlhs]
  cases hs : bigExp lhs (-c) g.N with
  | none =>
    right
    simp only [hs]
  | some start =>
    obtain ⟨r, hr1⟩ := proofProduct_total g bases pd rep.Rhs start hr
    left
    exact ⟨r, by simp only [hs, hr1]⟩

/-- For the relations built by `newWithParams` for
`n ≤ 4` squares: on a proof that passes `VerifyProofStructure`,
`CommitmentsFromProof` meets no absent base and no absent response; it returns
its vector, or stops because a left-hand side has no inverse modulo `N`. -/
theorem CommitmentsFromProof_lookups_present (s : ProofStructure) (n : Nat) (hn4 : n ≤ 4)
    (hcRep : s.cRep = (List.range n).map cRepEntry)
    (k1 p1 p2 : Int)
    (hmC : s.mCorrect =
      { Lhs := [{ Base := ['R'], Power := k1 }]
        Rhs := [{ Base := ['S'], Secret := ['v', '5'], Power := p1 },
                { Base := ['R'], Secret := ['m'], Power := p2 }]
               ++ (List.range n).map mCorrectEntry })
    (g : QrGroup) (p : Proof) (c : Int) (hv : s.VerifyProofStructure g p = true) :
    (∃ out, s.CommitmentsFromProof g p c = .ok out) ∨
      s.CommitmentsFromProof g p c = .error (.crash "no inverse") := by
  have hlen : s.cRep.length = n := by rw [hcRep]; simp
  obtain ⟨-, -, -, ⟨v5, hv5r, -⟩, ⟨m, hmr, -⟩, hall⟩ :=
    (VerifyProofStructure_eq_true_iff s g p).mp hv
  rw [hlen] at hall
  have hv5 : p.ProofResult ['v', '5'] = .ok (some v5) := by
    unfold Proof.ProofResult
    rw [if_neg (by decide), if_pos rfl, hv5r]
  have hm : p.ProofResult ['m'] = .ok (some m) := by
    unfold Proof.ProofResult
    rw [if_pos rfl, hmr]
  have hC : ∀ i, i < n →
      (∃ x, p.Base (sprintfD 'C' i) = .ok (some x)) ∧
      (∃ x, p.ProofResult (sprintfD 'd' i) = .ok (some x)) ∧
      (∃ x, p.ProofResult (sprintfD 'v' i) = .ok (some x)) := by
    intro i hi
    obtain ⟨⟨c, hc, -⟩, ⟨d, hd, -⟩, ⟨v, hvi, -⟩⟩ := hall i hi
    have li : i < 4 := by omega
    have l1 : i < p.Cs.length := by
      by_contra hge
      rw [List.getElem?_eq_none (by omega)] at hc
      cases hc
    have l2 : i < p.DResponses.length := by
      by_contra hge
      rw [List.getElem?_eq_none (by omega)] at hd
      cases hd
    have l3 : i < p.VResponses.length := by
      by_contra hge
      rw [List.getElem?_eq_none (by omega)] at hvi
      cases hvi
    exact ⟨⟨c, by rw [proof_Base_C p i li l1, hc]; rfl⟩,
      ⟨d, by rw [proof_ProofResult_d p i li l2, hd]; rfl⟩,
      ⟨v, by rw [proof_ProofResult_v p i li l3, hvi]; rfl⟩⟩
  have resG : ∀ name b, g.Base name = some b →
      ∀ e, ∃ z, (NewBaseMerge g p.toBaseLookup).Exp 0 name e g.N = .ok (z, true) := by
    intro name b hb e
    exact ⟨(bigExp b e g.N).getD 0, by simp [NewBaseMerge, QrGroup.Exp, hb]⟩
  have resC : ∀ i, i < n →
      ∀ e, ∃ z, (NewBaseMerge g p.toBaseLookup).Exp 0 (sprintfD 'C' i) e g.N
        = .ok (z, true) := by
    intro i hi e
    obtain ⟨⟨x, hx⟩, -⟩ := hC i hi
    exact ⟨(bigExp x e g.N).getD 0,
      by simp [NewBaseMerge, QrGroup.Exp, group_Base_C g i, Proof.toBaseLookup, Proof.Exp, hx]⟩
  have hm1 := commitmentsFromProof_total s.mCorrect g [] c (NewBaseMerge g p.toBaseLookup)
    p.toProofLookup
    (by
      intro t ht
      rw [hmC] at ht
      simp only [List.mem_singleton] at ht
      subst ht
      exact resG ['R'] g.R rfl)
    (by
      intro t ht
      rw [hmC] at ht
      simp only [List.mem_append, List.mem_cons, List.mem_singleton, List.not_mem_nil,
        or_false, List.mem_map, List.mem_range] at ht
      rcases ht with (rfl | rfl) | ⟨i, hi, rfl⟩
      · exact ⟨⟨v5, hv5⟩, resG ['S'] g.S rfl⟩
      · exact ⟨⟨m, hm⟩, resG ['R'] g.R rfl⟩
      · obtain ⟨-, ⟨d, hd⟩, -⟩ := hC i hi
        exact ⟨⟨d, hd⟩, resC i hi⟩)
  have hreps : ∀ (reps : List qrRepresentationProofStructure) (list : List Int),
      (∀ rep ∈ reps, rep ∈ s.cRep) →
      (∃ out, cRepFromProof g c (NewBaseMerge g p.toBaseLookup) p reps list = .ok out) ∨
        cRepFromProof g c (NewBaseMerge g p.toBaseLookup) p reps list
          = .error (.crash "no inverse") := by
    intro reps
    induction reps with
    | nil => intro list _; exact Or.inl ⟨list, rfl⟩
    | cons rep rest ih =>
      intro list hall
      have hrep := hall rep (List.mem_cons_self _ _)
      rw [hcRep, List.mem_map] at hrep
      obtain ⟨i, hi, rfl⟩ := hrep
      have hi : i < n := List.mem_range.mp hi
      obtain ⟨-, ⟨d, hd⟩, ⟨v, hvv⟩⟩ := hC i hi
      rcases commitmentsFromProof_total (cRepEntry i) g list c (NewBaseMerge g p.toBaseLookup)
        p.toProofLookup
        (by
          intro t ht
          simp only [cRepEntry, List.mem_singleton] at ht
          subst ht
          exact resC i hi)
        (by
          intro t ht
          simp only [cRepEntry, List.mem_cons, List.mem_singleton, List.not_mem_nil,
            or_false] at ht
          rcases ht with rfl | rfl
          · exact ⟨⟨d, hd⟩, resG ['R'] g.R rfl⟩
          · exact ⟨⟨v, hvv⟩, resG ['S'] g.S rfl⟩) with ⟨x, hx⟩ | herr
      · rw [cRepFromProof, hx]
        exact ih _ (fun r hr => hall r (List.mem_cons_of_mem _ hr))
      · rw [cRepFromProof, herr]
        exact Or.inr rfl
  unfold ProofStructure.CommitmentsFromProof
  simp only
  rcases hm1 with ⟨x, hx⟩ | herr
  · rw [hx]
    exact hreps s.cRep _ (fun r hr => hr)
  · rw [herr]
    exact Or.inr rfl

/-! ## The entries filled by the enumeration -/

/-- A property of the table that every assignment of the enumeration keeps is
kept by the innermost loop. -/
theorem tableLoopK_preserves (Inv : SquaresTable → Prop) (limit i j : Nat)
    (hset : ∀ (t : SquaresTable) (k : Nat), Inv t → i * i + j * j + k * k ≤ 4 * limit →
      (i * i + j * j + k * k) % 4 = 2 →
      Inv (t.set ((i * i + j * j + k * k - 2) / 4) [(i : Int), (j : Int), (k : Int)])) :
    ∀ (fuel k : Nat) (t t1 : SquaresTable), tableLoopK limit i j fuel k t = some t1 →
      Inv t → Inv t1 := by
  intro fuel
  induction fuel with
  | zero => intro k t t1 h; simp [tableLoopK] at h
  | succ fuel ih =>
    intro k t t1 h hs
    unfold tableLoopK at h
    split at h
    · rename_i hle
      simp only at h
      split at h
      · exact ih _ _ _ h hs
      · rename_i hmod
        have hm : (i * i + j * j + k * k) % 4 = 2 := by simpa using hmod
        exact ih _ _ _ h (hset t k hs hle hm)
    · cases h
      exact hs

theorem tableLoopJ_preserves (Inv : SquaresTable → Prop) (limit i : Nat)
    (hset : ∀ (t : SquaresTable) (j k : Nat), Inv t → i * i + j * j + k * k ≤ 4 * limit →
      (i * i + j * j + k * k) % 4 = 2 →
      Inv (t.set ((i * i + j * j + k * k - 2) / 4) [(i : Int), (j : Int), (k : Int)])) :
    ∀ (fuel j : Nat) (t t1 : SquaresTable), tableLoopJ limit i fuel j t = some t1 →
      Inv t → Inv t1 := by
  intro fuel
  induction fuel with
  | zero => intro j t t1 h; simp [tableLoopJ] at h
  | succ fuel ih =>
    intro j t t1 h hs
    unfold tableLoopJ at h
    split at h
    · split at h
      · cases h
      · rename_i t2 ht2
        exact ih _ _ _ h
          (tableLoopK_preserves Inv limit i j (fun t k => hset t j k) _ _ _ _ ht2 hs)
    · cases h
      exact hs

theorem tableLoopI_preserves (Inv : SquaresTable → Prop) (limit : Nat)
    (hset : ∀ (t : SquaresTable) (i j k : Nat), Inv t → i * i + j * j + k * k ≤ 4 * limit →
      (i * i + j * j + k * k) % 4 = 2 →
      Inv (t.set ((i * i + j * j + k * k - 2) / 4) [(i : Int), (j : Int), (k : Int)])) :
    ∀ (fuel i : Nat) (t t1 : SquaresTable), tableLoopI limit fuel i t = some t1 →
      Inv t → Inv t1 := by
  intro fuel
  induction fuel with
  | zero => intro i t t1 h; simp [tableLoopI] at h
  | succ fuel ih =>
    intro i t t1 h hs
    unfold tableLoopI at h
    split at h
    · split at h
      · cases h
      · rename_i t2 ht2
        exact ih _ _ _ h
          (tableLoopJ_preserves Inv limit i (fun t j k => hset t i j k) _ _ _ _ ht2 hs)
    · cases h
      exact hs

/-- The entry at index `L` of `GenerateSquaresTable(L)` is never assigned: the
loops stop at sums above `4 * L`, and the entry stands for `4 * L + 2`. -/
theorem GenerateSquaresTable_last_unfilled (L : Nat) (t : SquaresTable)
    (ht : GenerateSquaresTable L = some t) : t[L]? = some [] := by
  unfold GenerateSquaresTable at ht
  refine tableLoopI_preserves (fun t => t[L]? = some []) L ?_ _ _ _ _ ht ?_
  · intro t i j k h hle hmod
    rw [List.getElem?_set_ne (by omega)]
    exact h
  · simp [List.getElem?_replicate]

/-- C26, the code at the failing index `j = L` for `L = 3`: the table has the
four entries `[1, 1, 0]`, `[2, 1, 1]`, `[3, 1, 0]` and nil; the entry 3, which
stands for `4 * 3 + 2 = 14 = 9 + 4 + 1`, was not filled. -/
theorem GenerateSquaresTable_misses_last_entry :
    GenerateSquaresTable 3 = some [[1, 1, 0], [2, 1, 1], [3, 1, 0], []] ∧
    ([[1, 1, 0], [2, 1, 1], [3, 1, 0], []] : SquaresTable)[3]? = some [] ∧
    (3 : Int) * 3 + 2 * 2 + 1 * 1 = 4 * 3 + 2 := by
  refine ⟨by decide, by decide, by decide⟩

/-! ## The relation for `m` on an honest witness -/

/-- The right-hand side of a relation at the secrets is the loop of
`commitmentsFromSecrets` run on a lookup that answers the secrets in place of
the randomizers, whenever that loop succeeds. -/
theorem secretPowerProduct_eq (g : QrGroup) (bases : BaseLookup) (sd : SecretLookup) :
    ∀ (rhs : List RhsContribution) (acc r : Int),
      secretsProduct g bases { Secret := sd.Secret, Randomizer := sd.Secret } rhs acc = .ok r →
      secretPowerProduct g bases sd rhs acc = .ok r := by
  intro rhs
  induction rhs with
  | nil => intro acc r h; exact h
  | cons t rest ih =>
    intro acc r h
    rw [secretsProduct] at h
    rw [secretPowerProduct]
    cases h1 : sd.Secret t.Secret with
    | error e => simp only [h1] at h; cases h
    | ok o =>
      cases o with
      | none => simp only [h1] at h; cases h
      | some x =>
        simp only [h1] at h ⊢
        cases h2 : bases.Exp 0 t.Base (t.Power * x) g.N with
        | error e => simp only [h2] at h; cases h
        | ok zb =>
          obtain ⟨z, b⟩ := zb
          cases b with
          | false => simp only [h2] at h; cases h
          | true =>
            simp only [h2] at h ⊢
            exact ih _ _ h

/-- A product of powers of units, as the spec writes it: the value is the
representative in `[0, |N|)` of the product in the units modulo `|N|`. -/
theorem powerProduct_eval (N : Int) (hN : N ≠ 0) :
    ∀ (items : List ((Int × Int) × (ZMod N.natAbs)ˣ)),
      (∀ it ∈ items, (it.1.1 : ZMod N.natAbs) = (it.2 : ZMod N.natAbs)) →
      ∃ r, powerProduct N (items.map (fun it => it.1)) = some r ∧
        0 ≤ r ∧ r < (N.natAbs : Int) ∧
        (r : ZMod N.natAbs)
          = (((items.map (fun it => it.2 ^ it.1.2)).prod : (ZMod N.natAbs)ˣ) : ZMod N.natAbs) := by
  intro items
  induction items with
  | nil =>
    intro _
    refine ⟨1 % N, rfl, (emod_range 1 N hN).1, (emod_range 1 N hN).2, ?_⟩
    rw [intCast_emod]
    simp
  | cons it rest ih =>
    intro hall
    obtain ⟨y, hy, -, -, hyc⟩ := ih (fun i hi => hall i (List.mem_cons_of_mem _ hi))
    obtain ⟨x, hx, -, -, hxc⟩ := bigExp_spec it.1.1 N hN it.2 (hall it (List.mem_cons_self _ _))
      it.1.2
    refine ⟨x * y % N, ?_, (emod_range _ N hN).1, (emod_range _ N hN).2, ?_⟩
    · simp only [List.map_cons, powerProduct, hx, hy]
    · rw [intCast_emod, Int.cast_mul, hxc, hyc, List.map_cons, List.prod_cons, Units.val_mul]

/-- The two forms of the relation for `m` evaluate to the truth of the
corresponding equations in the units modulo `|N|`. -/
theorem mCorrect_forms_eval (g : QrGroup) (hN : g.N ≠ 0) (uR uS : (ZMod g.N.natAbs)ˣ)
    (huR : (g.R : ZMod g.N.natAbs) = (uR : ZMod g.N.natAbs))
    (huS : (g.S : ZMod g.N.natAbs) = (uS : ZMod g.N.natAbs))
    (citems : List ((Int × Int) × (ZMod g.N.natAbs)ˣ))
    (hc : ∀ it ∈ citems, (it.1.1 : ZMod g.N.natAbs) = (it.2 : ZMod g.N.natAbs))
    (e1 e2 e3 : Int) :
    ∃ l r, powerProduct g.N ((g.R, e1) :: citems.map (fun it => it.1)) = some l ∧
      powerProduct g.N [(g.R, e2), (g.S, e3)] = some r ∧
      (l = r ↔ uR ^ e1 * (citems.map (fun it => it.2 ^ it.1.2)).prod = uR ^ e2 * uS ^ e3) := by
  obtain ⟨l, hl, hl0, hl1, hlc⟩ := powerProduct_eval g.N hN (((g.R, e1), uR) :: citems)
    (by
      intro it hit
      rcases List.mem_cons.mp hit with rfl | h
      · exact huR
      · exact hc it h)
  obtain ⟨r, hr, hr0, hr1, hrc⟩ := powerProduct_eval g.N hN [((g.R, e2), uR), ((g.S, e3), uS)]
    (by
      intro it hit
      simp only [List.mem_cons, List.mem_singleton, List.not_mem_nil, or_false] at hit
      rcases hit with rfl | rfl
      · exact huR
      · exact huS)
  refine ⟨l, r, hl, hr, ?_⟩
  have hcast : l = r ↔ (l : ZMod g.N.natAbs) = (r : ZMod g.N.natAbs) :=
    ⟨fun h => by rw [h], fun h => eq_of_intCast_eq g.N.natAbs l r ⟨hl0, hl1⟩ ⟨hr0, hr1⟩ h⟩
  rw [hcast, hlc, hrc, Units.eq_iff]
  simp only [List.map_cons, List.map_nil, List.prod_cons, List.prod_nil, mul_one]

/-- The bases of a commit paired with their exponents, as units modulo `|N|`. -/
theorem zip_bases_items (g : QrGroup) (hN : g.N ≠ 0) (uR uS : (ZMod g.N.natAbs)ˣ)
    (huR : (g.R : ZMod g.N.natAbs) = (uR : ZMod g.N.natAbs))
    (huS : (g.S : ZMod g.N.natAbs) = (uS : ZMod g.N.natAbs))
    (ds vs cs : List Int) (hcs : computeBases g ds vs = .ok cs) (hlen : ds.length = vs.length)
    (es : List Int) (hes : es.length = ds.length) :
    ∃ citems : List ((Int × Int) × (ZMod g.N.natAbs)ˣ),
      citems.map (fun it => it.1) = List.zip cs es ∧
      (∀ it ∈ citems, (it.1.1 : ZMod g.N.natAbs) = (it.2 : ZMod g.N.natAbs)) ∧
      (citems.map (fun it => it.2 ^ it.1.2)).prod
        = (List.zipWith (fun ud e => ud ^ e)
            (List.zipWith (fun d v => uR ^ d * uS ^ v) ds vs) es).prod := by
  induction ds generalizing vs cs es with
  | nil =>
    simp [computeBases] at hcs
    subst hcs
    exact ⟨[], by simp, by simp, by simp⟩
  | cons d rest ih =>
    cases vs with
    | nil => simp at hlen
    | cons v vrest =>
      cases es with
      | nil => simp at hes
      | cons e erest =>
        have hcast := computeBases_cast g hN uR uS huR huS _ _ _ hcs
        rw [computeBases] at hcs
        split at hcs
        · rename_i x y hx hy
          split at hcs
          · cases hcs
          · split at hcs
            · cases hcs
            · rename_i cs1 hcs1
              cases hcs
              obtain ⟨citems, h1, h2, h3⟩ := ih vrest cs1 hcs1 (by simpa using hlen) erest
                (by simpa using hes)
              refine ⟨((x * y % g.N, e), uR ^ d * uS ^ v) :: citems, ?_, ?_, ?_⟩
              · simp [h1]
              · intro it hit
                rcases List.mem_cons.mp hit with rfl | h
                · have := hcast 0 (by simp)
                  simpa using this
                · exact h2 it h
              · simp [h3]
        · cases hcs

theorem prod_zipWith_neg {G : Type} [CommGroup G] :
    ∀ (us : List G) (es : List Int),
      (List.zipWith (fun u e => u ^ e) us (es.map (fun x => -x))).prod
        = ((List.zipWith (fun u e => u ^ e) us es).prod)⁻¹ := by
  intro us
  induction us with
  | nil => intro es; simp
  | cons u rest ih =>
    intro es
    cases es with
    | nil => simp
    | cons e erest =>
      simp only [List.map_cons, List.zipWith_cons_cons, List.prod_cons, ih, zpow_neg, mul_inv]

/-- The witness equation in the units modulo `|N|`: with
`sum d_i^2 = a * m - k` the plain form of the relation for `m` holds. -/
theorem honest_units_eq {G : Type} [CommGroup G] (x y : G) (ds vs : List Int)
    (hlen : ds.length = vs.length) (a k m : Int)
    (hsum : (ds.map (fun d => d * d)).sum = a * m - k) :
    x ^ k * (List.zipWith (fun ud e => ud ^ e)
        (List.zipWith (fun d v => x ^ d * y ^ v) ds vs) ds).prod
      = x ^ (a * m) * y ^ sumProducts ds vs 0 := by
  have h := prod_zipWith_pow x y ds vs 0 hlen
  simp only [zpow_zero, mul_one, one_mul] at h
  have e : (List.zipWith (fun ud e => ud ^ e)
      (List.zipWith (fun d v => x ^ d * y ^ v) ds vs) ds).prod
      = (List.zipWith (fun d v => (x ^ d * y ^ v) ^ d) ds vs).prod := by
    clear h hsum
    induction ds generalizing vs with
    | nil => simp
    | cons d rest ih =>
      cases vs with
      | nil => simp at hlen
      | cons v vrest =>
        simp only [List.zipWith_cons_cons, List.prod_cons]
        rw [ih vrest (by simpa using hlen)]
  rw [e, h, hsum, ← mul_assoc, ← zpow_add]
  congr 2
  ring

/-- The plain form of the relation for `m` holds on an honest witness. -/
theorem mCorrectPlainForm_honest (g : QrGroup) (hN : g.N ≠ 0)
    (hR : Int.gcd g.R g.N = 1) (hS : Int.gcd g.S g.N = 1) (a k m : Int) (ds vs cs : List Int)
    (hlen : ds.length = vs.length)
    (hsum : (ds.map (fun x => x * x)).sum = a * m - k)
    (hc : computeBases g ds vs = .ok cs) :
    mCorrectPlainForm g a k m (sumProducts ds vs 0) cs ds = some true := by
  obtain ⟨uR, huR⟩ := unit_of_gcd g.R g.N hR
  obtain ⟨uS, huS⟩ := unit_of_gcd g.S g.N hS
  obtain ⟨citems, h1, h2, h3⟩ := zip_bases_items g hN uR uS huR huS ds vs cs hc hlen ds rfl
  obtain ⟨l, r, hl, hr, hiff⟩ := mCorrect_forms_eval g hN uR uS huR huS citems h2 k (a * m)
    (sumProducts ds vs 0)
  rw [h1] at hl
  unfold mCorrectPlainForm
  rw [hl, hr]
  simp only [Option.some.injEq, decide_eq_true_eq]
  rw [hiff, h3]
  exact honest_units_eq uR uS ds vs hlen a k m hsum

set_option maxRecDepth 100000 in
/-- C23, counterexample: `newWithParams(-2^63, 2^63 - 2, table, 3, ...)` with
the group `N = 35`, `R = 3`, `S = 4` and the honest witness `m = -1`,
`d = [1, 1, 0]`, `v = [8, 10, 12]`, `v5 = 18`, `C = [13, 33, 1]`
(`sum d_i^2 = 2 = a * m - k`). The relation built for `m` carries the power
`int64(-a) = -2^63` instead of `2^63` and does not hold modulo `N`, although
`R^k * prod C_i^(d_i) = R^(a*m) * S^(v5)` does. -/
theorem mCorrect_fails_at_min_int :
    newWithParams (-(2 ^ 63)) (2 ^ 63 - 2) (some exTable.toSplitter) 3 3 256 128 256
      = .ok overflowStructure ∧
    IsInt64 (-(2 ^ 63)) ∧
    Int.gcd exGroup.R exGroup.N = 1 ∧ Int.gcd exGroup.S exGroup.N = 1 ∧
    overflowCommit.d.length = 3 ∧ overflowCommit.v.length = 3 ∧
    (overflowCommit.d.map (fun x => x * x)).sum
      = -(2 ^ 63) * overflowCommit.m - (2 ^ 63 - 2) ∧
    overflowCommit.v5 = sumProducts overflowCommit.d overflowCommit.v 0 ∧
    computeBases exGroup overflowCommit.d overflowCommit.v = .ok overflowCommit.c ∧
    overflowStructure.mCorrect.isTrue exGroup (NewBaseMerge exGroup overflowCommit.toBaseLookup)
      overflowCommit.toSecretLookup = .ok false ∧
    mCorrectPlainForm exGroup (-(2 ^ 63)) (2 ^ 63 - 2) overflowCommit.m overflowCommit.v5
      overflowCommit.c overflowCommit.d = some true := by
  refine ⟨rfl, by decide, by decide, by decide, rfl, rfl, by decide, by decide, by decide,
    by decide, by decide⟩

/-- C23, amended: for every group `(N, R, S)` with `N ≠ 0` and `R`, `S`
invertible modulo `N`, every structure built by `newWithParams` from a machine
int `a` other than `-2^63`, and every honest witness (`d` and `v` of the split
arity, `sum d_i^2 = a * m - k`, `v5 = sum d_i * v_i`,
`C_i = R^(d_i) * S^(v_i) mod N`), the relation for `m` stored in the structure
holds modulo `N` (its left-hand product equals its right-hand product at the
secrets of the witness), and `R^k * prod C_i^(d_i)` is congruent to
`R^(a*m) * S^(v5)` modulo `N`. -/
theorem mCorrect_holds_for_honest_witness (a k : Int) (split : Option SquareSplitter)
    (nSplit : Int) (ld lh lstatzk lm : Nat) (s : ProofStructure) (g : QrGroup)
    (commit : ProofCommit)
    (hs : newWithParams a k split nSplit ld lh lstatzk lm = .ok s)
    (ha : IsInt64 a) (hmin : a ≠ -(2 ^ 63))
    (hN : g.N ≠ 0) (hR : Int.gcd g.R g.N = 1) (hS : Int.gcd g.S g.N = 1)
    (hd : commit.d.length = nSplit.toNat) (hv : commit.v.length = nSplit.toNat)
    (hsum : (commit.d.map (fun x => x * x)).sum = a * commit.m - k)
    (hv5 : commit.v5 = sumProducts commit.d commit.v 0)
    (hc : computeBases g commit.d commit.v = .ok commit.c) :
    s.mCorrect.isTrue g (NewBaseMerge g commit.toBaseLookup) commit.toSecretLookup = .ok true ∧
    mCorrectPlainForm g a k commit.m commit.v5 commit.c commit.d = some true := by
  refine ⟨?_, by
    rw [hv5]
    exact mCorrectPlainForm_honest g hN hR hS a k commit.m commit.d commit.v commit.c
      (by rw [hd, hv]) hsum hc⟩
  have hn4 : nSplit ≤ 4 := by
    by_contra h
    have h1 : nSplit > 4 := by omega
    simp [newWithParams, h1] at hs
  obtain ⟨s1, hs1, -, -, -, -, -, -, -, -, hmC⟩ :=
    newWithParams_ok a k split nSplit ld lh lstatzk lm hn4
  rw [hs1] at hs
  cases hs
  have hn : nSplit.toNat ≤ 4 := by omega
  have hlen : commit.d.length = commit.v.length := by rw [hd, hv]
  have hcl : commit.c.length = nSplit.toNat := by
    rw [computeBases_length g _ _ _ hlen hc, hd]
  obtain ⟨uR, huR⟩ := unit_of_gcd g.R g.N hR
  obtain ⟨uS, huS⟩ := unit_of_gcd g.S g.N hS
  have hcast := computeBases_cast g hN uR uS huR huS _ _ _ hc
  have resR : Resolves g (NewBaseMerge g commit.toBaseLookup) ['R'] uR :=
    resolves_group g hN _ ['R'] g.R uR rfl huR
  have resS : Resolves g (NewBaseMerge g commit.toBaseLookup) ['S'] uS :=
    resolves_group g hN _ ['S'] g.S uS rfl huS
  have resC : ∀ i, i < nSplit.toNat →
      Resolves g (NewBaseMerge g commit.toBaseLookup) (sprintfD 'C' i)
        (uR ^ commit.d.getD i 0 * uS ^ commit.v.getD i 0) := by
    intro i hi
    apply resolves_part g hN _ _ (commit.c.getD i 0) _ (group_Base_C g i)
    · intro e
      simp only [ProofCommit.toBaseLookup, ProofCommit.Exp,
        commit_Base_C commit i (by omega) (by omega)]
    · exact hcast i (by omega)
  have h1 : ((1 : Int) : ZMod g.N.natAbs) = ((1 : (ZMod g.N.natAbs)ˣ) : ZMod g.N.natAbs) := by
    simp
  obtain ⟨r, hr, hrc, hrr⟩ := secretsProduct_eval g hN (NewBaseMerge g commit.toBaseLookup)
    { Secret := commit.toSecretLookup.Secret, Randomizer := commit.toSecretLookup.Secret }
    ([(⟨['S'], ['v', '5'], -1⟩, uS, 0, commit.v5),
      (⟨['R'], ['m'], wrapInt (-a)⟩, uR, 0, commit.m)]
      ++ (List.range nSplit.toNat).map (fun i => (mCorrectEntry i,
            uR ^ commit.d.getD i 0 * uS ^ commit.v.getD i 0, 0, commit.d.getD i 0)))
    (by
      intro it hit
      simp only [List.mem_append, List.mem_cons, List.mem_singleton, List.not_mem_nil,
        or_false, List.mem_map, List.mem_range] at hit
      rcases hit with (rfl | rfl) | ⟨i, hi, rfl⟩
      · exact ⟨rfl, resS⟩
      · exact ⟨rfl, resR⟩
      · exact ⟨commit_Secret_d commit i (by omega) (by omega), resC i hi⟩)
    1 1 h1
  have hrhs := secretPowerProduct_eq g (NewBaseMerge g commit.toBaseLookup)
    commit.toSecretLookup _ 1 r hr
  obtain ⟨x, hx, -, -, hxc⟩ := resR (-k)
  have hlhs : lhsProduct g (NewBaseMerge g commit.toBaseLookup)
      [{ Base := ['R'], Power := -k }] 1 = .ok (1 * x % g.N) := by
    simp only [lhsProduct, hx]
  unfold qrRepresentationProofStructure.isTrue
  rw [hmC]
  simp only
  rw [hlhs]
  simp only [List.map_append, List.map_cons, List.map_nil, List.map_map, Function.comp_def]
    at hrhs
  simp only
  rw [hrhs]
  simp only [Except.ok.injEq, decide_eq_true_eq]
  apply eq_of_intCast_eq g.N.natAbs _ _ (emod_range _ _ hN) (hrr (by simp))
  rw [intCast_emod, one_mul, hxc, hrc, wrapInt_neg a ha hmin]
  congr 1
  have hz := range_map_eq_zipWith
    (fun d v => (uR ^ d * uS ^ v) ^ ((1 : Int) * d)) commit.d commit.v hlen
  have hprod := prod_zipWith_pow uR uS commit.d commit.v 0 hlen
  rw [← hz, hd, ← hv5, hsum] at hprod
  simp only [zpow_zero, mul_one] at hprod
  simp only [List.map_cons, List.map_nil, List.prod_cons, List.prod_nil, List.map_append,
    List.prod_append, List.map_map, Function.comp_def, mul_one, mCorrectEntry, one_mul]
  simp only [one_mul] at hprod
  rw [hprod]
  have key : ∀ (A B : (ZMod g.N.natAbs)ˣ) (a k m v : Int),
      A ^ (-k) = B ^ (-1 * v) * A ^ (-a * m) * (A ^ (a * m - k) * B ^ v) := by
    intro A B a k m v
    rw [mul_assoc, ← mul_assoc (A ^ (-a * m)), ← zpow_add, mul_left_comm, ← zpow_add]
    have e2 : -1 * v + v = 0 := by ring
    have e3 : -a * m + (a * m - k) = -k := by ring
    rw [e2, e3, zpow_zero, mul_one]
  exact key _ _ _ _ _ _

set_option maxRecDepth 100000 in
/-- C23, amended, at the running example: `a = 4`, `k = 178`, `m = 45`,
`d = [1, 1, 0]`, `v = [8, 10, 12]` in the group `N = 35`, `R = 3`, `S = 4`. -/
theorem mCorrect_holds_for_honest_witness_witness :
    exStructure.mCorrect.isTrue exGroup (NewBaseMerge exGroup exCommit.toBaseLookup)
        exCommit.toSecretLookup = .ok true ∧
      mCorrectPlainForm exGroup 4 178 exCommit.m exCommit.v5 exCommit.c exCommit.d
        = some true :=
  mCorrect_holds_for_honest_witness 4 178 (some exTable.toSplitter) 3 3 256 128 256
    exStructure exGroup exCommit rfl (by decide) (by decide) (by decide) (by decide)
    (by decide) rfl rfl (by decide) (by decide) (by decide)

/-! ## The two written forms of the relation for `m` -/

/-- With the exponents of the bases `C_i` negated, the form with the negated
exponents of `R` and `S` says the same as the plain form. -/
theorem mCorrect_forms_agree (g : QrGroup) (hN : g.N ≠ 0)
    (hR : Int.gcd g.R g.N = 1) (hS : Int.gcd g.S g.N = 1) (ds vs cs : List Int)
    (hlen : ds.length = vs.length) (hc : computeBases g ds vs = .ok cs)
    (a k m v5 : Int) (es : List Int) (hes : es.length = ds.length) :
    mCorrectSpecForm g a k m v5 cs (es.map (fun x => -x)) = mCorrectPlainForm g a k m v5 cs es := by
  obtain ⟨uR, huR⟩ := unit_of_gcd g.R g.N hR
  obtain ⟨uS, huS⟩ := unit_of_gcd g.S g.N hS
  obtain ⟨it1, a1, a2, a3⟩ := zip_bases_items g hN uR uS huR huS ds vs cs hc hlen
    (es.map (fun x => -x)) (by simpa using hes)
  obtain ⟨it2, b1, b2, b3⟩ := zip_bases_items g hN uR uS huR huS ds vs cs hc hlen es hes
  obtain ⟨l1, r1, hl1, hr1, hiff1⟩ := mCorrect_forms_eval g hN uR uS huR huS it1 a2 (-k)
    (-(a * m)) (-v5)
  obtain ⟨l2, r2, hl2, hr2, hiff2⟩ := mCorrect_forms_eval g hN uR uS huR huS it2 b2 k
    (a * m) v5
  rw [a1] at hl1
  rw [b1] at hl2
  unfold mCorrectSpecForm mCorrectPlainForm
  rw [hl1, hr1, hl2, hr2]
  simp only [Option.some.injEq, decide_eq_decide]
  rw [hiff1, hiff2, a3, b3, prod_zipWith_neg, zpow_neg, zpow_neg, zpow_neg, ← mul_inv,
    ← mul_inv, inv_inj]

set_option maxRecDepth 100000 in
/-- C27, counterexample: the running example, group `N = 35`, `R = 3`,
`S = 4`, `a = 4`, `k = 178`, `m = 45`, `d = [1, 1, 0]`, `v = [8, 10, 12]`,
`v5 = 18`, `C = [13, 33, 1]`, an honest witness (`sum d_i^2 = 2 = a * m - k`).
The form `R^(-k) * prod C_i^(d_i) = R^(-a*m) * S^(-v5)` is false modulo 35
(the left side is `9 * 13 * 33 = 11`, the right side is 1), while
`R^k * prod C_i^(d_i) = R^(a*m) * S^(v5)` is true and the relation stored in
the structure holds. -/
theorem mCorrect_spec_form_fails :
    newWithParams 4 178 (some exTable.toSplitter) 3 3 256 128 256 = .ok exStructure ∧
    Int.gcd exGroup.R exGroup.N = 1 ∧ Int.gcd exGroup.S exGroup.N = 1 ∧
    (exCommit.d.map (fun x => x * x)).sum = 4 * exCommit.m - 178 ∧
    exCommit.v5 = sumProducts exCommit.d exCommit.v 0 ∧
    computeBases exGroup exCommit.d exCommit.v = .ok exCommit.c ∧
    powerProduct exGroup.N ((exGroup.R, -178) :: List.zip exCommit.c exCommit.d) = some 11 ∧
    powerProduct exGroup.N [(exGroup.R, -(4 * exCommit.m)), (exGroup.S, -exCommit.v5)]
      = some 1 ∧
    mCorrectSpecForm exGroup 4 178 exCommit.m exCommit.v5 exCommit.c exCommit.d = some false ∧
    mCorrectPlainForm exGroup 4 178 exCommit.m exCommit.v5 exCommit.c exCommit.d = some true ∧
    exStructure.mCorrect.isTrue exGroup (NewBaseMerge exGroup exCommit.toBaseLookup)
      exCommit.toSecretLookup = .ok true := by
  refine ⟨rfl, by decide, by decide, by decide, by decide, by decide, by decide, by decide,
    by decide, by decide, by decide⟩

/-- C27, amended: for every group `(N, R, S)` with `N ≠ 0` and `R`, `S`
invertible modulo `N` and every honest witness (`sum d_i^2 = a * m - k`,
`v5 = sum d_i * v_i`, `C_i = R^(d_i) * S^(v_i) mod N`), the relation for `m`
holds modulo `N` in the form `R^(-k) * prod C_i^(-d_i) = R^(-a*m) * S^(-v5)`,
the inverse of the bases `C_i` taken with the others; and for these bases
this form says the same as `R^k * prod C_i^(e_i) = R^(a*m) * S^(v5)`, whatever
the exponents and the values of `a`, `k`, `m`, `v5`. -/
theorem mCorrect_negated_form_holds (g : QrGroup) (a k : Int) (commit : ProofCommit)
    (hN : g.N ≠ 0) (hR : Int.gcd g.R g.N = 1) (hS : Int.gcd g.S g.N = 1)
    (hlen : commit.d.length = commit.v.length)
    (hsum : (commit.d.map (fun x => x * x)).sum = a * commit.m - k)
    (hv5 : commit.v5 = sumProducts commit.d commit.v 0)
    (hc : computeBases g commit.d commit.v = .ok commit.c) :
    mCorrectSpecForm g a k commit.m commit.v5 commit.c (commit.d.map (fun x => -x))
      = some true ∧
    ∀ (a1 k1 m1 w : Int) (es : List Int), es.length = commit.d.length →
      mCorrectSpecForm g a1 k1 m1 w commit.c (es.map (fun x => -x))
        = mCorrectPlainForm g a1 k1 m1 w commit.c es := by
  refine ⟨?_, fun a1 k1 m1 w es hes =>
    mCorrect_forms_agree g hN hR hS _ _ _ hlen hc a1 k1 m1 w es hes⟩
  rw [mCorrect_forms_agree g hN hR hS _ _ _ hlen hc a k commit.m commit.v5 commit.d rfl, hv5]
  exact mCorrectPlainForm_honest g hN hR hS a k commit.m commit.d commit.v commit.c hlen hsum hc

set_option maxRecDepth 100000 in
/-- C27, amended, at the running example: `a = 4`, `k = 178`, `m = 45`,
`d = [1, 1, 0]`, `v = [8, 10, 12]` in the group `N = 35`, `R = 3`, `S = 4`. -/
theorem mCorrect_negated_form_holds_witness :
    mCorrectSpecForm exGroup 4 178 exCommit.m exCommit.v5 exCommit.c
        (exCommit.d.map (fun x => -x)) = some true ∧
      ∀ (a1 k1 m1 w : Int) (es : List Int), es.length = exCommit.d.length →
        mCorrectSpecForm exGroup a1 k1 m1 w exCommit.c (es.map (fun x => -x))
          = mCorrectPlainForm exGroup a1 k1 m1 w exCommit.c es :=
  mCorrect_negated_form_holds exGroup 4 178 exCommit (by decide) (by decide) (by decide) rfl
    (by decide) (by decide) (by decide)

/-! ## Sums of three squares -/

/-- Rounding of a quotient to a nearest integer. -/
theorem exists_round (A B : Int) (hA : 0 < A) : ∃ m : Int, 2 * |B - m * A| ≤ A := by
  refine ⟨(2 * B + A) / (2 * A), ?_⟩
  have h1 := Int.emod_add_ediv (2 * B + A) (2 * A)
  have h2 := Int.emod_nonneg (2 * B + A) (by omega : 2 * A ≠ 0)
  have h3 := Int.emod_lt_of_pos (2 * B + A) (by omega : 0 < 2 * A)
  generalize (2 * B + A) / (2 * A) = m at h1 ⊢
  generalize (2 * B + A) % (2 * A) = r at h1 h2 h3
  rcases abs_cases (B - m * A) with ⟨h, _⟩ | ⟨h, _⟩ <;> rw [h] <;> nlinarith

/-- A positive binary quadratic form of determinant 1 with integer
coefficients takes only sums of two squares as values. -/
theorem binary_sum_two_squares : ∀ (n : Nat) (A B C : Int), A.toNat = n → 0 < A →
    A * C - B * B = 1 → ∀ y z : Int, ∃ v w : Int,
      A * y * y + 2 * B * y * z + C * z * z = v * v + w * w := by
  intro n
  induction n using Nat.strong_induction_on with
  | _ n ih =>
    intro A B C hn hA hdet y z
    obtain ⟨m, hm⟩ := exists_round A B hA
    have hdet1 : A * (C - 2 * m * B + m * m * A) - (B - m * A) * (B - m * A) = 1 := by
      linear_combination hdet
    have hB := abs_le.mp (by linarith [abs_nonneg (B - m * A)] : |B - m * A| ≤ A)
    have hB2 : 4 * ((B - m * A) * (B - m * A)) ≤ A * A := by
      rcases abs_cases (B - m * A) with ⟨h, _⟩ | ⟨h, _⟩ <;> rw [h] at hm <;> nlinarith
    by_cases hle : A ≤ C - 2 * m * B + m * m * A
    · have hA1 : A = 1 := by nlinarith
      have hB0 : B - m * A = 0 := by
        rcases abs_cases (B - m * A) with ⟨h, _⟩ | ⟨h, _⟩ <;> rw [h] at hm <;> omega
      refine ⟨y + m * z, z, ?_⟩
      subst hA1
      have hBm : B = m := by linarith
      subst hBm
      have hC : C = 1 + B * B := by linarith
      subst hC
      ring
    · have hC1 : 0 < C - 2 * m * B + m * m * A := by
        by_contra h
        push_neg at h
        nlinarith
      obtain ⟨v, w, hvw⟩ := ih (C - 2 * m * B + m * m * A).toNat (by omega)
        (C - 2 * m * B + m * m * A) (-(B - m * A)) A rfl hC1 (by linear_combination hdet1)
        z (-(y + m * z))
      exact ⟨v, w, by linear_combination hvw⟩

/-- Reduction of a positive ternary quadratic form of determinant 1 in its
last two variables: an equivalent form with the same first coefficient `a`
whose second leading minor `g` satisfies `3 * g^2 ≤ 4 * a`. -/
theorem ternary_reduce_inner : ∀ (n : Nat) (a b c r s t : Int), (a * b - t * t).toNat = n →
    0 < a → 0 < a * b - t * t →
    a * b * c + 2 * r * s * t - a * r * r - b * s * s - c * t * t = 1 →
    ∃ b1 c1 r1 s1 t1 : Int, 0 < a * b1 - t1 * t1 ∧
      a * b1 * c1 + 2 * r1 * s1 * t1 - a * r1 * r1 - b1 * s1 * s1 - c1 * t1 * t1 = 1 ∧
      3 * ((a * b1 - t1 * t1) * (a * b1 - t1 * t1)) ≤ 4 * a ∧
      ∀ x y z : Int, ∃ x1 y1 z1 : Int,
        a * x * x + b * y * y + c * z * z + 2 * r * y * z + 2 * s * x * z + 2 * t * x * y
          = a * x1 * x1 + b1 * y1 * y1 + c1 * z1 * z1 + 2 * r1 * y1 * z1 + 2 * s1 * x1 * z1
            + 2 * t1 * x1 * y1 := by
  intro n
  induction n using Nat.strong_induction_on with
  | _ n ih =>
    intro a b c r s t hn ha hg hdet
    obtain ⟨m, hm⟩ := exists_round (a * b - t * t) (a * r - t * s) hg
    -- the form after the substitution y + m z for y
    have hdet1 : a * b * (c - 2 * m * r + m * m * b) + 2 * (r - m * b) * (s - m * t) * t
        - a * (r - m * b) * (r - m * b) - b * (s - m * t) * (s - m * t)
        - (c - 2 * m * r + m * m * b) * t * t = 1 := by
      linear_combination hdet
    have hG : (a * b - t * t) * (a * (c - 2 * m * r + m * m * b) - (s - m * t) * (s - m * t))
        - (a * (r - m * b) - t * (s - m * t)) * (a * (r - m * b) - t * (s - m * t)) = a := by
      linear_combination a * hdet1
    have hG2 : a * (r - m * b) - t * (s - m * t) = a * r - t * s - m * (a * b - t * t) := by ring
    rw [← hG2] at hm
    have hB2 : 4 * ((a * (r - m * b) - t * (s - m * t)) * (a * (r - m * b) - t * (s - m * t)))
        ≤ (a * b - t * t) * (a * b - t * t) := by
      rcases abs_cases (a * (r - m * b) - t * (s - m * t)) with ⟨h, _⟩ | ⟨h, _⟩ <;>
        rw [h] at hm <;> nlinarith
    by_cases hle : a * b - t * t
        ≤ a * (c - 2 * m * r + m * m * b) - (s - m * t) * (s - m * t)
    · refine ⟨b, c - 2 * m * r + m * m * b, r - m * b, s - m * t, t, hg, hdet1, by nlinarith,
        fun x y z => ⟨x, y + m * z, z, by ring⟩⟩
    · have hG3 : 0 < a * (c - 2 * m * r + m * m * b) - (s - m * t) * (s - m * t) := by
        by_contra h
        push_neg at h
        nlinarith
      obtain ⟨b1, c1, r1, s1, t1, h1, h2, h3, h4⟩ :=
        ih (a * (c - 2 * m * r + m * m * b) - (s - m * t) * (s - m * t)).toNat (by omega)
          a (c - 2 * m * r + m * m * b) b (-(r - m * b)) (-t) (s - m * t) rfl ha hG3
          (by linear_combination hdet1)
      refine ⟨b1, c1, r1, s1, t1, h1, h2, h3, fun x y z => ?_⟩
      obtain ⟨x1, y1, z1, h⟩ := h4 x z (-(y + m * z))
      exact ⟨x1, y1, z1, by linear_combination h⟩

/-- A positive ternary quadratic form of determinant 1 with integer
coefficients takes only sums of three squares as values. -/
theorem ternary_sum_three_squares : ∀ (n : Nat) (a b c r s t : Int), a.toNat = n →
    0 < a → 0 < a * b - t * t →
    a * b * c + 2 * r * s * t - a * r * r - b * s * s - c * t * t = 1 →
    ∀ x y z : Int, ∃ u v w : Int,
      a * x * x + b * y * y + c * z * z + 2 * r * y * z + 2 * s * x * z + 2 * t * x * y
        = u * u + v * v + w * w := by
  intro n
  induction n using Nat.strong_induction_on with
  | _ n ih =>
    intro a b c r s t hn ha hg hdet x y z
    by_cases ha1 : a = 1
    · subst ha1
      obtain ⟨v, w, hvw⟩ := binary_sum_two_squares _ (b - t * t) (r - t * s) (c - s * s) rfl
        (by linarith) (by linear_combination hdet) y z
      exact ⟨x + t * y + s * z, v, w, by linear_combination hvw⟩
    · have ha2 : 2 ≤ a := by omega
      obtain ⟨b1, c1, r1, s1, t1, h1, h2, h3, h4⟩ :=
        ternary_reduce_inner _ a b c r s t rfl ha hg hdet
      obtain ⟨m, hm⟩ := exists_round a t1 ha
      have hg2 : a * (b1 - 2 * m * t1 + a * m * m) - (t1 - m * a) * (t1 - m * a)
          = a * b1 - t1 * t1 := by ring
      have hT2 : 4 * ((t1 - m * a) * (t1 - m * a)) ≤ a * a := by
        rcases abs_cases (t1 - m * a) with ⟨h, _⟩ | ⟨h, _⟩ <;> rw [h] at hm <;> nlinarith
      have hb0 : 0 < b1 - 2 * m * t1 + a * m * m := by
        by_contra h
        push_neg at h
        nlinarith
      have hblt : b1 - 2 * m * t1 + a * m * m < a := by
        by_contra h
        push_neg at h
        have e1 : 3 * (a * a) ≤ 4 * (a * b1 - t1 * t1) := by nlinarith
        have e2 : 6 * a ≤ 3 * (a * a) := by nlinarith
        nlinarith
      obtain ⟨x1, y1, z1, hq⟩ := h4 x y z
      obtain ⟨u, v, w, huvw⟩ := ih (b1 - 2 * m * t1 + a * m * m).toNat (by omega)
        (b1 - 2 * m * t1 + a * m * m) a c1 s1 (r1 - m * s1) (t1 - m * a) rfl hb0
        (by linarith) (by linear_combination h2) y1 (x1 + m * y1) z1
      exact ⟨u, v, w, by linear_combination hq + huvw⟩


/-- For `n ≡ 2 (mod 4)` there are a prime `p = d * n - 1` with `d ≡ 1 (mod 4)`
and an integer `x` with `p ∣ x^2 + d` (Dirichlet's theorem on primes in
arithmetic progressions and quadratic reciprocity). -/
theorem exists_prime_form (n : Nat) (hn : n % 4 = 2) :
    ∃ (p d : Nat) (x : Int), 0 < p ∧ 0 < d ∧ p + 1 = d * n ∧ (p : Int) ∣ x * x + d := by
  have hn2 : 2 ≤ n := by omega
  haveI : NeZero (4 * n) := ⟨by omega⟩
  have hcop : Nat.Coprime (n - 1) (4 * n) := by
    apply Nat.Coprime.mul_right
    · have h4 : (4 : Nat) = 2 ^ 2 := by norm_num
      rw [h4]
      apply Nat.Coprime.pow_right
      rw [Nat.coprime_two_right]
      exact Nat.odd_iff.mpr (by omega)
    · have e : n = (n - 1) + 1 := by omega
      conv_rhs => rw [e]
      simp
  obtain ⟨p, -, hp, hpmod⟩ := Nat.forall_exists_prime_gt_and_eq_mod
    ((ZMod.isUnit_iff_coprime (n - 1) (4 * n)).mpr hcop) 0
  rw [ZMod.natCast_eq_natCast_iff'] at hpmod
  rw [Nat.mod_eq_of_lt (by omega : n - 1 < 4 * n)] at hpmod
  have hdiv := Nat.div_add_mod p (4 * n)
  rw [hpmod] at hdiv
  generalize p / (4 * n) = j at hdiv
  have hpd : p + 1 = (4 * j + 1) * n := by
    have : 4 * n * j + (n - 1) + 1 = (4 * j + 1) * n := by
      have e : n - 1 + 1 = n := by omega
      rw [add_assoc, e]
      ring
    omega
  have hp4 : p % 4 = 1 := by
    have e : 4 * n * j = 4 * (n * j) := by ring
    rw [e] at hdiv
    omega
  haveI : Fact p.Prime := ⟨hp⟩
  have hpodd : Odd p := Nat.odd_iff.mpr (by omega)
  have hd4 : (4 * j + 1) % 4 = 1 := by omega
  have hJ : jacobiSym ((4 * j + 1 : Nat) : Int) p = 1 := by
    rw [jacobiSym.quadratic_reciprocity_one_mod_four hd4 hpodd]
    have hmod : ((p : Nat) : Int) % ((4 * j + 1 : Nat) : Int) = (-1) % ((4 * j + 1 : Nat) : Int) := by
      rw [Int.emod_eq_emod_iff_emod_sub_eq_zero]
      apply Int.emod_eq_zero_of_dvd
      refine ⟨(n : Int), ?_⟩
      have := congrArg (fun z : Nat => (z : Int)) hpd
      simp only [Nat.cast_add, Nat.cast_mul, Nat.cast_one, Nat.cast_ofNat] at this ⊢
      linarith
    rw [jacobiSym.mod_left' hmod, jacobiSym.at_neg_one (Nat.odd_iff.mpr (by omega)),
      ZMod.χ₄_nat_one_mod_four hd4]
  rw [← jacobiSym.legendreSym.to_jacobiSym] at hJ
  have hd0 : (((4 * j + 1 : Nat) : Int) : ZMod p) ≠ 0 := by
    intro h0
    rw [← legendreSym.eq_zero_iff, hJ] at h0
    exact one_ne_zero h0
  have hsq : IsSquare ((((4 * j + 1 : Nat) : Int)) : ZMod p) := (legendreSym.eq_one_iff p hd0).mp hJ
  have hneg : IsSquare (-1 : ZMod p) := ZMod.exists_sq_eq_neg_one_iff.mpr (by omega)
  obtain ⟨y, hy⟩ := hneg.mul hsq
  refine ⟨p, 4 * j + 1, (y.val : Int), hp.pos, by omega, hpd, ?_⟩
  rw [← ZMod.intCast_zmod_eq_zero_iff_dvd]
  push_cast
  rw [ZMod.natCast_zmod_val, ← hy]
  push_cast
  ring


/-- Every natural number congruent to 2 modulo 4 is a sum of three squares. -/
theorem sum_three_squares_of_mod_four (n : Nat) (hn : n % 4 = 2) :
    ∃ i j k : Nat, i * i + j * j + k * k = n := by
  obtain ⟨p, d, x, hp, hd, hpd, a, ha⟩ := exists_prime_form n hn
  have hpZ : (0 : Int) < p := by exact_mod_cast hp
  have hdZ : (0 : Int) < d := by exact_mod_cast hd
  have hpdZ : (p : Int) + 1 = d * n := by exact_mod_cast hpd
  have ha0 : 0 < a := by
    by_contra h
    push_neg at h
    nlinarith
  obtain ⟨u, v, w, h⟩ := ternary_sum_three_squares _ a p n 0 1 x rfl ha0
    (by nlinarith) (by linear_combination (-(n : Int)) * ha - hpdZ) 0 0 1
  refine ⟨u.natAbs, v.natAbs, w.natAbs, ?_⟩
  have e : ((u.natAbs * u.natAbs + v.natAbs * v.natAbs + w.natAbs * w.natAbs : Nat) : Int)
      = (n : Int) := by
    push_cast
    rw [← abs_mul_abs_self u, ← abs_mul_abs_self v, ← abs_mul_abs_self w] at h
    linarith
  exact_mod_cast e

/-! ## Every entry that `Split` reads was filled -/

/-- Assigning a triple to some entry keeps an entry that holds a triple. -/
theorem filled_set (t : SquaresTable) (idx idx1 : Nat) (a b c : Int)
    (h : ∃ x y z : Int, t[idx]? = some [x, y, z]) :
    ∃ x y z : Int, (t.set idx1 [a, b, c])[idx]? = some [x, y, z] := by
  obtain ⟨x, y, z, hxyz⟩ := h
  by_cases he : idx1 = idx
  · subst he
    have hlt : idx1 < t.length := by
      by_contra hge
      rw [List.getElem?_eq_none (by omega)] at hxyz
      cases hxyz
    exact ⟨a, b, c, by rw [List.getElem?_set_self hlt]⟩
  · exact ⟨x, y, z, by rw [List.getElem?_set_ne he]; exact hxyz⟩

/-- The innermost loop, started at or before `k`, fills the entry of
`i^2 + j^2 + k^2`. -/
theorem tableLoopK_fills (limit i j k : Nat) (hsum : i * i + j * j + k * k ≤ 4 * limit)
    (hmod : (i * i + j * j + k * k) % 4 = 2) :
    ∀ (fuel k0 : Nat) (t t1 : SquaresTable), k0 ≤ k →
      (i * i + j * j + k * k - 2) / 4 < t.length →
      tableLoopK limit i j fuel k0 t = some t1 →
      ∃ x y z : Int, t1[(i * i + j * j + k * k - 2) / 4]? = some [x, y, z] := by
  intro fuel
  induction fuel with
  | zero => intro k0 t t1 _ _ h; simp [tableLoopK] at h
  | succ fuel ih =>
    intro k0 t t1 hk hlen h
    have hle : i * i + j * j + k0 * k0 ≤ 4 * limit := by
      have := Nat.mul_le_mul hk hk
      omega
    by_cases hkk : k0 = k
    · subst hkk
      rw [tableLoopK, if_pos hle] at h
      simp only at h
      rw [if_neg (by simpa using hmod)] at h
      refine tableLoopK_preserves
        (fun t => ∃ x y z : Int, t[(i * i + j * j + k0 * k0 - 2) / 4]? = some [x, y, z])
        limit i j (fun t k1 ht _ _ => filled_set t _ _ _ _ _ ht) _ _ _ _ h ?_
      exact ⟨i, j, k0, by rw [List.getElem?_set_self hlen]⟩
    · rw [tableLoopK, if_pos hle] at h
      simp only at h
      split at h
      · exact ih (k0 + 1) _ _ (by omega) hlen h
      · exact ih (k0 + 1) _ _ (by omega) (by rw [List.length_set]; exact hlen) h

/-- The loops keep the number of entries of the table. -/
theorem tableLoopK_length (limit i j : Nat) (fuel k : Nat) (t t1 : SquaresTable)
    (h : tableLoopK limit i j fuel k t = some t1) : t1.length = t.length :=
  tableLoopK_preserves (fun t2 => t2.length = t.length) limit i j
    (fun t2 k1 ht _ _ => by simpa using ht) _ _ _ _ h rfl

theorem tableLoopJ_length (limit i : Nat) (fuel j : Nat) (t t1 : SquaresTable)
    (h : tableLoopJ limit i fuel j t = some t1) : t1.length = t.length :=
  tableLoopJ_preserves (fun t2 => t2.length = t.length) limit i
    (fun t2 j1 k1 ht _ _ => by simpa using ht) _ _ _ _ h rfl

/-- The middle loop, started at or before `j`, fills the entry of
`i^2 + j^2 + k^2`. -/
theorem tableLoopJ_fills (limit i j k : Nat) (hsum : i * i + j * j + k * k ≤ 4 * limit)
    (hmod : (i * i + j * j + k * k) % 4 = 2) :
    ∀ (fuel j0 : Nat) (t t1 : SquaresTable), j0 ≤ j →
      (i * i + j * j + k * k - 2) / 4 < t.length →
      tableLoopJ limit i fuel j0 t = some t1 →
      ∃ x y z : Int, t1[(i * i + j * j + k * k - 2) / 4]? = some [x, y, z] := by
  intro fuel
  induction fuel with
  | zero => intro j0 t t1 _ _ h; simp [tableLoopJ] at h
  | succ fuel ih =>
    intro j0 t t1 hj hlen h
    have hle : i * i + j0 * j0 ≤ 4 * limit := by
      have := Nat.mul_le_mul hj hj
      omega
    rw [tableLoopJ, if_pos hle] at h
    split at h
    · cases h
    · rename_i t2 ht2
      by_cases hjj : j0 = j
      · subst hjj
        exact tableLoopJ_preserves
          (fun t => ∃ x y z : Int, t[(i * i + j0 * j0 + k * k - 2) / 4]? = some [x, y, z])
          limit i (fun t j1 k1 ht _ _ => filled_set t _ _ _ _ _ ht) _ _ _ _ h
          (tableLoopK_fills limit i j0 k hsum hmod _ 0 t t2 (by omega) hlen ht2)
      · exact ih (j0 + 1) _ _ (by omega)
          (by rw [tableLoopK_length limit i j0 _ _ t t2 ht2]; exact hlen) h

/-- The outer loop, started at or before `i`, fills the entry of
`i^2 + j^2 + k^2`. -/
theorem tableLoopI_fills (limit i j k : Nat) (hsum : i * i + j * j + k * k ≤ 4 * limit)
    (hmod : (i * i + j * j + k * k) % 4 = 2) :
    ∀ (fuel i0 : Nat) (t t1 : SquaresTable), i0 ≤ i →
      (i * i + j * j + k * k - 2) / 4 < t.length →
      tableLoopI limit fuel i0 t = some t1 →
      ∃ x y z : Int, t1[(i * i + j * j + k * k - 2) / 4]? = some [x, y, z] := by
  intro fuel
  induction fuel with
  | zero => intro i0 t t1 _ _ h; simp [tableLoopI] at h
  | succ fuel ih =>
    intro i0 t t1 hi hlen h
    have hle : i0 * i0 ≤ 4 * limit := by
      have := Nat.mul_le_mul hi hi
      omega
    rw [tableLoopI, if_pos hle] at h
    split at h
    · cases h
    · rename_i t2 ht2
      by_cases hii : i0 = i
      · subst hii
        exact tableLoopI_preserves
          (fun t => ∃ x y z : Int, t[(i0 * i0 + j * j + k * k - 2) / 4]? = some [x, y, z])
          limit (fun t i1 j1 k1 ht _ _ => filled_set t _ _ _ _ _ ht) _ _ _ _ h
          (tableLoopJ_fills limit i0 j k hsum hmod _ 0 t t2 (by omega) hlen ht2)
      · exact ih (i0 + 1) _ _ (by omega)
          (by rw [tableLoopJ_length limit i0 _ _ t t2 ht2]; exact hlen) h

/-- The enumeration fills the entry of every value `v ≤ 4 * L` congruent to 2
modulo 4: such a value is a sum of three squares, and the loops reach every
triple of that sum. -/
theorem GenerateSquaresTable_fills (L : Nat) (t : SquaresTable)
    (ht : GenerateSquaresTable L = some t) (v : Nat) (hv : v ≤ 4 * L) (hmod : v % 4 = 2) :
    ∃ x y z : Int, t[(v - 2) / 4]? = some [x, y, z] := by
  obtain ⟨i, j, k, hijk⟩ := sum_three_squares_of_mod_four v hmod
  subst hijk
  unfold GenerateSquaresTable at ht
  exact tableLoopI_fills L i j k hv hmod _ 0 _ t (by omega)
    (by rw [List.length_replicate]; omega) ht

/-- C30: for every limit `L` the table is generated, and for every `delta`
that passes the guard of `Split` (`delta` fits an int64, `0 ≤ delta < L + 1`,
the length of the table, and `delta mod 4 = 2`) the entry `(delta - 2) / 4`
that `Split` reads holds a triple, so that the three components are read in
bounds and `Split` returns them. No bound on `L` is needed: the enumeration
is modelled over the unbounded integers. -/
theorem Split_table_reads_filled_entry (L : Nat) :
    ∃ t, GenerateSquaresTable L = some t ∧ t.length = L + 1 ∧ ∀ delta : Int,
      IsInt64 delta → 0 ≤ delta → delta < (t.length : Int) → delta.tmod 4 = 2 →
      ∃ x y z : Int, t[((delta - 2).tdiv 4).toNat]? = some [x, y, z] ∧
        t.Split delta = .ok [x, y, z] := by
  obtain ⟨t, ht⟩ := GenerateSquaresTable_total L
  obtain ⟨-, hlen⟩ := GenerateSquaresTable_sound L t ht
  refine ⟨t, ht, hlen, fun delta h64 h0 hlt hmod => ?_⟩
  rw [hlen] at hlt
  have hmod2 : delta % 4 = 2 := by
    rw [← Int.tmod_eq_emod h0 (by decide)]
    exact hmod
  obtain ⟨v, rfl⟩ := Int.eq_ofNat_of_zero_le h0
  have hidx : (((v : Int) - 2).tdiv 4).toNat = (v - 2) / 4 := by
    rw [Int.tdiv_eq_ediv (by omega) (by decide)]
    omega
  obtain ⟨x, y, z, hxyz⟩ := GenerateSquaresTable_fills L t ht v (by omega) (by omega)
  refine ⟨x, y, z, by rw [hidx]; exact hxyz, ?_⟩
  unfold SquaresTable.Split
  simp only
  rw [if_neg (by
    push_neg
    exact ⟨h64, h0, by rw [hlen]; exact_mod_cast hlt, hmod⟩)]
  simp only [hidx, hxyz]
  rfl

end Rangeproof
